import Mathlib

/-!
# LogicTime: causal-ordering timestamps

A shallow embedding of the vector-clock encodings of the repository
(`src/src/*.c`, `src/encoded_clock.c`, `src/vector_clock.c`) and proofs of the
properties its specification states about them.

Modelling conventions
* A C `int` counter is a mathematical integer (`Int`): signed overflow is
  undefined behaviour in C, so the model describes the defined executions.
* A C `int` array is a `List Int`; `rd a i` reads cell `i` and `List.set`
  writes it.  A read outside the list yields `0` (in C it is undefined).
* `n` and `pid` of a timestamp are naturals: the data model has `n >= 1` and
  `0 <= pid < n`.
* `unsigned long long` values are naturals, reduced modulo `2^64` where the C
  arithmetic wraps; `size_t` byte counts are naturals.
* A `while` loop that may not terminate takes a fuel argument and yields
  `none` when the fuel is exhausted.
-/

namespace LogicTime

/-! ## Shared data model (`src/include/timestamp.h`) -/

/-- The `sizeof(int)` of the reference platform. -/
def sizeof_int : Nat := 4

/-- Array read `a[i]`. -/
def rd (a : List Int) (i : Nat) : Int := a.getD i 0

/-- Effect of `memcpy(dst, src, k * sizeof(int))` on the destination array. -/
def memcpy_ints (dst src : List Int) (k : Nat) : List Int :=
  src.take k ++ dst.drop k

/-- Byte count `(size_t)x * sizeof(int)` for a C `int` expression `x`: the
conversion to `size_t` and the product wrap modulo `2^64`. -/
def int_bytes (x : Int) : Nat := ((x * 4) % 2 ^ 64).toNat

/-- The enum `ClockType` (with the `CLOCK_COMPRESSED` tag used by the dispatch). -/
inductive ClockType where
  | CLOCK_STANDARD
  | CLOCK_SPARSE
  | CLOCK_DIFFERENTIAL
  | CLOCK_ENCODED
  | CLOCK_COMPRESSED
  deriving DecidableEq, Repr

/-- The enum `TSOrder`. -/
inductive TSOrder where
  | TS_BEFORE
  | TS_AFTER
  | TS_CONCURRENT
  | TS_EQUAL
  deriving DecidableEq, Repr

/-- The enum `VCOrder` of `src/vector_clock.c`. -/
inductive VCOrder where
  | VC_BEFORE
  | VC_AFTER
  | VC_CONCURRENT
  | VC_EQUAL
  deriving DecidableEq, Repr

/-- The struct `Timestamp`; `data` is the encoding-specific payload the
`void *data` pointer refers to. -/
structure Timestamp (D : Type) where
  n : Nat
  pid : Nat
  type : ClockType
  data : D
  data_size : Nat
  deriving DecidableEq, Repr

/-! ## The causal-order loop

Every `*_compare` function of the repository runs the same loop over four
flags and ends with the same cascade of tests. -/

/-- The four local flags `a_le_b, b_le_a, a_lt_b, b_lt_a` of a compare function. -/
structure CmpFlags where
  a_le_b : Bool
  b_le_a : Bool
  a_lt_b : Bool
  b_lt_a : Bool
  deriving DecidableEq, Repr

/-- Initial flags: `a_le_b = 1, b_le_a = 1, a_lt_b = 0, b_lt_a = 0`. -/
def CmpFlags.init : CmpFlags := ⟨true, true, false, false⟩

/-- One iteration of the loop body on the two values `x = a[i]`, `y = b[i]`. -/
def cmp_step (f : CmpFlags) (x y : Int) : CmpFlags :=
  let f1 : CmpFlags := if x > y then ⟨false, f.b_le_a, f.a_lt_b, true⟩ else f
  if y > x then ⟨f1.a_le_b, false, true, f1.b_lt_a⟩ else f1

/-- The loop `for (int i = 0; i < n; i++)` of a compare function, reading the
two sides through `ra` and `rb`. -/
def cmp_loop (ra rb : Nat → Int) (n : Nat) : CmpFlags :=
  (List.range n).foldl (fun f i => cmp_step f (ra i) (rb i)) CmpFlags.init

/-- The final cascade of `return`s of the `TSOrder` compare functions. -/
def ts_verdict (f : CmpFlags) : TSOrder :=
  if f.a_le_b && f.b_le_a then TSOrder.TS_EQUAL
  else if f.a_le_b && f.a_lt_b then TSOrder.TS_BEFORE
  else if f.b_le_a && f.b_lt_a then TSOrder.TS_AFTER
  else TSOrder.TS_CONCURRENT

/-- The loop body `if (other[i] > v[i]) v[i] = other[i];` shared by the
full-vector merges. -/
def merge_max_step (other : List Int) (v : List Int) (i : Nat) : List Int :=
  if rd other i > rd v i then v.set i (rd other i) else v

/-! ## `src/vector_clock.c` -/

/-- The function `vc_compare_raw(a, b, n)`. -/
def vc_compare_raw (a b : List Int) (n : Nat) : VCOrder :=
  let f := cmp_loop (rd a) (rd b) n
  if f.a_le_b && f.b_le_a then VCOrder.VC_EQUAL
  else if f.a_le_b && f.a_lt_b then VCOrder.VC_BEFORE
  else if f.b_le_a && f.b_lt_a then VCOrder.VC_AFTER
  else VCOrder.VC_CONCURRENT

/-- The struct `VectorClock`. -/
structure VectorClock where
  n : Nat
  pid : Nat
  v : List Int
  deriving DecidableEq, Repr

/-- The function `vc_merge(dst, other)`. -/
def vc_merge (dst : VectorClock) (other : List Int) : VectorClock :=
  { dst with v := (List.range dst.n).foldl (merge_max_step other) dst.v }

/-! ## Standard encoding (`src/src/standard_clock.c`) -/

/-- The struct `StandardClockData`. -/
structure StandardClockData where
  v : List Int
  deriving DecidableEq, Repr

/-- The function `standard_create`. -/
def standard_create (n pid : Nat) (type : ClockType) : Timestamp StandardClockData :=
  { n := n, pid := pid, type := type, data := ⟨List.replicate n 0⟩,
    data_size := n * sizeof_int }

/-- The function `standard_increment`, with the counter taken as an unbounded
integer (`standard_increment_int32` is the increment on 32 bits). -/
def standard_increment (ts : Timestamp StandardClockData) : Timestamp StandardClockData :=
  { ts with data := ⟨ts.data.v.set ts.pid (rd ts.data.v ts.pid + 1)⟩ }

/-- The function `standard_merge`; `other_size` is not inspected. -/
def standard_merge (dst : Timestamp StandardClockData) (other_data : List Int)
    (_other_size : Nat) : Timestamp StandardClockData :=
  { dst with data := ⟨(List.range dst.n).foldl (merge_max_step other_data) dst.data.v⟩ }

/-- The function `standard_compare`; `none` is the `exit(1)` taken when the
two process counts differ. -/
def standard_compare (a b : Timestamp StandardClockData) : Option TSOrder :=
  if a.n ≠ b.n then none
  else some (ts_verdict (cmp_loop (rd a.data.v) (rd b.data.v) a.n))

/-! ## Sparse encoding (`src/src/sparse_clock.c`) -/

/-- The struct `SparseEntry`. -/
structure SparseEntry where
  pid : Int
  counter : Int
  deriving DecidableEq, Repr

/-- The struct `SparseClockData`; `entries` holds the first `count` slots of
the backing array, so the field `count` is the length of the list. -/
structure SparseClockData where
  entries : List SparseEntry
  capacity : Nat
  deriving DecidableEq, Repr

/-- The field `count` of `SparseClockData`. -/
def SparseClockData.count (d : SparseClockData) : Nat := d.entries.length

/-- The function `sparse_create`. -/
def sparse_create (n pid : Nat) (type : ClockType) : Timestamp SparseClockData :=
  { n := n, pid := pid, type := type, data := ⟨[], n⟩, data_size := 0 }

/-- The search loop of `sparse_increment`: the first entry whose pid is `pid`
has its counter incremented; `none` when the loop ends without a match. The
counter is taken as an unbounded integer (`sparse_increment_scan_int32` is the
loop on 32 bits). -/
def sparse_increment_scan (pid : Int) : List SparseEntry → Option (List SparseEntry)
  | [] => none
  | e :: es =>
    if e.pid = pid then some (⟨e.pid, e.counter + 1⟩ :: es)
    else (sparse_increment_scan pid es).map (fun r => e :: r)

/-- The function `sparse_increment`. -/
def sparse_increment (ts : Timestamp SparseClockData) : Timestamp SparseClockData :=
  match sparse_increment_scan ts.pid ts.data.entries with
  | some es => { ts with data := ⟨es, ts.data.capacity⟩ }
  | none =>
    let capacity :=
      if ts.data.count ≥ ts.data.capacity then ts.data.capacity * 2 else ts.data.capacity
    { ts with data := ⟨ts.data.entries ++ [⟨ts.pid, 1⟩], capacity⟩ }

/-- The lookup loop of `sparse_compare`: `val = 0`, then the counter of the
first entry whose pid is `pid` (the loop `break`s there). -/
def sparse_value (pid : Int) : List SparseEntry → Int
  | [] => 0
  | e :: es => if e.pid = pid then e.counter else sparse_value pid es

/-- The function `sparse_compare`. -/
def sparse_compare (a b : Timestamp SparseClockData) : TSOrder :=
  ts_verdict
    (cmp_loop (fun pid => sparse_value pid a.data.entries)
      (fun pid => sparse_value pid b.data.entries) a.n)

/-! ## Differential encoding (`src/src/differential_clock.c`) -/

/-- The struct `DifferentialClockData` of the LS/LU implementation. -/
structure DifferentialClockData where
  v : List Int
  LS : List Int
  LU : List Int
  deriving DecidableEq, Repr

/-- The function `differential_create`. -/
def differential_create (n pid : Nat) (type : ClockType) : Timestamp DifferentialClockData :=
  { n := n, pid := pid, type := type,
    data := ⟨List.replicate n 0, List.replicate n 0, List.replicate n 0⟩, data_size := 0 }

/-- The function `differential_increment`, with the counter taken as an
unbounded integer (`differential_increment_int32` is the increment on 32 bits). -/
def differential_increment (ts : Timestamp DifferentialClockData) :
    Timestamp DifferentialClockData :=
  let v := ts.data.v.set ts.pid (rd ts.data.v ts.pid + 1)
  { ts with data := ⟨v, ts.data.LS, ts.data.LU.set ts.pid (rd v ts.pid)⟩ }

/-- Body of the full-vector loop of `differential_merge` at index `i`. -/
def differential_merge_full_step (pid : Nat) (other_v : List Int)
    (d : DifferentialClockData) (i : Nat) : DifferentialClockData :=
  if rd other_v i > rd d.v i then
    let v := d.v.set i (rd other_v i)
    ⟨v, d.LS, d.LU.set i (rd v pid + 1)⟩
  else d

/-- Body of the pair loop of `differential_merge` for the pair `(k, val)`. -/
def differential_merge_pair_step (n pid : Nat) (d : DifferentialClockData)
    (k val : Int) : DifferentialClockData :=
  if k ≥ 0 ∧ k < (n : Int) ∧ val > rd d.v k.toNat then
    let v := d.v.set k.toNat val
    ⟨v, d.LS, d.LU.set k.toNat (rd v pid + 1)⟩
  else d

/-- The function `differential_merge`: `other_data` is the buffer read as
`int`s and `other_size` its length in bytes. -/
def differential_merge (dst : Timestamp DifferentialClockData) (other_data : List Int)
    (other_size : Nat) : Timestamp DifferentialClockData :=
  let d1 : DifferentialClockData :=
    if other_size = dst.n * sizeof_int then
      (List.range dst.n).foldl (differential_merge_full_step dst.pid other_data) dst.data
    else
      let pair_count := other_size / (2 * sizeof_int)
      (List.range pair_count).foldl
        (fun d i =>
          differential_merge_pair_step dst.n dst.pid d (rd other_data (i * 2))
            (rd other_data (i * 2 + 1)))
        dst.data
  let v := d1.v.set dst.pid (rd d1.v dst.pid + 1)
  { dst with data := ⟨v, d1.LS, d1.LU.set dst.pid (rd v dst.pid)⟩ }

/-- The function `differential_compare`. -/
def differential_compare (a b : Timestamp DifferentialClockData) : TSOrder :=
  ts_verdict (cmp_loop (rd a.data.v) (rd b.data.v) a.n)

/-- The statement `buf[idx++] = x` on the pair (buffer, index). -/
def emit (st : List Int × Nat) (x : Int) : List Int × Nat :=
  (st.1.set st.2 x, st.2 + 1)

/-- The test `LS[dest] < LU[k] || k == pid` of `differential_serialize_for_dest`. -/
def differential_sends (ts : Timestamp DifferentialClockData) (dest k : Nat) : Bool :=
  decide (rd ts.data.LS dest < rd ts.data.LU k) || decide (k = ts.pid)

/-- The function `differential_serialize_for_dest`: returns the timestamp
(whose `LS` the call may update), the buffer and the returned byte count. -/
def differential_serialize_for_dest (ts : Timestamp DifferentialClockData) (dest : Nat)
    (buffer : List Int) (bufsize : Nat) :
    Timestamp DifferentialClockData × List Int × Nat :=
  let send_count := (List.range ts.n).foldl
    (fun c k => if differential_sends ts dest k then c + 1 else c) 0
  let required := send_count * 2 * sizeof_int
  if bufsize ≥ required then
    let out := (List.range ts.n).foldl
      (fun st k =>
        if differential_sends ts dest k then emit (emit st k) (rd ts.data.v k) else st)
      (buffer, 0)
    ({ ts with data := ⟨ts.data.v, ts.data.LS.set dest (rd ts.data.v ts.pid), ts.data.LU⟩ },
      out.1, required)
  else (ts, buffer, required)

/-! ## Compressed encoding (`src/src/compressed_clock.c`) -/

/-- The struct `CompressedClockData`. -/
structure CompressedClockData where
  vt : List Int
  tau : List (List Int)
  n : Nat
  deriving DecidableEq, Repr

/-- The function `compressed_create`. -/
def compressed_create (n pid : Nat) (type : ClockType) : Timestamp CompressedClockData :=
  { n := n, pid := pid, type := type,
    data := ⟨List.replicate n 0, List.replicate n (List.replicate n 0), n⟩, data_size := 0 }

/-- The function `compressed_increment`, with the counter taken as an unbounded
integer (`compressed_increment_int32` is the increment on 32 bits). -/
def compressed_increment (ts : Timestamp CompressedClockData) :
    Timestamp CompressedClockData :=
  { ts with data := ⟨ts.data.vt.set ts.pid (rd ts.data.vt ts.pid + 1), ts.data.tau, ts.data.n⟩ }

/-- Body of the pair loop of `compressed_merge` for the pair `(index, value)`. -/
def compressed_merge_pair_step (n : Nat) (vt : List Int) (index value : Int) : List Int :=
  if index ≥ 0 ∧ index < (n : Int) ∧ value > rd vt index.toNat then
    vt.set index.toNat value
  else vt

/-- The function `compressed_merge`: `other_data` is the buffer read as `int`s
and `other_size` its length in bytes. -/
def compressed_merge (dst : Timestamp CompressedClockData) (other_data : List Int)
    (other_size : Nat) : Timestamp CompressedClockData :=
  let vt1 : List Int :=
    if other_size = dst.n * sizeof_int then
      (List.range dst.n).foldl (merge_max_step other_data) dst.data.vt
    else if other_size ≥ sizeof_int then
      let count := rd other_data 0
      if other_size ≥ int_bytes (1 + 2 * count) then
        (List.range count.toNat).foldl
          (fun vt i =>
            compressed_merge_pair_step dst.n vt (rd other_data (1 + i * 2))
              (rd other_data (1 + i * 2 + 1)))
          dst.data.vt
      else dst.data.vt
    else dst.data.vt
  { dst with data := ⟨vt1.set dst.pid (rd vt1 dst.pid + 1), dst.data.tau, dst.data.n⟩ }

/-- The function `compressed_compare`. -/
def compressed_compare (a b : Timestamp CompressedClockData) : TSOrder :=
  ts_verdict (cmp_loop (rd a.data.vt) (rd b.data.vt) a.n)

/-- Row `tau[dest]` of the matrix. -/
def tau_row (d : CompressedClockData) (dest : Nat) : List Int := d.tau.getD dest []

/-- The test `tau[dest][k] != vt[k]` of `compressed_serialize_for_dest`. -/
def compressed_differs (d : CompressedClockData) (dest k : Nat) : Bool :=
  decide (rd (tau_row d dest) k ≠ rd d.vt k)

/-- The function `compressed_serialize_for_dest`: returns the timestamp (whose
`tau` the call may update), the buffer and the returned byte count. -/
def compressed_serialize_for_dest (ts : Timestamp CompressedClockData) (dest : Nat)
    (buffer : List Int) (bufsize : Nat) :
    Timestamp CompressedClockData × List Int × Nat :=
  let data := ts.data
  let diff_count := (List.range data.n).foldl
    (fun c k => if compressed_differs data dest k then c + 1 else c) 0
  let compressed_size := (1 + 2 * diff_count) * sizeof_int
  let full_size := data.n * sizeof_int
  let remembered : Timestamp CompressedClockData :=
    { ts with data :=
        ⟨data.vt, data.tau.set dest (memcpy_ints (tau_row data dest) data.vt data.n), data.n⟩ }
  if compressed_size ≤ full_size ∧ diff_count > 0 then
    if bufsize ≥ compressed_size then
      let out := (List.range data.n).foldl
        (fun st k =>
          if compressed_differs data dest k then emit (emit st k) (rd data.vt k) else st)
        (emit (buffer, 0) diff_count)
      (remembered, out.1, compressed_size)
    else (ts, buffer, compressed_size)
  else
    if bufsize ≥ full_size then
      (remembered, memcpy_ints buffer data.vt data.n, full_size)
    else (ts, buffer, full_size)

/-! ## Encoded encoding (`src/encoded_clock.c`) -/

/-- The table `PRIMES`. -/
def PRIMES : List Nat :=
  [2, 3, 5, 7, 11, 13, 17, 19, 23, 29, 31, 37, 41, 43, 47, 53, 59, 61, 67, 71, 73, 79,
    83, 89, 97]

/-- The constant `MAX_PRIMES`. -/
def MAX_PRIMES : Nat := 25

/-- The struct `EncodedClockData`; `value` is an `unsigned long long`. -/
structure EncodedClockData where
  value : Nat
  overflow : Bool
  fallback_v : List Int
  deriving DecidableEq, Repr

/-- The loop `while (temp % p == 0) { v[i]++; temp /= p; }` on the pair
(`temp`, `v[i]`); `none` when `fuel` iterations do not end it. -/
def divide_out (p : Nat) : Nat → Nat → Int → Option (Nat × Int)
  | 0, _, _ => none
  | fuel + 1, temp, cnt =>
    if temp % p = 0 then divide_out p fuel (temp / p) (cnt + 1) else some (temp, cnt)

/-- The decoding loop `for (i = 0; i < n; i++) while (temp % PRIMES[i] == 0) ...`
started on a zeroed array of `MAX_PRIMES` cells. -/
def decode_value (fuel n value : Nat) : Option (List Int) :=
  ((List.range n).foldl
    (fun (st : Option (Nat × List Int)) i =>
      st.bind (fun s =>
        (divide_out (PRIMES.getD i 0) fuel s.1 (rd s.2 i)).map
          (fun r => (r.1, s.2.set i r.2))))
    (some (value, List.replicate MAX_PRIMES 0))).map (fun s => s.2)

/-- The local array a side of `encoded_compare` is decoded into. -/
def encoded_decode (fuel : Nat) (ts : Timestamp EncodedClockData) : Option (List Int) :=
  if ts.data.overflow then
    some (memcpy_ints (List.replicate MAX_PRIMES 0) ts.data.fallback_v ts.n)
  else decode_value fuel ts.n ts.data.value

/-- The function `encoded_compare`; `none` when a decoding loop does not end
within `fuel` iterations. -/
def encoded_compare (fuel : Nat) (a b : Timestamp EncodedClockData) : Option TSOrder :=
  (encoded_decode fuel a).bind (fun a_v =>
    (encoded_decode fuel b).map (fun b_v =>
      ts_verdict (cmp_loop (rd a_v) (rd b_v) a.n)))

/-! ## Logical vectors and payload shapes used to state the properties -/

/-- Logical vector of a Sparse timestamp: entry `k` is the counter of the first
entry with pid `k`, or `0` if there is none. -/
def sparse_logical (n : Nat) (entries : List SparseEntry) : List Int :=
  (List.range n).map (fun (k : Nat) =>
    match entries.find? (fun e => decide (e.pid = (k : Int))) with
    | some e => e.counter
    | none => 0)

/-- Exponent vector of a product: entry `i` is the exponent of the `i`-th
prime of the table in `value`. -/
def exponent_vector (n value : Nat) : List Int :=
  (List.range n).map (fun (i : Nat) => ((value.factorization (PRIMES.getD i 0) : Nat) : Int))

/-- Decoded vector of an Encoded timestamp: the fallback vector when the
overflow flag is set, the exponent vector of the product otherwise. -/
def encoded_logical (ts : Timestamp EncodedClockData) : List Int :=
  if ts.data.overflow then ts.data.fallback_v else exponent_vector ts.n ts.data.value

/-- A Standard timestamp holding the vector `v`. -/
def standard_of (n pid : Nat) (v : List Int) : Timestamp StandardClockData :=
  { n := n, pid := pid, type := ClockType.CLOCK_STANDARD, data := ⟨v⟩,
    data_size := n * sizeof_int }

/-- The `int`s of a list of `(index, value)` pairs laid out one after the other. -/
def flat_pairs : List (Int × Int) → List Int
  | [] => []
  | p :: ps => p.1 :: p.2 :: flat_pairs ps

/-- The largest of `x` and the values `xs`. -/
def max_with (x : Int) (xs : List Int) : Int := xs.foldl max x

/-- The pairs `(k, v[k])`, in increasing `k`, of the entries with
`LS[dest] < LU[k]` or `k = pid`. -/
def differential_delta (ts : Timestamp DifferentialClockData) (dest : Nat) :
    List (Int × Int) :=
  ((List.range ts.n).filter
    (fun k => decide (rd ts.data.LS dest < rd ts.data.LU k ∨ k = ts.pid))).map
    (fun (k : Nat) => ((k : Int), rd ts.data.v k))

/-- The pairs `(k, vt[k])`, in increasing `k`, of the entries with
`tau[dest][k] != vt[k]`. -/
def compressed_delta (d : CompressedClockData) (dest : Nat) : List (Int × Int) :=
  ((List.range d.n).filter (fun k => decide (rd (tau_row d dest) k ≠ rd d.vt k))).map
    (fun (k : Nat) => ((k : Int), rd d.vt k))

/-! ## Sequences of operations -/

/-- An operation a process applies to its timestamp: a local event, the merge
of a received payload, or a destination-aware serialization. -/
inductive Event where
  | increment
  | merge (other_data : List Int) (other_size : Nat)
  | serialize_for_dest (dest : Nat) (buffer : List Int) (bufsize : Nat)
  deriving DecidableEq, Repr

/-- The `(index, value)` pairs a payload holds: `count` pairs read from the
`int` at position `off` on. -/
def payload_pairs (data : List Int) (off count : Nat) : List (Int × Int) :=
  (List.range count).map (fun (i : Nat) => (rd data (off + i * 2), rd data (off + i * 2 + 1)))

/-- The state `differential_merge` reaches after its update loop, before the
receive event. -/
def differential_merge_loop (dst : Timestamp DifferentialClockData) (other_data : List Int)
    (other_size : Nat) : DifferentialClockData :=
  if other_size = dst.n * sizeof_int then
    (List.range dst.n).foldl (differential_merge_full_step dst.pid other_data) dst.data
  else
    (List.range (other_size / (2 * sizeof_int))).foldl
      (fun d i =>
        differential_merge_pair_step dst.n dst.pid d (rd other_data (i * 2))
          (rd other_data (i * 2 + 1)))
      dst.data

/-- The vector `compressed_merge` reaches after its update loop, before the
receive event. -/
def compressed_merge_loop (dst : Timestamp CompressedClockData) (other_data : List Int)
    (other_size : Nat) : List Int :=
  if other_size = dst.n * sizeof_int then
    (List.range dst.n).foldl (merge_max_step other_data) dst.data.vt
  else if other_size ≥ sizeof_int then
    if other_size ≥ int_bytes (1 + 2 * rd other_data 0) then
      (List.range (rd other_data 0).toNat).foldl
        (fun vt i =>
          compressed_merge_pair_step dst.n vt (rd other_data (1 + i * 2))
            (rd other_data (1 + i * 2 + 1)))
        dst.data.vt
    else dst.data.vt
  else dst.data.vt

/-! ## Serialization and the remaining merges -/

/-- The function `standard_serialize`: the buffer after the call and the
returned byte count. -/
def standard_serialize (ts : Timestamp StandardClockData) (buffer : List Int)
    (bufsize : Nat) : List Int × Nat :=
  let required := ts.n * sizeof_int
  (if bufsize ≥ required then memcpy_ints buffer ts.data.v ts.n else buffer, required)

/-- The function `differential_serialize` (full vector, for compatibility). -/
def differential_serialize (ts : Timestamp DifferentialClockData) (buffer : List Int)
    (bufsize : Nat) : List Int × Nat :=
  let required := ts.n * sizeof_int
  (if bufsize ≥ required then memcpy_ints buffer ts.data.v ts.n else buffer, required)

/-- The function `compressed_serialize` (full vector, for compatibility). -/
def compressed_serialize (ts : Timestamp CompressedClockData) (buffer : List Int)
    (bufsize : Nat) : List Int × Nat :=
  let required := ts.n * sizeof_int
  (if bufsize ≥ required then memcpy_ints buffer ts.data.vt ts.n else buffer, required)

/-- Memory image of an array of `SparseEntry`: `pid`, `counter`, `pid`, ... -/
def sparse_words : List SparseEntry → List Int
  | [] => []
  | e :: es => e.pid :: e.counter :: sparse_words es

/-- The function `sparse_serialize`; `sizeof(SparseEntry)` is two `int`s. -/
def sparse_serialize (ts : Timestamp SparseClockData) (buffer : List Int)
    (bufsize : Nat) : List Int × Nat :=
  let required := ts.data.count * (2 * sizeof_int)
  (if bufsize ≥ required then
      memcpy_ints buffer (sparse_words ts.data.entries) (2 * ts.data.count)
    else buffer, required)

/-- The search loop of `sparse_merge` for one incoming pair: the first entry
whose pid is `other_pid` takes the larger counter; `none` when not found. -/
def sparse_merge_scan (other_pid other_counter : Int) :
    List SparseEntry → Option (List SparseEntry)
  | [] => none
  | e :: es =>
    if e.pid = other_pid then
      some ((if other_counter > e.counter then ⟨e.pid, other_counter⟩ else e) :: es)
    else (sparse_merge_scan other_pid other_counter es).map (fun r => e :: r)

/-- Body of the outer loop of `sparse_merge` for one incoming pair. -/
def sparse_merge_entry (d : SparseClockData) (other_pid other_counter : Int) :
    SparseClockData :=
  match sparse_merge_scan other_pid other_counter d.entries with
  | some es => ⟨es, d.capacity⟩
  | none =>
    ⟨d.entries ++ [⟨other_pid, other_counter⟩],
      if d.count ≥ d.capacity then d.capacity * 2 else d.capacity⟩

/-- The function `sparse_merge`. -/
def sparse_merge (dst : Timestamp SparseClockData) (other_data : List Int)
    (other_size : Nat) : Timestamp SparseClockData :=
  let other_count := other_size / (2 * sizeof_int)
  let merged := (List.range other_count).foldl
    (fun d i => sparse_merge_entry d (rd other_data (i * 2)) (rd other_data (i * 2 + 1)))
    dst.data
  { dst with data := merged }

/-- The function `sparse_deserialize`: the first `size / sizeof(SparseEntry)`
pairs of the buffer replace the entries, whatever pids they carry. -/
def sparse_deserialize (ts : Timestamp SparseClockData) (buffer : List Int) (size : Nat) :
    Timestamp SparseClockData :=
  let count := size / (2 * sizeof_int)
  let capacity := if count > ts.data.capacity then count else ts.data.capacity
  let entries := (List.range count).map
    (fun (i : Nat) => (⟨rd buffer (i * 2), rd buffer (i * 2 + 1)⟩ : SparseEntry))
  { ts with data := ⟨entries, capacity⟩ }

/-! ## Encoded encoding: create, increment, merge, serialize -/

/-- The `sizeof(unsigned long long)` of the reference platform. -/
def sizeof_ull : Nat := 8

/-- The `int` whose 32 bits are the unsigned word `w`. -/
def to_int32 (w : Nat) : Int := if w < 2 ^ 31 then (w : Int) else (w : Int) - 2 ^ 32

/-- The two `int`-sized words an `unsigned long long` occupies, low word first
(little-endian, as on the reference platform). -/
def u64_words (value : Nat) : List Int :=
  [to_int32 (value % 2 ^ 32), to_int32 (value / 2 ^ 32 % 2 ^ 32)]

/-- The read `*(const unsigned long long*)buf` of the first two words of a buffer. -/
def read_u64 (buf : List Int) : Nat :=
  (rd buf 0 % 2 ^ 32).toNat + 2 ^ 32 * (rd buf 1 % 2 ^ 32).toNat

/-- The function `encoded_create`; `none` is the `exit(1)` taken when `n`
exceeds `MAX_PRIMES`. -/
def encoded_create (n pid : Nat) (type : ClockType) : Option (Timestamp EncodedClockData) :=
  if n > MAX_PRIMES then none
  else some { n := n, pid := pid, type := type, data := ⟨1, false, List.replicate n 0⟩,
              data_size := sizeof_ull }

/-- The decoding loop run on an existing array `arr` (the fallback vector in
`encoded_increment`), each cell being incremented in place. -/
def decode_into (fuel n value : Nat) (arr : List Int) : Option (List Int) :=
  ((List.range n).foldl
    (fun (st : Option (Nat × List Int)) i =>
      st.bind (fun s =>
        (divide_out (PRIMES.getD i 0) fuel s.1 (rd s.2 i)).map
          (fun r => (r.1, s.2.set i r.2))))
    (some (value, arr))).map (fun s => s.2)

/-- The function `encoded_increment`; `none` when a decoding loop does not end
within `fuel` iterations. -/
def encoded_increment (fuel : Nat) (ts : Timestamp EncodedClockData) :
    Option (Timestamp EncodedClockData) :=
  if ts.data.overflow then
    some { ts with data :=
      ⟨ts.data.value, ts.data.overflow,
        ts.data.fallback_v.set ts.pid (rd ts.data.fallback_v ts.pid + 1)⟩ }
  else
    let new_value := (ts.data.value * PRIMES.getD ts.pid 0) % 2 ^ 64
    if new_value / PRIMES.getD ts.pid 0 ≠ ts.data.value then
      (decode_into fuel ts.n ts.data.value ts.data.fallback_v).map (fun fv =>
        { ts with data := ⟨ts.data.value, true, fv.set ts.pid (rd fv ts.pid + 1)⟩ })
    else some { ts with data := ⟨new_value, ts.data.overflow, ts.data.fallback_v⟩ }

/-- The inner loop `for (j = 0; j < dst_v[i]; j++)` of the re-encoding in
`encoded_merge`: `count` multiplications by `p`; `none` when the overflow check
fires. -/
def reencode_prime (p : Nat) : Nat → Nat → Option Nat
  | 0, result => some result
  | count + 1, result =>
    let new_result := (result * p) % 2 ^ 64
    if new_result / p ≠ result then none else reencode_prime p count new_result

/-- The re-encoding loops of `encoded_merge`, started with `result = 1`; `none`
when `overflow_check` is set. -/
def reencode (n : Nat) (dst_v : List Int) : Option Nat :=
  (List.range n).foldl
    (fun (st : Option Nat) i =>
      st.bind (fun result => reencode_prime (PRIMES.getD i 0) (rd dst_v i).toNat result))
    (some 1)

/-- The function `encoded_merge`; `none` when a decoding loop does not end
within `fuel` iterations. -/
def encoded_merge (fuel : Nat) (dst : Timestamp EncodedClockData) (other_data : List Int)
    (other_size : Nat) : Option (Timestamp EncodedClockData) :=
  if other_size = sizeof_ull then
    let other_value := read_u64 other_data
    if dst.data.overflow then
      (decode_value fuel dst.n other_value).map (fun other_v =>
        { dst with data :=
          ⟨dst.data.value, dst.data.overflow,
            (List.range dst.n).foldl (merge_max_step other_v) dst.data.fallback_v⟩ })
    else
      (decode_value fuel dst.n dst.data.value).bind (fun dst_v0 =>
        (decode_value fuel dst.n other_value).map (fun other_v =>
          let dst_v := (List.range dst.n).foldl (merge_max_step other_v) dst_v0
          match reencode dst.n dst_v with
          | none =>
            { dst with data :=
              ⟨dst.data.value, true, memcpy_ints dst.data.fallback_v dst_v dst.n⟩ }
          | some result =>
            { dst with data := ⟨result, dst.data.overflow, dst.data.fallback_v⟩ }))
  else
    if ¬ dst.data.overflow then
      (decode_value fuel dst.n dst.data.value).map (fun dst_v =>
        { dst with data :=
          ⟨dst.data.value, true,
            (List.range dst.n).foldl (merge_max_step other_data)
              (memcpy_ints dst.data.fallback_v dst_v dst.n)⟩ })
    else
      some { dst with data :=
        ⟨dst.data.value, dst.data.overflow,
          (List.range dst.n).foldl (merge_max_step other_data) dst.data.fallback_v⟩ }

/-- The function `encoded_serialize`: the fallback vector when the overflow
flag is set, the 8 bytes of the product otherwise. -/
def encoded_serialize (ts : Timestamp EncodedClockData) (buffer : List Int)
    (bufsize : Nat) : List Int × Nat :=
  if ts.data.overflow then
    let required := ts.n * sizeof_int
    (if bufsize ≥ required then memcpy_ints buffer ts.data.fallback_v ts.n else buffer,
      required)
  else
    let required := sizeof_ull
    (if bufsize ≥ required then memcpy_ints buffer (u64_words ts.data.value) 2 else buffer,
      required)

/-! ## Sequences of operations on the other encodings -/

/-- Effect of one operation on a Standard timestamp (`ts_serialize_for_dest`
falls back to `standard_serialize`, which leaves the timestamp as it is). -/
def standard_apply (ts : Timestamp StandardClockData) : Event → Timestamp StandardClockData
  | Event.increment => standard_increment ts
  | Event.merge other_data other_size => standard_merge ts other_data other_size
  | Event.serialize_for_dest _ _ _ => ts

/-- The Standard timestamp reached from `ts` by a sequence of operations. -/
def standard_run (ts : Timestamp StandardClockData) (evs : List Event) :
    Timestamp StandardClockData :=
  evs.foldl standard_apply ts

/-- Effect of one operation on an Encoded timestamp; `none` when it does not
end within `fuel` iterations of a decoding loop. -/
def encoded_apply (fuel : Nat) (ts : Timestamp EncodedClockData) :
    Event → Option (Timestamp EncodedClockData)
  | Event.increment => encoded_increment fuel ts
  | Event.merge other_data other_size => encoded_merge fuel ts other_data other_size
  | Event.serialize_for_dest _ _ _ => some ts

/-- The Encoded timestamp reached from `ts` by a sequence of operations, if
every one of them ends. -/
def encoded_run (fuel : Nat) (ts : Timestamp EncodedClockData) (evs : List Event) :
    Option (Timestamp EncodedClockData) :=
  evs.foldl (fun st e => st.bind (fun s => encoded_apply fuel s e)) (some ts)

/-- The product of the first `k` primes of the table raised to the exponents `e`. -/
def prime_power_product (e : List Int) (k : Nat) : Nat :=
  (List.range k).foldl (fun acc i => acc * PRIMES.getD i 0 ^ (rd e i).toNat) 1

/-- The array a decoding of `value` over the first `n` primes leaves in its
`MAX_PRIMES` cells. -/
def exponent_array (n value : Nat) : List Int :=
  (List.range MAX_PRIMES).map
    (fun (i : Nat) => if i < n then ((value.factorization (PRIMES.getD i 0) : Nat) : Int) else 0)

/-- The values a pair list carries for the (possibly out-of-range) index `k`. -/
def carried (ps : List (Int × Int)) (k : Int) : List Int :=
  (ps.filter (fun p => decide (p.1 = k))).map (fun p => p.2)

/-- The `(pid, counter)` pairs of a Sparse entry list. -/
def sparse_pairs (es : List SparseEntry) : List (Int × Int) :=
  es.map (fun e => (e.pid, e.counter))

/-- Whether the entry list has an entry for `pid`. -/
def sparse_has (pid : Int) (es : List SparseEntry) : Bool :=
  es.any (fun e => decide (e.pid = pid))

/-- The data-model invariant of a Sparse entry list: at most one entry per pid. -/
def SparseInv (es : List SparseEntry) : Prop := (es.map (fun e => e.pid)).Nodup

/-- Shape of a Standard, Differential or Compressed vector between operations:
`n` cells, none negative. -/
def VecInv (n : Nat) (v : List Int) : Prop := v.length = n ∧ ∀ k, 0 ≤ rd v k

/-- The function `encoded_deserialize`: a buffer of `sizeof(unsigned long long)`
bytes replaces the product and clears the overflow flag, a buffer of
`n * sizeof(int)` bytes replaces the fallback vector and sets the flag, any
other size changes nothing. -/
def encoded_deserialize (ts : Timestamp EncodedClockData) (buffer : List Int) (size : Nat) :
    Timestamp EncodedClockData :=
  if size = sizeof_ull then
    { ts with data := ⟨read_u64 buffer, false, ts.data.fallback_v⟩ }
  else if size = ts.n * sizeof_int then
    { ts with data := ⟨ts.data.value, true, memcpy_ints ts.data.fallback_v buffer ts.n⟩ }
  else ts

/-- Body of the pair loop of `differential_deserialize` for the pair
`(pid, value)`. -/
def differential_deserialize_pair_step (n own : Nat) (d : DifferentialClockData)
    (pid value : Int) : DifferentialClockData :=
  if pid ≥ 0 ∧ pid < (n : Int) then
    if value > rd d.v pid.toNat then
      let v := d.v.set pid.toNat value
      ⟨v, d.LS, d.LU.set pid.toNat (rd v own + 1)⟩
    else d
  else d

/-- The function `differential_deserialize`. -/
def differential_deserialize (ts : Timestamp DifferentialClockData) (buffer : List Int)
    (size : Nat) : Timestamp DifferentialClockData :=
  if size = ts.n * sizeof_int then
    { ts with
        data := (List.range ts.n).foldl (differential_merge_full_step ts.pid buffer) ts.data }
  else
    let pair_count := size / (2 * sizeof_int)
    { ts with
        data := (List.range pair_count).foldl
          (fun d i =>
            differential_deserialize_pair_step ts.n ts.pid d (rd buffer (i * 2))
              (rd buffer (i * 2 + 1)))
          ts.data }

/-- The function `compressed_deserialize`. -/
def compressed_deserialize (ts : Timestamp CompressedClockData) (buffer : List Int)
    (size : Nat) : Timestamp CompressedClockData :=
  let vt1 : List Int :=
    if size = ts.n * sizeof_int then
      (List.range ts.n).foldl (merge_max_step buffer) ts.data.vt
    else if size ≥ sizeof_int then
      let count := rd buffer 0
      if size ≥ int_bytes (1 + 2 * count) then
        (List.range count.toNat).foldl
          (fun vt i =>
            compressed_merge_pair_step ts.n vt (rd buffer (1 + i * 2))
              (rd buffer (1 + i * 2 + 1)))
          ts.data.vt
      else ts.data.vt
    else ts.data.vt
  { ts with data := ⟨vt1, ts.data.tau, ts.data.n⟩ }

/-! ## Reference notions for the Encoded merge -/

/-- Pointwise maximum of the exponent vectors of `a` and `b` over the first
`n` primes of the table. -/
def max_exponents (n a b : Nat) : List Int :=
  (List.range n).map (fun (i : Nat) =>
    max ((a.factorization (PRIMES.getD i 0) : Nat) : Int)
      ((b.factorization (PRIMES.getD i 0) : Nat) : Int))

/-- The value `a` factors over the first `n` primes of the table. -/
def factors_over (n a : Nat) : Prop :=
  ∀ q : Nat, q.Prime → q ∣ a → ∃ i, i < n ∧ q = PRIMES.getD i 0

/-! ## The size-then-fill protocol -/

/-- The two-call protocol of a `serialize` function on the timestamp `ts` whose
wire payload is the list `payload` of `int`s. Every call returns the byte size
of `payload`, whatever the buffer and `bufsize` are; a smaller `bufsize` leaves
the buffer as it is; with a `bufsize` of at least that size, on a buffer that
has `bufsize` bytes, the call overwrites the first `int`s of the buffer with
`payload` and leaves the rest; and so does the call whose `bufsize` is the size
the sizing call `serialize(ts, NULL, 0)` returned. -/
def size_then_fill {D : Type} (serialize : Timestamp D → List Int → Nat → List Int × Nat)
    (ts : Timestamp D) (payload : List Int) : Prop :=
  (∀ (buffer : List Int) (bufsize : Nat),
    (serialize ts buffer bufsize).2 = payload.length * sizeof_int) ∧
  (∀ (buffer : List Int) (bufsize : Nat), bufsize < payload.length * sizeof_int →
    (serialize ts buffer bufsize).1 = buffer) ∧
  (∀ (buffer : List Int) (bufsize : Nat), payload.length * sizeof_int ≤ bufsize →
    bufsize ≤ sizeof_int * buffer.length →
    (serialize ts buffer bufsize).1 = payload ++ buffer.drop payload.length) ∧
  (∀ (buffer : List Int), (serialize ts [] 0).2 ≤ sizeof_int * buffer.length →
    serialize ts buffer (serialize ts [] 0).2
      = (payload ++ buffer.drop payload.length, payload.length * sizeof_int))

/-- The two-call protocol of a `serialize_for_dest` function on the timestamp
`ts` and the destination `dest`, whose wire payload is the list `payload` of
`int`s and whose state after a send is `sent`. Every call returns the byte size
of `payload`; a smaller `bufsize` leaves the buffer and the timestamp as they
are; with a `bufsize` of at least that size, on a buffer that has `bufsize`
bytes, the call overwrites the first `int`s of the buffer with `payload`,
leaves the rest and returns the timestamp `sent`; and so does the call that
follows the sizing call `serialize_for_dest(ts, dest, NULL, 0)` with a
`bufsize` of the size it returned. -/
def size_then_fill_dest {D : Type}
    (serialize_for_dest : Timestamp D → Nat → List Int → Nat → Timestamp D × List Int × Nat)
    (ts : Timestamp D) (dest : Nat) (payload : List Int) (sent : Timestamp D) : Prop :=
  (∀ (buffer : List Int) (bufsize : Nat),
    (serialize_for_dest ts dest buffer bufsize).2.2 = payload.length * sizeof_int) ∧
  (∀ (buffer : List Int) (bufsize : Nat), bufsize < payload.length * sizeof_int →
    serialize_for_dest ts dest buffer bufsize
      = (ts, buffer, payload.length * sizeof_int)) ∧
  (∀ (buffer : List Int) (bufsize : Nat), payload.length * sizeof_int ≤ bufsize →
    bufsize ≤ sizeof_int * buffer.length →
    serialize_for_dest ts dest buffer bufsize
      = (sent, payload ++ buffer.drop payload.length, payload.length * sizeof_int)) ∧
  (∀ (buffer : List Int),
    (serialize_for_dest ts dest [] 0).2.2 ≤ sizeof_int * buffer.length →
    serialize_for_dest (serialize_for_dest ts dest [] 0).1 dest buffer
        (serialize_for_dest ts dest [] 0).2.2
      = (sent, payload ++ buffer.drop payload.length, payload.length * sizeof_int))

/-! ## Pair lists read from a payload -/

/-- The pairs of a list whose index lies in `[0, n)`. -/
def in_range (n : Nat) (ps : List (Int × Int)) : List (Int × Int) :=
  ps.filter (fun p => decide (0 ≤ p.1 ∧ p.1 < (n : Int)))

/-- The pairs the pair loop of `differential_merge` and
`differential_deserialize` reads from a buffer of `size` bytes. -/
def differential_pairs (data : List Int) (size : Nat) : List (Int × Int) :=
  payload_pairs data 0 (size / (2 * sizeof_int))

/-- The pairs the pair loop of `compressed_merge` and `compressed_deserialize`
reads from a buffer of `size` bytes: none when the buffer is shorter than one
`int` or than its leading count announces. -/
def compressed_pairs (data : List Int) (size : Nat) : List (Int × Int) :=
  if size ≥ sizeof_int ∧ size ≥ int_bytes (1 + 2 * rd data 0) then
    payload_pairs data 1 (rd data 0).toNat
  else []

/-! ## The timestamp facade (`src/src/timestamp.c`) -/

/-- The encoding-specific state behind the `void *data` pointer of a timestamp. -/
inductive ClockData where
  | standard (d : StandardClockData)
  | sparse (d : SparseClockData)
  | differential (d : DifferentialClockData)
  | encoded (d : EncodedClockData)
  | compressed (d : CompressedClockData)
  deriving DecidableEq, Repr

/-- The timestamp `ts` read with the state `d` behind its data pointer. -/
def with_data {D E : Type} (ts : Timestamp D) (d : E) : Timestamp E :=
  { n := ts.n, pid := ts.pid, type := ts.type, data := d, data_size := ts.data_size }

/-- A Standard timestamp as the facade holds it. -/
def of_standard (ts : Timestamp StandardClockData) : Timestamp ClockData :=
  with_data ts (ClockData.standard ts.data)

/-- A Sparse timestamp as the facade holds it. -/
def of_sparse (ts : Timestamp SparseClockData) : Timestamp ClockData :=
  with_data ts (ClockData.sparse ts.data)

/-- A Differential timestamp as the facade holds it. -/
def of_differential (ts : Timestamp DifferentialClockData) : Timestamp ClockData :=
  with_data ts (ClockData.differential ts.data)

/-- An Encoded timestamp as the facade holds it. -/
def of_encoded (ts : Timestamp EncodedClockData) : Timestamp ClockData :=
  with_data ts (ClockData.encoded ts.data)

/-- A Compressed timestamp as the facade holds it. -/
def of_compressed (ts : Timestamp CompressedClockData) : Timestamp ClockData :=
  with_data ts (ClockData.compressed ts.data)

/-- The function `ts_create`: `get_ops(type)->create(n, pid, type)`; `none` is
the `exit(1)` of `encoded_create`. The process count is a natural number and
the allocations succeed: the `exit(1)` of `standard_create` on a failed
`calloc`, which a negative `n` takes, is not part of this definition, and
`ClockType` holds the five known types only. -/
def ts_create (n pid : Nat) (type : ClockType) : Option (Timestamp ClockData) :=
  match type with
  | ClockType.CLOCK_STANDARD => some (of_standard (standard_create n pid type))
  | ClockType.CLOCK_SPARSE => some (of_sparse (sparse_create n pid type))
  | ClockType.CLOCK_DIFFERENTIAL => some (of_differential (differential_create n pid type))
  | ClockType.CLOCK_ENCODED => (encoded_create n pid type).map of_encoded
  | ClockType.CLOCK_COMPRESSED => some (of_compressed (compressed_create n pid type))

/-- The function `ts_increment`: the operations table is chosen by the tag
`ts->type`; a state of another encoding behind the pointer is undefined in C
and yields `none`, as does a decoding loop that runs out of fuel. -/
def ts_increment (fuel : Nat) (ts : Timestamp ClockData) : Option (Timestamp ClockData) :=
  match ts.type, ts.data with
  | ClockType.CLOCK_STANDARD, ClockData.standard d =>
    some (of_standard (standard_increment (with_data ts d)))
  | ClockType.CLOCK_SPARSE, ClockData.sparse d =>
    some (of_sparse (sparse_increment (with_data ts d)))
  | ClockType.CLOCK_DIFFERENTIAL, ClockData.differential d =>
    some (of_differential (differential_increment (with_data ts d)))
  | ClockType.CLOCK_ENCODED, ClockData.encoded d =>
    (encoded_increment fuel (with_data ts d)).map of_encoded
  | ClockType.CLOCK_COMPRESSED, ClockData.compressed d =>
    some (of_compressed (compressed_increment (with_data ts d)))
  | _, _ => none

/-- The function `ts_merge`. -/
def ts_merge (fuel : Nat) (dst : Timestamp ClockData) (other_data : List Int)
    (other_size : Nat) : Option (Timestamp ClockData) :=
  match dst.type, dst.data with
  | ClockType.CLOCK_STANDARD, ClockData.standard d =>
    some (of_standard (standard_merge (with_data dst d) other_data other_size))
  | ClockType.CLOCK_SPARSE, ClockData.sparse d =>
    some (of_sparse (sparse_merge (with_data dst d) other_data other_size))
  | ClockType.CLOCK_DIFFERENTIAL, ClockData.differential d =>
    some (of_differential (differential_merge (with_data dst d) other_data other_size))
  | ClockType.CLOCK_ENCODED, ClockData.encoded d =>
    (encoded_merge fuel (with_data dst d) other_data other_size).map of_encoded
  | ClockType.CLOCK_COMPRESSED, ClockData.compressed d =>
    some (of_compressed (compressed_merge (with_data dst d) other_data other_size))
  | _, _ => none

/-- The function `ts_compare`: `none` is the `exit(1)` taken when the two type
tags differ (and that of `standard_compare`), a decoding loop that runs out of
fuel, or a state of another encoding behind a pointer. -/
def ts_compare (fuel : Nat) (a b : Timestamp ClockData) : Option TSOrder :=
  if a.type ≠ b.type then none
  else
    match a.type, a.data, b.data with
    | ClockType.CLOCK_STANDARD, ClockData.standard da, ClockData.standard db =>
      standard_compare (with_data a da) (with_data b db)
    | ClockType.CLOCK_SPARSE, ClockData.sparse da, ClockData.sparse db =>
      some (sparse_compare (with_data a da) (with_data b db))
    | ClockType.CLOCK_DIFFERENTIAL, ClockData.differential da, ClockData.differential db =>
      some (differential_compare (with_data a da) (with_data b db))
    | ClockType.CLOCK_ENCODED, ClockData.encoded da, ClockData.encoded db =>
      encoded_compare fuel (with_data a da) (with_data b db)
    | ClockType.CLOCK_COMPRESSED, ClockData.compressed da, ClockData.compressed db =>
      some (compressed_compare (with_data a da) (with_data b db))
    | _, _, _ => none

/-! ## The receive step of the harness (`src/src/simulation.c`) -/

/-- The fields of the struct `Message` the receive step reads. -/
structure Message where
  sender : Nat
  clock_type : ClockType
  timestamp_data : List Int
  timestamp_size : Nat
  deriving DecidableEq, Repr

/-- The fields of the struct `ProcCtx` the receive step reads and writes. -/
structure ProcCtx where
  pid : Nat
  n : Nat
  clock_type : ClockType
  ts : Timestamp ClockData
  deriving DecidableEq, Repr

/-- The function `do_try_recv` on the result `m` of `mq_try_pop`: the context
after the call and the returned `int`. The temporary `msg_ts` is created,
printed and destroyed; the context's timestamp is merged with the payload and
then incremented unless the clock type is `CLOCK_DIFFERENTIAL`. -/
def do_try_recv (fuel : Nat) (ctx : ProcCtx) (m : Option Message) : Option (ProcCtx × Int) :=
  match m with
  | none => some (ctx, 0)
  | some m =>
    (ts_create ctx.n m.sender m.clock_type).bind (fun _ =>
      (ts_merge fuel ctx.ts m.timestamp_data m.timestamp_size).bind (fun merged =>
        (if ctx.clock_type ≠ ClockType.CLOCK_DIFFERENTIAL then ts_increment fuel merged
          else some merged).map (fun ts => ({ ctx with ts := ts }, 1))))

/-! ## Sparse merge against the dense merge -/

/-- The dense vector of `n` entries a list of `(pid, counter)` pairs stands
for: entry `k` is the largest counter carried for `k`, or `0` if there is none. -/
def dense_of_pairs (n : Nat) (ps : List (Int × Int)) : List Int :=
  (List.range n).map (fun (k : Nat) => max_with 0 (carried ps (k : Int)))

/-! ## Reachable Sparse timestamps -/

/-- The Sparse timestamps reached from `sparse_create n pid type` by
`sparse_increment`, by `sparse_merge` with any payload, and by
`sparse_deserialize` of the bytes `sparse_serialize` wrote, into a buffer large
enough, for a timestamp whose entry list holds no pid twice. -/
inductive SparseReach (n pid : Nat) (type : ClockType) : Timestamp SparseClockData → Prop where
  | create : SparseReach n pid type (sparse_create n pid type)
  | increment (ts : Timestamp SparseClockData) :
      SparseReach n pid type ts → SparseReach n pid type (sparse_increment ts)
  | merge (ts : Timestamp SparseClockData) (other_data : List Int) (other_size : Nat) :
      SparseReach n pid type ts → SparseReach n pid type (sparse_merge ts other_data other_size)
  | deserialize (ts src : Timestamp SparseClockData) (buffer : List Int) (bufsize : Nat) :
      SparseReach n pid type ts → SparseInv src.data.entries →
      (sparse_serialize src buffer bufsize).2 ≤ bufsize →
      SparseReach n pid type
        (sparse_deserialize ts (sparse_serialize src buffer bufsize).1
          (sparse_serialize src buffer bufsize).2)

/-! ## Payloads that leave the receiver's own entry alone -/

/-- The constant `INT_MAX` (`int` has 32 bits on the reference platform). -/
def INT_MAX : Int := 2147483647

/-- The constant `INT_MIN`. -/
def INT_MIN : Int := -2147483648

/-- The statement `x++` (or `x += 1`) on an `int` as the compiled code performs
it: the sum is reduced modulo `2^32` into `[INT_MIN, INT_MAX]`. -/
def int_incr (x : Int) : Int := (x + 1 + 2147483648) % 4294967296 - 2147483648

/-- The function `standard_increment` on 32-bit counters. -/
def standard_increment_int32 (ts : Timestamp StandardClockData) :
    Timestamp StandardClockData :=
  { ts with data := ⟨ts.data.v.set ts.pid (int_incr (rd ts.data.v ts.pid))⟩ }

/-- The search loop of `sparse_increment` on 32-bit counters. -/
def sparse_increment_scan_int32 (pid : Int) : List SparseEntry → Option (List SparseEntry)
  | [] => none
  | e :: es =>
    if e.pid = pid then some (⟨e.pid, int_incr e.counter⟩ :: es)
    else (sparse_increment_scan_int32 pid es).map (fun r => e :: r)

/-- The function `sparse_increment` on 32-bit counters. -/
def sparse_increment_int32 (ts : Timestamp SparseClockData) : Timestamp SparseClockData :=
  match sparse_increment_scan_int32 ts.pid ts.data.entries with
  | some es => { ts with data := ⟨es, ts.data.capacity⟩ }
  | none =>
    let capacity :=
      if ts.data.count ≥ ts.data.capacity then ts.data.capacity * 2 else ts.data.capacity
    { ts with data := ⟨ts.data.entries ++ [⟨ts.pid, 1⟩], capacity⟩ }

/-- The function `differential_increment` on 32-bit counters. -/
def differential_increment_int32 (ts : Timestamp DifferentialClockData) :
    Timestamp DifferentialClockData :=
  let v := ts.data.v.set ts.pid (int_incr (rd ts.data.v ts.pid))
  { ts with data := ⟨v, ts.data.LS, ts.data.LU.set ts.pid (rd v ts.pid)⟩ }

/-- The function `compressed_increment` on 32-bit counters. -/
def compressed_increment_int32 (ts : Timestamp CompressedClockData) :
    Timestamp CompressedClockData :=
  { ts with data :=
    ⟨ts.data.vt.set ts.pid (int_incr (rd ts.data.vt ts.pid)), ts.data.tau, ts.data.n⟩ }

/-! # Theorems -/

/-! ## Facts about the causal-order loop -/

theorem cmp_loop_succ (ra rb : Nat → Int) (n : Nat) :
    cmp_loop ra rb (n + 1) = cmp_step (cmp_loop ra rb n) (ra n) (rb n) := by
  simp [cmp_loop, List.range_succ, List.foldl_append]

/-- Meaning of the four flags after `n` iterations. -/
theorem cmp_loop_flags (ra rb : Nat → Int) (n : Nat) :
    ((cmp_loop ra rb n).a_le_b = true ↔ ∀ i, i < n → ra i ≤ rb i) ∧
    ((cmp_loop ra rb n).b_le_a = true ↔ ∀ i, i < n → rb i ≤ ra i) ∧
    ((cmp_loop ra rb n).a_lt_b = true ↔ ∃ i, i < n ∧ ra i < rb i) ∧
    ((cmp_loop ra rb n).b_lt_a = true ↔ ∃ i, i < n ∧ rb i < ra i) := by
  induction n with
  | zero => simp [cmp_loop, CmpFlags.init]
  | succ k ih =>
    obtain ⟨h1, h2, h3, h4⟩ := ih
    rw [cmp_loop_succ]
    have hall : ∀ P : Nat → Prop, (∀ i, i < k + 1 → P i) ↔ (∀ i, i < k → P i) ∧ P k := by
      intro P
      constructor
      · intro h
        exact ⟨fun i hi => h i (by omega), h k (by omega)⟩
      · rintro ⟨h, hk⟩ i hi
        rcases Nat.lt_succ_iff_lt_or_eq.mp hi with h' | h'
        · exact h i h'
        · subst h'; exact hk
    have hex : ∀ P : Nat → Prop, (∃ i, i < k + 1 ∧ P i) ↔ (∃ i, i < k ∧ P i) ∨ P k := by
      intro P
      constructor
      · rintro ⟨i, hi, hp⟩
        rcases Nat.lt_succ_iff_lt_or_eq.mp hi with h' | h'
        · exact Or.inl ⟨i, h', hp⟩
        · subst h'; exact Or.inr hp
      · rintro (⟨i, hi, hp⟩ | hp)
        · exact ⟨i, by omega, hp⟩
        · exact ⟨k, by omega, hp⟩
    rw [hall, hall, hex, hex, ← h1, ← h2, ← h3, ← h4]
    unfold cmp_step
    by_cases hxy : ra k > rb k <;> by_cases hyx : rb k > ra k <;>
      simp [hxy, hyx] <;> omega

/-- The verdict of the `TSOrder` cascade in terms of the two dominance facts. -/
theorem ts_verdict_cmp_loop (ra rb : Nat → Int) (n : Nat) :
    (ts_verdict (cmp_loop ra rb n) = TSOrder.TS_EQUAL ↔
      (∀ i, i < n → ra i ≤ rb i) ∧ (∀ i, i < n → rb i ≤ ra i)) ∧
    (ts_verdict (cmp_loop ra rb n) = TSOrder.TS_BEFORE ↔
      (∀ i, i < n → ra i ≤ rb i) ∧ ¬ (∀ i, i < n → rb i ≤ ra i)) ∧
    (ts_verdict (cmp_loop ra rb n) = TSOrder.TS_AFTER ↔
      (∀ i, i < n → rb i ≤ ra i) ∧ ¬ (∀ i, i < n → ra i ≤ rb i)) ∧
    (ts_verdict (cmp_loop ra rb n) = TSOrder.TS_CONCURRENT ↔
      ¬ (∀ i, i < n → ra i ≤ rb i) ∧ ¬ (∀ i, i < n → rb i ≤ ra i)) := by
  obtain ⟨h1, h2, h3, h4⟩ := cmp_loop_flags ra rb n
  have e3 : (∃ i, i < n ∧ ra i < rb i) ↔ ¬ ∀ i, i < n → rb i ≤ ra i := by
    push_neg; rfl
  have e4 : (∃ i, i < n ∧ rb i < ra i) ↔ ¬ ∀ i, i < n → ra i ≤ rb i := by
    push_neg; rfl
  rw [e3] at h3
  rw [e4] at h4
  generalize cmp_loop ra rb n = f at h1 h2 h3 h4 ⊢
  rcases f with ⟨p, q, r, s⟩
  simp only at h1 h2 h3 h4
  rw [← h1, ← h2]
  rw [← h1] at h4
  rw [← h2] at h3
  clear h1 h2 e3 e4
  cases p <;> cases q <;> cases r <;> cases s <;> simp [ts_verdict] at h3 h4 ⊢

/-- Two arrays of the same length are equal iff they agree cell by cell. -/
theorem eq_iff_rd {a b : List Int} {n : Nat} (ha : a.length = n) (hb : b.length = n) :
    a = b ↔ ∀ i, i < n → rd a i = rd b i := by
  constructor
  · intro h i _
    rw [h]
  · intro h
    apply List.ext_getElem (by omega)
    intro i h1 h2
    have := h i (by omega)
    simpa [rd, List.getD_eq_getElem?_getD, List.getElem?_eq_getElem h1,
      List.getElem?_eq_getElem h2] using this

/-- The verdict of `vc_compare_raw` in terms of the two dominance facts. -/
theorem vc_compare_raw_iff (a b : List Int) (n : Nat) :
    (vc_compare_raw a b n = VCOrder.VC_EQUAL ↔
      (∀ i, i < n → rd a i ≤ rd b i) ∧ (∀ i, i < n → rd b i ≤ rd a i)) ∧
    (vc_compare_raw a b n = VCOrder.VC_BEFORE ↔
      (∀ i, i < n → rd a i ≤ rd b i) ∧ ¬ (∀ i, i < n → rd b i ≤ rd a i)) ∧
    (vc_compare_raw a b n = VCOrder.VC_AFTER ↔
      (∀ i, i < n → rd b i ≤ rd a i) ∧ ¬ (∀ i, i < n → rd a i ≤ rd b i)) ∧
    (vc_compare_raw a b n = VCOrder.VC_CONCURRENT ↔
      ¬ (∀ i, i < n → rd a i ≤ rd b i) ∧ ¬ (∀ i, i < n → rd b i ≤ rd a i)) := by
  obtain ⟨h1, h2, h3, h4⟩ := cmp_loop_flags (rd a) (rd b) n
  have e3 : (∃ i, i < n ∧ rd a i < rd b i) ↔ ¬ ∀ i, i < n → rd b i ≤ rd a i := by
    push_neg; rfl
  have e4 : (∃ i, i < n ∧ rd b i < rd a i) ↔ ¬ ∀ i, i < n → rd a i ≤ rd b i := by
    push_neg; rfl
  rw [e3] at h3
  rw [e4] at h4
  unfold vc_compare_raw
  generalize cmp_loop (rd a) (rd b) n = f at h1 h2 h3 h4 ⊢
  rcases f with ⟨p, q, r, s⟩
  simp only at h1 h2 h3 h4
  rw [← h1, ← h2]
  rw [← h1] at h4
  rw [← h2] at h3
  clear h1 h2 e3 e4
  cases p <;> cases q <;> cases r <;> cases s <;> simp at h3 h4 ⊢

/-- Dominance both ways is cellwise equality. -/
theorem le_le_iff_eq (ra rb : Nat → Int) (n : Nat) :
    ((∀ i, i < n → ra i ≤ rb i) ∧ (∀ i, i < n → rb i ≤ ra i)) ↔ ∀ i, i < n → ra i = rb i := by
  constructor
  · rintro ⟨h1, h2⟩ i hi
    exact le_antisymm (h1 i hi) (h2 i hi)
  · intro h
    exact ⟨fun i hi => (h i hi).le, fun i hi => (h i hi).ge⟩

/-- Dominance one way only is dominance together with a differing cell. -/
theorem le_not_le_iff (ra rb : Nat → Int) (n : Nat) :
    ((∀ i, i < n → ra i ≤ rb i) ∧ ¬ (∀ i, i < n → rb i ≤ ra i)) ↔
      (∀ i, i < n → ra i ≤ rb i) ∧ ¬ (∀ i, i < n → ra i = rb i) := by
  constructor
  · rintro ⟨h1, h2⟩
    refine ⟨h1, fun h => h2 (fun i hi => (h i hi).ge)⟩
  · rintro ⟨h1, h2⟩
    refine ⟨h1, fun h => h2 (fun i hi => le_antisymm (h1 i hi) (h i hi))⟩

/-- Dominance neither way is a pair of cells ordered in opposite directions. -/
theorem not_le_not_le_iff (ra rb : Nat → Int) (n : Nat) :
    (¬ (∀ i, i < n → ra i ≤ rb i) ∧ ¬ (∀ i, i < n → rb i ≤ ra i)) ↔
      ∃ i j, i < n ∧ j < n ∧ ra i > rb i ∧ ra j < rb j := by
  constructor
  · rintro ⟨h1, h2⟩
    push_neg at h1 h2
    obtain ⟨i, hi, h1⟩ := h1
    obtain ⟨j, hj, h2⟩ := h2
    exact ⟨i, j, hi, hj, h1, h2⟩
  · rintro ⟨i, j, hi, hj, h1, h2⟩
    exact ⟨fun h => absurd (h i hi) (not_le.mpr h1), fun h => absurd (h j hj) (not_le.mpr h2)⟩

/-- C1: for two vectors `a`, `b` of the same length `n`, `standard_compare` and
`vc_compare_raw` return EQUAL iff `a[i] = b[i]` for all `i`; BEFORE iff
`a[i] <= b[i]` for all `i` and `a != b`; AFTER iff `b[i] <= a[i]` for all `i` and
`a != b`; CONCURRENT iff some `a[i] > b[i]` and some `a[j] < b[j]`. -/
theorem C1_compare_verdicts (n : Nat) (A B : Timestamp StandardClockData)
    (hAn : A.n = n) (hBn : B.n = n)
    (hAl : A.data.v.length = n) (hBl : B.data.v.length = n) :
    (standard_compare A B = some TSOrder.TS_EQUAL ↔
      ∀ i, i < n → rd A.data.v i = rd B.data.v i) ∧
    (standard_compare A B = some TSOrder.TS_BEFORE ↔
      (∀ i, i < n → rd A.data.v i ≤ rd B.data.v i) ∧ A.data.v ≠ B.data.v) ∧
    (standard_compare A B = some TSOrder.TS_AFTER ↔
      (∀ i, i < n → rd B.data.v i ≤ rd A.data.v i) ∧ A.data.v ≠ B.data.v) ∧
    (standard_compare A B = some TSOrder.TS_CONCURRENT ↔
      ∃ i j, i < n ∧ j < n ∧ rd A.data.v i > rd B.data.v i ∧ rd A.data.v j < rd B.data.v j) ∧
    (vc_compare_raw A.data.v B.data.v n = VCOrder.VC_EQUAL ↔
      ∀ i, i < n → rd A.data.v i = rd B.data.v i) ∧
    (vc_compare_raw A.data.v B.data.v n = VCOrder.VC_BEFORE ↔
      (∀ i, i < n → rd A.data.v i ≤ rd B.data.v i) ∧ A.data.v ≠ B.data.v) ∧
    (vc_compare_raw A.data.v B.data.v n = VCOrder.VC_AFTER ↔
      (∀ i, i < n → rd B.data.v i ≤ rd A.data.v i) ∧ A.data.v ≠ B.data.v) ∧
    (vc_compare_raw A.data.v B.data.v n = VCOrder.VC_CONCURRENT ↔
      ∃ i j, i < n ∧ j < n ∧ rd A.data.v i > rd B.data.v i ∧ rd A.data.v j < rd B.data.v j) := by
  obtain ⟨t1, t2, t3, t4⟩ := ts_verdict_cmp_loop (rd A.data.v) (rd B.data.v) n
  obtain ⟨r1, r2, r3, r4⟩ := vc_compare_raw_iff A.data.v B.data.v n
  have hne : A.data.v ≠ B.data.v ↔ ¬ ∀ i, i < n → rd A.data.v i = rd B.data.v i :=
    not_congr (eq_iff_rd hAl hBl)
  have hne2 : A.data.v ≠ B.data.v ↔ ¬ ∀ i, i < n → rd B.data.v i = rd A.data.v i := by
    rw [hne]
    exact not_congr ⟨fun h i hi => (h i hi).symm, fun h i hi => (h i hi).symm⟩
  have hsc : standard_compare A B
      = some (ts_verdict (cmp_loop (rd A.data.v) (rd B.data.v) n)) := by
    simp [standard_compare, hAn, hBn]
  rw [hsc]
  simp only [Option.some.injEq]
  refine ⟨?_, ?_, ?_, ?_, ?_, ?_, ?_, ?_⟩
  · rw [t1, le_le_iff_eq]
  · rw [t2, le_not_le_iff, hne]
  · rw [t3, le_not_le_iff, hne2]
  · rw [t4, not_le_not_le_iff]
  · rw [r1, le_le_iff_eq]
  · rw [r2, le_not_le_iff, hne]
  · rw [r3, le_not_le_iff, hne2]
  · rw [r4, not_le_not_le_iff]

/-- Witness of C1 at `a = [2,0,0]`, `b = [0,1,0]`: the verdict is CONCURRENT. -/
theorem C1_compare_verdicts_witness :
    standard_compare ⟨3, 0, ClockType.CLOCK_STANDARD, ⟨[2, 0, 0]⟩, 12⟩
        ⟨3, 1, ClockType.CLOCK_STANDARD, ⟨[0, 1, 0]⟩, 12⟩ = some TSOrder.TS_CONCURRENT ∧
      vc_compare_raw [2, 0, 0] [0, 1, 0] 3 = VCOrder.VC_CONCURRENT :=
  have h := C1_compare_verdicts 3 ⟨3, 0, ClockType.CLOCK_STANDARD, ⟨[2, 0, 0]⟩, 12⟩
    ⟨3, 1, ClockType.CLOCK_STANDARD, ⟨[0, 1, 0]⟩, 12⟩ rfl rfl rfl rfl
  ⟨h.2.2.2.1.mpr ⟨0, 1, by decide, by decide, by decide, by decide⟩,
    h.2.2.2.2.2.2.2.mpr ⟨0, 1, by decide, by decide, by decide, by decide⟩⟩

/-- C2: for vectors of equal length `n`, `standard_compare` returns exactly one
verdict for each ordered pair, and `compare(a,b)` mirrors `compare(b,a)`:
BEFORE iff AFTER, AFTER iff BEFORE, EQUAL iff EQUAL, CONCURRENT iff CONCURRENT. -/
theorem C2_compare_mirror (n : Nat) (A B : Timestamp StandardClockData)
    (hAn : A.n = n) (hBn : B.n = n) :
    (∃! r, standard_compare A B = some r) ∧
    (∃! r, standard_compare B A = some r) ∧
    (standard_compare A B = some TSOrder.TS_BEFORE ↔
      standard_compare B A = some TSOrder.TS_AFTER) ∧
    (standard_compare A B = some TSOrder.TS_AFTER ↔
      standard_compare B A = some TSOrder.TS_BEFORE) ∧
    (standard_compare A B = some TSOrder.TS_EQUAL ↔
      standard_compare B A = some TSOrder.TS_EQUAL) ∧
    (standard_compare A B = some TSOrder.TS_CONCURRENT ↔
      standard_compare B A = some TSOrder.TS_CONCURRENT) := by
  obtain ⟨t1, t2, t3, t4⟩ := ts_verdict_cmp_loop (rd A.data.v) (rd B.data.v) n
  obtain ⟨s1, s2, s3, s4⟩ := ts_verdict_cmp_loop (rd B.data.v) (rd A.data.v) n
  have hAB : standard_compare A B
      = some (ts_verdict (cmp_loop (rd A.data.v) (rd B.data.v) n)) := by
    simp [standard_compare, hAn, hBn]
  have hBA : standard_compare B A
      = some (ts_verdict (cmp_loop (rd B.data.v) (rd A.data.v) n)) := by
    simp [standard_compare, hAn, hBn]
  rw [hAB, hBA]
  simp only [Option.some.injEq]
  refine ⟨⟨_, rfl, fun r h => h.symm⟩, ⟨_, rfl, fun r h => h.symm⟩, ?_, ?_, ?_, ?_⟩
  · rw [t2, s3]
  · rw [t3, s2]
  · rw [t1, s1]; exact and_comm
  · rw [t4, s4]; exact and_comm

/-- Witness of C2 at `a = [2,0,0]`, `b = [2,1,0]`: BEFORE one way, AFTER the other. -/
theorem C2_compare_mirror_witness :
    standard_compare ⟨3, 0, ClockType.CLOCK_STANDARD, ⟨[2, 0, 0]⟩, 12⟩
        ⟨3, 1, ClockType.CLOCK_STANDARD, ⟨[2, 1, 0]⟩, 12⟩ = some TSOrder.TS_BEFORE ∧
      standard_compare ⟨3, 1, ClockType.CLOCK_STANDARD, ⟨[2, 1, 0]⟩, 12⟩
        ⟨3, 0, ClockType.CLOCK_STANDARD, ⟨[2, 0, 0]⟩, 12⟩ = some TSOrder.TS_AFTER :=
  have h := C2_compare_mirror 3 ⟨3, 0, ClockType.CLOCK_STANDARD, ⟨[2, 0, 0]⟩, 12⟩
    ⟨3, 1, ClockType.CLOCK_STANDARD, ⟨[2, 1, 0]⟩, 12⟩ rfl rfl
  ⟨by decide, h.2.2.1.mp (by decide)⟩

/-! ## Array reads and writes -/

theorem rd_set_eq (l : List Int) (i : Nat) (x : Int) (h : i < l.length) :
    rd (l.set i x) i = x := by
  simp [rd, List.getD_eq_getElem?_getD, List.getElem?_set, h]

theorem rd_set_ne (l : List Int) (i j : Nat) (x : Int) (h : i ≠ j) :
    rd (l.set i x) j = rd l j := by
  simp [rd, List.getD_eq_getElem?_getD, List.getElem?_set, h]

theorem rd_set (l : List Int) (i j : Nat) (x : Int) :
    rd (l.set i x) j = if i = j ∧ i < l.length then x else rd l j := by
  by_cases h : i = j
  · subst h
    by_cases hl : i < l.length
    · simp [hl, rd_set_eq]
    · have : l.set i x = l := List.set_eq_of_length_le (by omega)
      simp [hl, this]
  · simp [h, rd_set_ne]

theorem rd_map_range (f : Nat → Int) (n k : Nat) (h : k < n) :
    rd ((List.range n).map f) k = f k := by
  simp [rd, List.getD_eq_getElem?_getD, h]

theorem memcpy_ints_all (dst src : List Int) (k : Nat) (hs : src.length = k) :
    memcpy_ints dst src k = src ++ dst.drop k := by
  unfold memcpy_ints
  rw [List.take_of_length_le (by omega)]

theorem rd_append_left (a b : List Int) (i : Nat) (h : i < a.length) :
    rd (a ++ b) i = rd a i := by
  simp [rd, List.getD_eq_getElem?_getD, List.getElem?_append_left h]

theorem rd_replicate_zero (m j : Nat) : rd (List.replicate m 0) j = 0 := by
  by_cases h : j < m <;> simp [rd, List.getD_eq_getElem?_getD, List.getElem?_replicate, h]

/-- The flags only depend on the cells below `n`. -/
theorem cmp_loop_congr (ra rb ra2 rb2 : Nat → Int) (n : Nat)
    (ha : ∀ i, i < n → ra i = ra2 i) (hb : ∀ i, i < n → rb i = rb2 i) :
    cmp_loop ra rb n = cmp_loop ra2 rb2 n := by
  induction n with
  | zero => rfl
  | succ k ih =>
    rw [cmp_loop_succ, cmp_loop_succ,
      ih (fun i hi => ha i (by omega)) (fun i hi => hb i (by omega)),
      ha k (by omega), hb k (by omega)]

/-- The lookup loop of `sparse_compare` computes the entry of the logical vector. -/
theorem sparse_value_eq_find (pid : Int) (es : List SparseEntry) :
    sparse_value pid es =
      match es.find? (fun e => decide (e.pid = pid)) with
      | some e => e.counter
      | none => 0 := by
  induction es with
  | nil => rfl
  | cons e es ih =>
    by_cases h : e.pid = pid
    · simp [sparse_value, List.find?, h]
    · simp [sparse_value, List.find?, h, ih]

theorem rd_sparse_logical (n : Nat) (es : List SparseEntry) (k : Nat) (h : k < n) :
    rd (sparse_logical n es) k = sparse_value k es := by
  unfold sparse_logical
  rw [rd_map_range _ _ _ h, sparse_value_eq_find]

/-- C3: for two Sparse, two Differential or two Compressed timestamps of the
same `n`, the encoding's compare returns the verdict `standard_compare` returns
on their logical vectors (Sparse: the dense vector of first-entry counters;
Differential: `v`; Compressed: `vt`), whatever LS, LU, tau, entry order and
capacity are. -/
theorem C3_compare_cross_encoding (n : Nat) :
    (∀ a b : Timestamp SparseClockData, a.n = n → b.n = n →
      standard_compare (standard_of n a.pid (sparse_logical n a.data.entries))
        (standard_of n b.pid (sparse_logical n b.data.entries)) = some (sparse_compare a b)) ∧
    (∀ a b : Timestamp DifferentialClockData, a.n = n → b.n = n →
      standard_compare (standard_of n a.pid a.data.v) (standard_of n b.pid b.data.v)
        = some (differential_compare a b)) ∧
    (∀ a b : Timestamp CompressedClockData, a.n = n → b.n = n →
      standard_compare (standard_of n a.pid a.data.vt) (standard_of n b.pid b.data.vt)
        = some (compressed_compare a b)) := by
  refine ⟨?_, ?_, ?_⟩
  · intro a b ha _
    simp only [standard_compare, standard_of, sparse_compare, ha, ne_eq, not_true_eq_false,
      if_false, Option.some.injEq]
    congr 1
    exact cmp_loop_congr _ _ _ _ n (fun i hi => rd_sparse_logical n _ i hi)
      (fun i hi => rd_sparse_logical n _ i hi)
  · intro a b ha _
    simp [standard_compare, standard_of, differential_compare, ha]
  · intro a b ha _
    simp [standard_compare, standard_of, compressed_compare, ha]

/-- Witness of C3: a Sparse pair with shuffled entries, a Differential pair and
a Compressed pair, each with `n = 3`. -/
theorem C3_compare_cross_encoding_witness :
    standard_compare (standard_of 3 0 (sparse_logical 3 [⟨2, 1⟩, ⟨0, 2⟩]))
        (standard_of 3 1 (sparse_logical 3 [⟨0, 2⟩, ⟨1, 4⟩, ⟨2, 1⟩]))
      = some (sparse_compare ⟨3, 0, ClockType.CLOCK_SPARSE, ⟨[⟨2, 1⟩, ⟨0, 2⟩], 3⟩, 0⟩
          ⟨3, 1, ClockType.CLOCK_SPARSE, ⟨[⟨0, 2⟩, ⟨1, 4⟩, ⟨2, 1⟩], 6⟩, 0⟩) ∧
    standard_compare (standard_of 3 0 [2, 0, 0]) (standard_of 3 1 [0, 1, 0])
      = some (differential_compare
          ⟨3, 0, ClockType.CLOCK_DIFFERENTIAL, ⟨[2, 0, 0], [1, 0, 0], [2, 0, 0]⟩, 0⟩
          ⟨3, 1, ClockType.CLOCK_DIFFERENTIAL, ⟨[0, 1, 0], [0, 0, 0], [0, 1, 0]⟩, 0⟩) ∧
    standard_compare (standard_of 3 0 [2, 0, 0]) (standard_of 3 1 [2, 1, 0])
      = some (compressed_compare
          ⟨3, 0, ClockType.CLOCK_COMPRESSED, ⟨[2, 0, 0], [[0, 0, 0], [2, 0, 0], [0, 0, 0]], 3⟩, 0⟩
          ⟨3, 1, ClockType.CLOCK_COMPRESSED, ⟨[2, 1, 0], [[0, 0, 0], [0, 0, 0], [0, 0, 0]], 3⟩, 0⟩) :=
  ⟨(C3_compare_cross_encoding 3).1
      ⟨3, 0, ClockType.CLOCK_SPARSE, ⟨[⟨2, 1⟩, ⟨0, 2⟩], 3⟩, 0⟩
      ⟨3, 1, ClockType.CLOCK_SPARSE, ⟨[⟨0, 2⟩, ⟨1, 4⟩, ⟨2, 1⟩], 6⟩, 0⟩ rfl rfl,
    (C3_compare_cross_encoding 3).2.1
      ⟨3, 0, ClockType.CLOCK_DIFFERENTIAL, ⟨[2, 0, 0], [1, 0, 0], [2, 0, 0]⟩, 0⟩
      ⟨3, 1, ClockType.CLOCK_DIFFERENTIAL, ⟨[0, 1, 0], [0, 0, 0], [0, 1, 0]⟩, 0⟩ rfl rfl,
    (C3_compare_cross_encoding 3).2.2
      ⟨3, 0, ClockType.CLOCK_COMPRESSED, ⟨[2, 0, 0], [[0, 0, 0], [2, 0, 0], [0, 0, 0]], 3⟩, 0⟩
      ⟨3, 1, ClockType.CLOCK_COMPRESSED, ⟨[2, 1, 0], [[0, 0, 0], [0, 0, 0], [0, 0, 0]], 3⟩, 0⟩
      rfl rfl⟩

/-! ## Trial-division decoding -/

theorem PRIMES_prime (i : Nat) (h : i < 25) : (PRIMES.getD i 0).Prime := by
  interval_cases i <;> simp [PRIMES] <;> norm_num

theorem PRIMES_inj (i j : Nat) (hi : i < 25) (hj : j < 25) (hij : i ≠ j) :
    PRIMES.getD i 0 ≠ PRIMES.getD j 0 := by
  have hnd : PRIMES.Nodup := by decide
  have hl : PRIMES.length = 25 := rfl
  have hi2 : i < PRIMES.length := by omega
  have hj2 : j < PRIMES.length := by omega
  have ei : PRIMES.getD i 0 = PRIMES[i] := by
    simp [List.getD_eq_getElem?_getD, List.getElem?_eq_getElem hi2]
  have ej : PRIMES.getD j 0 = PRIMES[j] := by
    simp [List.getD_eq_getElem?_getD, List.getElem?_eq_getElem hj2]
  rw [ei, ej]
  intro h
  exact hij ((hnd.getElem_inj_iff).mp h)

/-- With enough fuel the inner `while` loop divides out the full power of `p`. -/
theorem divide_out_spec (p : Nat) (hp : p.Prime) (fuel m : Nat) (c : Int) (hm : m ≠ 0)
    (hf : m.factorization p < fuel) :
    divide_out p fuel m c = some (m / p ^ m.factorization p, c + (m.factorization p : Nat)) := by
  induction fuel generalizing m c with
  | zero => omega
  | succ fuel ih =>
    unfold divide_out
    by_cases hdiv : m % p = 0
    · have hdvd : p ∣ m := Nat.dvd_of_mod_eq_zero hdiv
      have hpos : 0 < m.factorization p := hp.factorization_pos_of_dvd hm hdvd
      have hq : m / p ≠ 0 := by
        have : 0 < m / p := Nat.div_pos (Nat.le_of_dvd (Nat.pos_of_ne_zero hm) hdvd) hp.pos
        omega
      have hfq : (m / p).factorization p = m.factorization p - 1 := by
        rw [Nat.factorization_div hdvd]
        simp [hp.factorization_self]
      rw [if_pos hdiv, ih (m / p) (c + 1) hq (by rw [hfq]; omega), hfq]
      have e1 : m / p / p ^ (m.factorization p - 1) = m / p ^ m.factorization p := by
        rw [Nat.div_div_eq_div_mul, ← pow_succ']
        congr 2
        omega
      have e2 : c + 1 + ((m.factorization p - 1 : Nat) : Int) = c + (m.factorization p : Nat) := by
        omega
      rw [e1, e2]
    · have h0 : m.factorization p = 0 :=
        Nat.factorization_eq_zero_of_not_dvd (fun h => hdiv (Nat.mod_eq_zero_of_dvd h))
      rw [if_neg hdiv, h0]
      simp

/-- The exponent of a prime in a 64-bit value is below 64. -/
theorem factorization_lt_64 (p m : Nat) (hp : p.Prime) (hm : m ≠ 0) (h64 : m < 2 ^ 64) :
    m.factorization p < 64 := by
  have h1 : p ^ m.factorization p ≤ m := Nat.ordProj_le p hm
  have h2 : 2 ^ m.factorization p ≤ p ^ m.factorization p :=
    Nat.pow_le_pow_left hp.two_le _
  have h3 : 2 ^ m.factorization p < 2 ^ 64 := by omega
  exact (Nat.pow_lt_pow_iff_right (by norm_num)).mp h3

/-- Dividing out the full power of `p` keeps the exponent of every other prime. -/
theorem factorization_div_pow_ne (p q m : Nat) (hpq : q ≠ p) :
    (m / p ^ m.factorization p).factorization q = m.factorization q := by
  rw [Nat.factorization_ordCompl]
  simp [Finsupp.erase_ne hpq]

/-- Invariant of the decoding loop after `k` primes: the remaining quotient is a
non-zero value that still holds the full powers of the later primes, and the
first `k` cells of the array hold the exponents of the first `k` primes. -/
theorem decode_loop_inv (fuel value : Nat) (hv0 : value ≠ 0) (hv : value < 2 ^ 64)
    (hfuel : 64 ≤ fuel) (k : Nat) (hk : k ≤ 25) :
    ∃ temp arr,
      (List.range k).foldl
        (fun (st : Option (Nat × List Int)) i =>
          st.bind (fun s =>
            (divide_out (PRIMES.getD i 0) fuel s.1 (rd s.2 i)).map
              (fun r => (r.1, s.2.set i r.2))))
        (some (value, List.replicate MAX_PRIMES 0)) = some (temp, arr) ∧
      temp ≠ 0 ∧ temp ≤ value ∧ arr.length = 25 ∧
      (∀ j, k ≤ j → j < 25 →
        temp.factorization (PRIMES.getD j 0) = value.factorization (PRIMES.getD j 0)) ∧
      (∀ j, j < k → rd arr j = ((value.factorization (PRIMES.getD j 0) : Nat) : Int)) ∧
      (∀ j, k ≤ j → rd arr j = 0) := by
  induction k with
  | zero =>
    refine ⟨value, List.replicate MAX_PRIMES 0, rfl, hv0, le_refl _, rfl, fun _ _ _ => rfl,
      fun j hj => absurd hj (Nat.not_lt_zero j), ?_⟩
    intro j _
    exact rd_replicate_zero _ _
  | succ k ih =>
    obtain ⟨temp, arr, hst, ht0, htle, hlen, hfac, hlow, hhigh⟩ := ih (by omega)
    have hp := PRIMES_prime k (by omega)
    have hf64 : temp.factorization (PRIMES.getD k 0) < fuel := by
      have := factorization_lt_64 (PRIMES.getD k 0) temp hp ht0 (by omega)
      omega
    have hdiv := divide_out_spec (PRIMES.getD k 0) hp fuel temp (rd arr k) ht0 hf64
    have hfe := hfac k (le_refl k) (by omega)
    rw [hhigh k (le_refl k), zero_add] at hdiv
    refine ⟨temp / PRIMES.getD k 0 ^ temp.factorization (PRIMES.getD k 0),
      arr.set k ((value.factorization (PRIMES.getD k 0) : Nat) : Int), ?_, ?_, ?_, ?_, ?_, ?_, ?_⟩
    · rw [List.range_succ, List.foldl_append, hst]
      simp only [List.foldl_cons, List.foldl_nil, Option.some_bind]
      rw [hhigh k (le_refl k), hdiv, hfe]
      rfl
    · exact (Nat.ordCompl_pos _ ht0).ne'
    · exact le_trans (Nat.ordCompl_le _ _) htle
    · simp [hlen]
    · intro j hkj hj
      rw [factorization_div_pow_ne _ _ _ (PRIMES_inj j k hj (by omega) (by omega))]
      exact hfac j (by omega) hj
    · intro j hj
      by_cases hjk : j = k
      · subst hjk
        rw [rd_set_eq _ _ _ (by omega)]
      · rw [rd_set_ne _ _ _ _ (fun h => hjk h.symm)]
        exact hlow j (by omega)
    · intro j hj
      rw [rd_set_ne _ _ _ _ (by omega)]
      exact hhigh j (by omega)

/-- With 64 units of fuel the decoding of a non-zero 64-bit product ends and
leaves the exponent vector in the first `n` cells. -/
theorem decode_value_spec (fuel n value : Nat) (hv0 : value ≠ 0) (hv : value < 2 ^ 64)
    (hfuel : 64 ≤ fuel) (hn : n ≤ 25) :
    ∃ arr, decode_value fuel n value = some arr ∧
      ∀ i, i < n → rd arr i = rd (exponent_vector n value) i := by
  obtain ⟨temp, arr, hst, _, _, _, _, hlow, _⟩ := decode_loop_inv fuel value hv0 hv hfuel n hn
  refine ⟨arr, ?_, ?_⟩
  · unfold decode_value
    rw [hst]
    rfl
  · intro i hi
    rw [hlow i hi]
    unfold exponent_vector
    rw [rd_map_range _ _ _ hi]

/-- A side of `encoded_compare` decodes to its logical vector. -/
theorem encoded_decode_spec (fuel : Nat) (ts : Timestamp EncodedClockData)
    (hfuel : 64 ≤ fuel) (hn : ts.n ≤ MAX_PRIMES)
    (h : (ts.data.overflow = true ∧ ts.data.fallback_v.length = ts.n) ∨
      (ts.data.overflow = false ∧ 1 ≤ ts.data.value ∧ ts.data.value < 2 ^ 64)) :
    ∃ arr, encoded_decode fuel ts = some arr ∧
      ∀ i, i < ts.n → rd arr i = rd (encoded_logical ts) i := by
  rcases h with ⟨ho, hl⟩ | ⟨ho, h1, h64⟩
  · refine ⟨memcpy_ints (List.replicate MAX_PRIMES 0) ts.data.fallback_v ts.n, ?_, ?_⟩
    · simp [encoded_decode, ho]
    · intro i hi
      rw [memcpy_ints_all _ _ _ hl, rd_append_left _ _ _ (by omega)]
      simp [encoded_logical, ho]
  · obtain ⟨arr, h1, h2⟩ := decode_value_spec fuel ts.n ts.data.value (by omega) h64 hfuel hn
    refine ⟨arr, ?_, ?_⟩
    · simp [encoded_decode, ho, h1]
    · intro i hi
      rw [h2 i hi]
      simp [encoded_logical, ho]

/-- C4: for two Encoded timestamps of the same `n <= 25`, each in fallback mode
or in product mode with a 64-bit value `>= 1`, `encoded_compare` (with 64 units
of fuel or more for each decoding loop) returns the verdict the causal-order
algorithm gives on their decoded vectors: the fallback vector when the overflow
flag is set, otherwise the exponents of the first `n` primes in the product. -/
theorem C4_encoded_compare (n fuel : Nat) (a b : Timestamp EncodedClockData)
    (hn : n ≤ MAX_PRIMES) (han : a.n = n) (hbn : b.n = n) (hfuel : 64 ≤ fuel)
    (ha : (a.data.overflow = true ∧ a.data.fallback_v.length = a.n) ∨
      (a.data.overflow = false ∧ 1 ≤ a.data.value ∧ a.data.value < 2 ^ 64))
    (hb : (b.data.overflow = true ∧ b.data.fallback_v.length = b.n) ∨
      (b.data.overflow = false ∧ 1 ≤ b.data.value ∧ b.data.value < 2 ^ 64)) :
    ∃ r, encoded_compare fuel a b = some r ∧
      standard_compare (standard_of n a.pid (encoded_logical a))
        (standard_of n b.pid (encoded_logical b)) = some r := by
  obtain ⟨av, hav, hra⟩ := encoded_decode_spec fuel a hfuel (by omega) ha
  obtain ⟨bv, hbv, hrb⟩ := encoded_decode_spec fuel b hfuel (by omega) hb
  refine ⟨ts_verdict (cmp_loop (rd av) (rd bv) n), ?_, ?_⟩
  · simp [encoded_compare, hav, hbv, han]
  · simp only [standard_compare, standard_of, ne_eq, not_true_eq_false, if_false,
      Option.some.injEq]
    congr 1
    exact (cmp_loop_congr _ _ _ _ n (fun i hi => hra i (by omega))
      (fun i hi => hrb i (by omega))).symm

/-- Witness of C4: `n = 3`, the product `12 = 2^2 * 3` against the fallback
vector `[3,2,1]`. -/
theorem C4_encoded_compare_witness :
    ∃ r, encoded_compare 64 ⟨3, 0, ClockType.CLOCK_ENCODED, ⟨12, false, [0, 0, 0]⟩, 8⟩
        ⟨3, 1, ClockType.CLOCK_ENCODED, ⟨1, true, [3, 2, 1]⟩, 8⟩ = some r ∧
      standard_compare
        (standard_of 3 0
          (encoded_logical ⟨3, 0, ClockType.CLOCK_ENCODED, ⟨12, false, [0, 0, 0]⟩, 8⟩))
        (standard_of 3 1
          (encoded_logical ⟨3, 1, ClockType.CLOCK_ENCODED, ⟨1, true, [3, 2, 1]⟩, 8⟩))
        = some r :=
  C4_encoded_compare 3 64 ⟨3, 0, ClockType.CLOCK_ENCODED, ⟨12, false, [0, 0, 0]⟩, 8⟩
    ⟨3, 1, ClockType.CLOCK_ENCODED, ⟨1, true, [3, 2, 1]⟩, 8⟩ (by decide) rfl rfl (le_refl 64)
    (Or.inr ⟨rfl, by decide, by decide⟩) (Or.inl ⟨rfl, rfl⟩)

/-! ## Increment -/

/-- Effect of the search loop of `sparse_increment` on the looked-up values. -/
theorem sparse_increment_scan_some (pid : Int) (es es2 : List SparseEntry)
    (h : sparse_increment_scan pid es = some es2) (k : Int) :
    sparse_value k es2 = if k = pid then sparse_value pid es + 1 else sparse_value k es := by
  induction es generalizing es2 with
  | nil => simp [sparse_increment_scan] at h
  | cons e es ih =>
    by_cases he : e.pid = pid
    · simp only [sparse_increment_scan, he, if_true, Option.some.injEq] at h
      subst h
      by_cases hk : k = pid
      · subst hk
        simp [sparse_value, he]
      · have : ¬ pid = k := fun h => hk h.symm
        simp [sparse_value, he, hk, this]
    · simp only [sparse_increment_scan, he, if_false, Option.map_eq_some'] at h
      obtain ⟨r, hr, rfl⟩ := h
      have := ih r hr
      by_cases hk : k = pid
      · subst hk
        simp [sparse_value, he, this]
      · by_cases hek : e.pid = k
        · simp [sparse_value, hek, hk]
        · simp [sparse_value, hek, he, hk, this]

/-- When the search loop of `sparse_increment` finds nothing, no entry has the pid. -/
theorem sparse_increment_scan_none (pid : Int) (es : List SparseEntry)
    (h : sparse_increment_scan pid es = none) :
    es.find? (fun e => decide (e.pid = pid)) = none := by
  induction es with
  | nil => rfl
  | cons e es ih =>
    by_cases he : e.pid = pid
    · simp [sparse_increment_scan, he] at h
    · simp only [sparse_increment_scan, he, if_false, Option.map_eq_none'] at h
      simp [List.find?, he, ih h]

theorem sparse_value_append (k pid : Int) (es : List SparseEntry) (c : Int) :
    sparse_value k (es ++ [⟨pid, c⟩]) =
      if es.find? (fun e => decide (e.pid = k)) = none then (if pid = k then c else 0)
      else sparse_value k es := by
  induction es with
  | nil => simp [sparse_value]
  | cons e es ih =>
    by_cases he : e.pid = k
    · simp [sparse_value, List.find?, he]
    · simp [sparse_value, List.find?, he, ih]

theorem sparse_increment_scan_of_find_none (pid : Int) (es : List SparseEntry)
    (h : es.find? (fun e => decide (e.pid = pid)) = none) :
    sparse_increment_scan pid es = none := by
  induction es with
  | nil => rfl
  | cons e es ih =>
    by_cases he : e.pid = pid
    · simp [List.find?, he] at h
    · have h2 : es.find? (fun e => decide (e.pid = pid)) = none := by
        simpa [List.find?, he] using h
      simp [sparse_increment_scan, he, ih h2]

/-- Effect of `sparse_increment` on the looked-up values. -/
theorem sparse_increment_value (ts : Timestamp SparseClockData) (k : Int) :
    sparse_value k (sparse_increment ts).data.entries =
      if k = (ts.pid : Int) then sparse_value ts.pid ts.data.entries + 1
      else sparse_value k ts.data.entries := by
  unfold sparse_increment
  cases h : sparse_increment_scan (ts.pid : Int) ts.data.entries with
  | some es2 => exact sparse_increment_scan_some _ _ _ h k
  | none =>
    have hf := sparse_increment_scan_none _ _ h
    simp only [sparse_value_append]
    by_cases hk : k = (ts.pid : Int)
    · subst hk
      have h0 : sparse_value (ts.pid : Int) ts.data.entries = 0 := by
        rw [sparse_value_eq_find, hf]
      simp [hf, h0]
    · have hk2 : ¬ (ts.pid : Int) = k := fun h => hk h.symm
      by_cases hfk : ts.data.entries.find? (fun e => decide (e.pid = k)) = none
      · have h0 : sparse_value k ts.data.entries = 0 := by
          rw [sparse_value_eq_find, hfk]
        simp [hfk, hk, hk2, h0]
      · simp [hfk, hk]

/-- Effect of the increments with counters taken as unbounded integers: the own
entry grows by one, every other entry and the per-destination state stay. -/
theorem increment_adds_one (n pid : Nat) (hpid : pid < n) :
    (∀ ts : Timestamp StandardClockData, ts.n = n → ts.pid = pid → ts.data.v.length = n →
      ∀ k, k < n → rd (standard_increment ts).data.v k =
        if k = pid then rd ts.data.v k + 1 else rd ts.data.v k) ∧
    (∀ ts : Timestamp SparseClockData, ts.n = n → ts.pid = pid →
      (∀ k, k < n → rd (sparse_logical n (sparse_increment ts).data.entries) k =
        if k = pid then rd (sparse_logical n ts.data.entries) k + 1
        else rd (sparse_logical n ts.data.entries) k) ∧
      (ts.data.entries.find? (fun e => decide (e.pid = (pid : Int))) = none →
        rd (sparse_logical n ts.data.entries) pid = 0 ∧
        (sparse_increment ts).data.entries = ts.data.entries ++ [⟨pid, 1⟩])) ∧
    (∀ ts : Timestamp DifferentialClockData, ts.n = n → ts.pid = pid →
      ts.data.v.length = n →
      (∀ k, k < n → rd (differential_increment ts).data.v k =
        if k = pid then rd ts.data.v k + 1 else rd ts.data.v k) ∧
      (differential_increment ts).data.LS = ts.data.LS) ∧
    (∀ ts : Timestamp CompressedClockData, ts.n = n → ts.pid = pid →
      ts.data.vt.length = n →
      (∀ k, k < n → rd (compressed_increment ts).data.vt k =
        if k = pid then rd ts.data.vt k + 1 else rd ts.data.vt k) ∧
      (compressed_increment ts).data.tau = ts.data.tau) := by
  refine ⟨?_, ?_, ?_, ?_⟩
  · intro ts _ hp hl k _
    simp only [standard_increment, rd_set, hp, hl, hpid, and_true]
    by_cases hk : k = pid
    · subst hk; simp
    · have : ¬ pid = k := fun h => hk h.symm
      simp [hk, this]
  · intro ts _ hp
    refine ⟨?_, ?_⟩
    · intro k hk
      rw [rd_sparse_logical _ _ _ hk, rd_sparse_logical _ _ _ hk, sparse_increment_value, hp]
      by_cases hkp : k = pid
      · subst hkp; simp
      · have : ¬ (k : Int) = (pid : Int) := fun h => hkp (by exact_mod_cast h)
        simp [hkp, this]
    · intro hf
      refine ⟨?_, ?_⟩
      · rw [rd_sparse_logical _ _ _ hpid, sparse_value_eq_find, hf]
      · have := sparse_increment_scan_of_find_none _ _ hf
        simp [sparse_increment, hp, this]
  · intro ts _ hp hl
    refine ⟨?_, rfl⟩
    intro k _
    simp only [differential_increment, rd_set, hp, hl, hpid, and_true]
    by_cases hk : k = pid
    · subst hk; simp
    · have : ¬ pid = k := fun h => hk h.symm
      simp [hk, this]
  · intro ts _ hp hl
    refine ⟨?_, rfl⟩
    intro k _
    simp only [compressed_increment, rd_set, hp, hl, hpid, and_true]
    by_cases hk : k = pid
    · subst hk; simp
    · have : ¬ pid = k := fun h => hk h.symm
      simp [hk, this]

/-- Below `INT_MAX` the 32-bit increment is the increment of the integers. -/
theorem int_incr_eq (x : Int) (h1 : INT_MIN ≤ x) (h2 : x < INT_MAX) : int_incr x = x + 1 := by
  unfold int_incr
  unfold INT_MIN at h1
  unfold INT_MAX at h2
  omega

theorem standard_increment_int32_eq (ts : Timestamp StandardClockData)
    (h1 : INT_MIN ≤ rd ts.data.v ts.pid) (h2 : rd ts.data.v ts.pid < INT_MAX) :
    standard_increment_int32 ts = standard_increment ts := by
  unfold standard_increment_int32 standard_increment
  rw [int_incr_eq _ h1 h2]

theorem differential_increment_int32_eq (ts : Timestamp DifferentialClockData)
    (h1 : INT_MIN ≤ rd ts.data.v ts.pid) (h2 : rd ts.data.v ts.pid < INT_MAX) :
    differential_increment_int32 ts = differential_increment ts := by
  unfold differential_increment_int32 differential_increment
  rw [int_incr_eq _ h1 h2]

theorem compressed_increment_int32_eq (ts : Timestamp CompressedClockData)
    (h1 : INT_MIN ≤ rd ts.data.vt ts.pid) (h2 : rd ts.data.vt ts.pid < INT_MAX) :
    compressed_increment_int32 ts = compressed_increment ts := by
  unfold compressed_increment_int32 compressed_increment
  rw [int_incr_eq _ h1 h2]

theorem sparse_increment_scan_int32_eq (pid : Int) (es : List SparseEntry)
    (h1 : INT_MIN ≤ sparse_value pid es) (h2 : sparse_value pid es < INT_MAX) :
    sparse_increment_scan_int32 pid es = sparse_increment_scan pid es := by
  induction es with
  | nil => rfl
  | cons e es ih =>
    by_cases he : e.pid = pid
    · simp only [sparse_value, he, if_true] at h1 h2
      simp only [sparse_increment_scan_int32, sparse_increment_scan, he, if_true,
        int_incr_eq _ h1 h2]
    · simp only [sparse_value, he, if_false] at h1 h2
      simp only [sparse_increment_scan_int32, sparse_increment_scan, he, if_false, ih h1 h2]

theorem sparse_increment_int32_eq (ts : Timestamp SparseClockData)
    (h1 : INT_MIN ≤ sparse_value ts.pid ts.data.entries)
    (h2 : sparse_value ts.pid ts.data.entries < INT_MAX) :
    sparse_increment_int32 ts = sparse_increment ts := by
  unfold sparse_increment_int32 sparse_increment
  rw [sparse_increment_scan_int32_eq _ _ h1 h2]

/-- C5, counterexample. At `INT_MAX` the increment does not raise the own entry
by one: it wraps to `INT_MIN`. With `n = 3`, `pid = 1` and the own entry at
`2147483647` (a Standard timestamp reaches it by merging the vector
`[0, 2147483647, 0]`, a Sparse one by merging the pair `(1, 2147483647)`), the
entry is `-2147483648` after the increment, for each of the four encodings. -/
theorem C5_increment_wraps_at_int_max :
    (standard_merge (standard_create 3 1 ClockType.CLOCK_STANDARD)
      [0, 2147483647, 0] 12).data.v = [0, 2147483647, 0] ∧
    (standard_increment_int32 (standard_merge (standard_create 3 1 ClockType.CLOCK_STANDARD)
      [0, 2147483647, 0] 12)).data.v = [0, -2147483648, 0] ∧
    (sparse_merge (sparse_create 3 1 ClockType.CLOCK_SPARSE)
      [1, 2147483647] 8).data.entries = [⟨1, 2147483647⟩] ∧
    (sparse_increment_int32 (sparse_merge (sparse_create 3 1 ClockType.CLOCK_SPARSE)
      [1, 2147483647] 8)).data.entries = [⟨1, -2147483648⟩] ∧
    (differential_increment_int32
      ⟨3, 1, ClockType.CLOCK_DIFFERENTIAL,
        ⟨[0, 2147483647, 0], [0, 0, 0], [0, 2147483647, 0]⟩, 0⟩).data.v
      = [0, -2147483648, 0] ∧
    (compressed_increment_int32
      ⟨3, 1, ClockType.CLOCK_COMPRESSED,
        ⟨[0, 2147483647, 0], [[0, 0, 0], [0, 0, 0], [0, 0, 0]], 3⟩, 0⟩).data.vt
      = [0, -2147483648, 0] ∧
    ¬ (rd (standard_increment_int32
        (standard_merge (standard_create 3 1 ClockType.CLOCK_STANDARD)
          [0, 2147483647, 0] 12)).data.v 1
      = rd (standard_merge (standard_create 3 1 ClockType.CLOCK_STANDARD)
          [0, 2147483647, 0] 12).data.v 1 + 1) :=
  ⟨by decide, by decide, by decide, by decide, by decide, by decide, by decide⟩

/-- C5, amended: increment monotonicity below `INT_MAX`. With `0 <= pid < n` and
the own entry an `int` below `INT_MAX`, increment of a Standard, Sparse,
Differential or Compressed timestamp raises the logical entry of the owning pid
by exactly one and leaves every other logical entry unchanged; a Sparse
timestamp without an own entry gets `(pid,1)` appended; Differential `LS` and
Compressed `tau` are unchanged. -/
theorem C5_increment_monotone (n pid : Nat) (hpid : pid < n) :
    (∀ ts : Timestamp StandardClockData, ts.n = n → ts.pid = pid → ts.data.v.length = n →
      INT_MIN ≤ rd ts.data.v pid → rd ts.data.v pid < INT_MAX →
      ∀ k, k < n → rd (standard_increment_int32 ts).data.v k =
        if k = pid then rd ts.data.v k + 1 else rd ts.data.v k) ∧
    (∀ ts : Timestamp SparseClockData, ts.n = n → ts.pid = pid →
      INT_MIN ≤ rd (sparse_logical n ts.data.entries) pid →
      rd (sparse_logical n ts.data.entries) pid < INT_MAX →
      (∀ k, k < n → rd (sparse_logical n (sparse_increment_int32 ts).data.entries) k =
        if k = pid then rd (sparse_logical n ts.data.entries) k + 1
        else rd (sparse_logical n ts.data.entries) k) ∧
      (ts.data.entries.find? (fun e => decide (e.pid = (pid : Int))) = none →
        rd (sparse_logical n ts.data.entries) pid = 0 ∧
        (sparse_increment_int32 ts).data.entries = ts.data.entries ++ [⟨pid, 1⟩])) ∧
    (∀ ts : Timestamp DifferentialClockData, ts.n = n → ts.pid = pid →
      ts.data.v.length = n →
      INT_MIN ≤ rd ts.data.v pid → rd ts.data.v pid < INT_MAX →
      (∀ k, k < n → rd (differential_increment_int32 ts).data.v k =
        if k = pid then rd ts.data.v k + 1 else rd ts.data.v k) ∧
      (differential_increment_int32 ts).data.LS = ts.data.LS) ∧
    (∀ ts : Timestamp CompressedClockData, ts.n = n → ts.pid = pid →
      ts.data.vt.length = n →
      INT_MIN ≤ rd ts.data.vt pid → rd ts.data.vt pid < INT_MAX →
      (∀ k, k < n → rd (compressed_increment_int32 ts).data.vt k =
        if k = pid then rd ts.data.vt k + 1 else rd ts.data.vt k) ∧
      (compressed_increment_int32 ts).data.tau = ts.data.tau) := by
  have h := increment_adds_one n pid hpid
  refine ⟨?_, ?_, ?_, ?_⟩
  · intro ts hn hp hl h1 h2
    rw [standard_increment_int32_eq ts (by rw [hp]; exact h1) (by rw [hp]; exact h2)]
    exact h.1 ts hn hp hl
  · intro ts hn hp h1 h2
    rw [rd_sparse_logical _ _ _ hpid] at h1 h2
    rw [sparse_increment_int32_eq ts (by rw [hp]; exact h1) (by rw [hp]; exact h2)]
    exact h.2.1 ts hn hp
  · intro ts hn hp hl h1 h2
    rw [differential_increment_int32_eq ts (by rw [hp]; exact h1) (by rw [hp]; exact h2)]
    exact h.2.2.1 ts hn hp hl
  · intro ts hn hp hl h1 h2
    rw [compressed_increment_int32_eq ts (by rw [hp]; exact h1) (by rw [hp]; exact h2)]
    exact h.2.2.2 ts hn hp hl

/-- Witness of C5 (amended) at `n = 3`, `pid = 1`: a Standard vector `[4,2,7]`,
a Sparse list without an own entry, a Differential and a Compressed timestamp. -/
theorem C5_increment_monotone_witness :
    rd (standard_increment_int32
      ⟨3, 1, ClockType.CLOCK_STANDARD, ⟨[4, 2, 7]⟩, 12⟩).data.v 1 = 3 ∧
    (sparse_increment_int32 ⟨3, 1, ClockType.CLOCK_SPARSE, ⟨[⟨2, 5⟩], 3⟩, 0⟩).data.entries
      = [⟨2, 5⟩, ⟨1, 1⟩] ∧
    (differential_increment_int32
      ⟨3, 1, ClockType.CLOCK_DIFFERENTIAL, ⟨[4, 2, 7], [1, 0, 2], [2, 2, 1]⟩, 0⟩).data.LS
      = [1, 0, 2] ∧
    (compressed_increment_int32
      ⟨3, 1, ClockType.CLOCK_COMPRESSED, ⟨[4, 2, 7], [[0, 0, 0], [0, 0, 0], [4, 1, 7]], 3⟩,
        0⟩).data.tau = [[0, 0, 0], [0, 0, 0], [4, 1, 7]] :=
  ⟨(C5_increment_monotone 3 1 (by decide)).1
      ⟨3, 1, ClockType.CLOCK_STANDARD, ⟨[4, 2, 7]⟩, 12⟩ rfl rfl rfl (by decide) (by decide)
      1 (by decide),
    (((C5_increment_monotone 3 1 (by decide)).2.1
      ⟨3, 1, ClockType.CLOCK_SPARSE, ⟨[⟨2, 5⟩], 3⟩, 0⟩ rfl rfl (by decide) (by decide)).2
      (by decide)).2,
    ((C5_increment_monotone 3 1 (by decide)).2.2.1
      ⟨3, 1, ClockType.CLOCK_DIFFERENTIAL, ⟨[4, 2, 7], [1, 0, 2], [2, 2, 1]⟩, 0⟩
      rfl rfl rfl (by decide) (by decide)).2,
    ((C5_increment_monotone 3 1 (by decide)).2.2.2
      ⟨3, 1, ClockType.CLOCK_COMPRESSED, ⟨[4, 2, 7], [[0, 0, 0], [0, 0, 0], [4, 1, 7]], 3⟩, 0⟩
      rfl rfl rfl (by decide) (by decide)).2⟩

/-! ## Full-vector merge -/

theorem merge_max_step_length (o v : List Int) (i : Nat) :
    (merge_max_step o v i).length = v.length := by
  unfold merge_max_step
  split <;> simp

theorem rd_merge_max_step (o v : List Int) (i j : Nat) :
    rd (merge_max_step o v i) j =
      if j = i ∧ i < v.length then max (rd v j) (rd o j) else rd v j := by
  unfold merge_max_step
  by_cases h : rd o i > rd v i
  · rw [if_pos h, rd_set]
    by_cases hj : j = i
    · subst hj
      by_cases hl : j < v.length
      · simp [hl, max_eq_right (le_of_lt h)]
      · simp [hl]
    · have : ¬ i = j := fun h => hj h.symm
      simp [hj, this]
  · rw [if_neg h]
    by_cases hj : j = i
    · subst hj
      simp [max_eq_left (not_lt.mp h)]
    · simp [hj]

/-- The pointwise-max loop over the first `k` cells. -/
theorem merge_max_loop (o v : List Int) (k : Nat) :
    ((List.range k).foldl (merge_max_step o) v).length = v.length ∧
    ∀ j, rd ((List.range k).foldl (merge_max_step o) v) j =
      if j < k ∧ j < v.length then max (rd v j) (rd o j) else rd v j := by
  induction k with
  | zero => simp
  | succ k ih =>
    obtain ⟨hl, hr⟩ := ih
    rw [List.range_succ, List.foldl_append]
    simp only [List.foldl_cons, List.foldl_nil]
    refine ⟨by rw [merge_max_step_length, hl], ?_⟩
    intro j
    rw [rd_merge_max_step, hl, hr j]
    by_cases hj : j = k
    · subst hj
      by_cases hjl : j < v.length
      · simp [hjl]
      · simp [hjl]
    · by_cases hjk : j < k
      · have : j < k + 1 := by omega
        simp [hj, hjk, this]
      · have : ¬ j < k + 1 := by omega
        simp [hj, hjk, this]

/-- C6: `standard_merge` (and `vc_merge`) of a payload of `n` integers `o` into
the vector `v` yields entry `i` equal to `max(v[i], o[i])` for all `i`, the own
entry included: no increment is performed. -/
theorem C6_standard_merge_pointwise_max (n : Nat) (dst : Timestamp StandardClockData)
    (o : List Int) (other_size : Nat)
    (hn : dst.n = n) (hv : dst.data.v.length = n) (_ho : o.length = n)
    (hpid : dst.pid < n) :
    (standard_merge dst o other_size).data.v.length = n ∧
    (∀ i, i < n → rd (standard_merge dst o other_size).data.v i
      = max (rd dst.data.v i) (rd o i)) ∧
    rd (standard_merge dst o other_size).data.v dst.pid
      = max (rd dst.data.v dst.pid) (rd o dst.pid) ∧
    rd (standard_merge dst o other_size).data.v dst.pid
      ≠ max (rd dst.data.v dst.pid) (rd o dst.pid) + 1 ∧
    (standard_merge dst o other_size).n = n ∧
    (standard_merge dst o other_size).pid = dst.pid ∧
    (vc_merge ⟨n, dst.pid, dst.data.v⟩ o).v = (standard_merge dst o other_size).data.v := by
  obtain ⟨hl, hr⟩ := merge_max_loop o dst.data.v n
  have hcell : ∀ i, i < n → rd (standard_merge dst o other_size).data.v i
      = max (rd dst.data.v i) (rd o i) := by
    intro i hi
    simp only [standard_merge, hn]
    rw [hr i]
    simp [hi, hv]
  refine ⟨?_, hcell, hcell _ hpid, ?_, hn, rfl, ?_⟩
  · simp only [standard_merge, hn]
    rw [hl, hv]
  · rw [hcell _ hpid]
    omega
  · simp [vc_merge, standard_merge, hn]

/-- Witness of C6: merging `[2,0,0]` into `[0,1,0]` gives `[2,1,0]`. -/
theorem C6_standard_merge_pointwise_max_witness :
    (standard_merge ⟨3, 1, ClockType.CLOCK_STANDARD, ⟨[0, 1, 0]⟩, 12⟩ [2, 0, 0] 12).data.v
      = [2, 1, 0] ∧
    rd (standard_merge ⟨3, 1, ClockType.CLOCK_STANDARD, ⟨[0, 1, 0]⟩, 12⟩ [2, 0, 0] 12).data.v 1
      = max (rd [0, 1, 0] 1) (rd [2, 0, 0] 1) :=
  ⟨by decide,
    (C6_standard_merge_pointwise_max 3 ⟨3, 1, ClockType.CLOCK_STANDARD, ⟨[0, 1, 0]⟩, 12⟩
      [2, 0, 0] 12 rfl rfl rfl (by decide)).2.2.1⟩

/-! ## Pair-list payloads -/

theorem rd_cons_succ (x : Int) (l : List Int) (i : Nat) : rd (x :: l) (i + 1) = rd l i := by
  simp [rd]

theorem rd_flat_pairs (ps : List (Int × Int)) (i : Nat) (h : i < ps.length) :
    rd (flat_pairs ps) (i * 2) = ps[i].1 ∧ rd (flat_pairs ps) (i * 2 + 1) = ps[i].2 := by
  induction ps generalizing i with
  | nil => simp at h
  | cons p ps ih =>
    cases i with
    | zero => simp [flat_pairs, rd]
    | succ i =>
      have hi : i < ps.length := by simpa using h
      have e1 : (i + 1) * 2 = (i * 2 + 1) + 1 := by ring
      have e2 : (i + 1) * 2 + 1 = ((i * 2 + 1) + 1) + 1 := by ring
      obtain ⟨h1, h2⟩ := ih i hi
      simp only [flat_pairs, e1, e2, rd_cons_succ, List.getElem_cons_succ]
      exact ⟨h1, h2⟩

theorem flat_pairs_length (ps : List (Int × Int)) : (flat_pairs ps).length = 2 * ps.length := by
  induction ps with
  | nil => rfl
  | cons p ps ih => simp [flat_pairs, ih]; ring

theorem count_fold (p : Nat → Bool) (l : List Nat) (c : Nat) :
    l.foldl (fun c k => if p k then c + 1 else c) c = c + (l.filter p).length := by
  induction l generalizing c with
  | nil => simp
  | cons k l ih =>
    rw [List.foldl_cons, ih]
    by_cases h : p k = true
    · simp [List.filter, h]; omega
    · simp [List.filter, h]

theorem emit_emit (buf : List Int) (i : Nat) (a b : Int) (h : i + 2 ≤ buf.length) :
    emit (emit (buf, i) a) b = ((buf.take i ++ [a, b]) ++ buf.drop (i + 2), i + 2) := by
  unfold emit
  simp only [Prod.mk.injEq, and_true]
  apply List.ext_getElem
  · simp; omega
  · intro j h1 h2
    simp only [List.getElem_set, List.getElem_append, List.length_append, List.length_take,
      List.length_cons, List.length_nil, List.getElem_take, List.getElem_drop]
    have hm : min i buf.length = i := by omega
    simp only [hm]
    by_cases hj1 : i + 1 = j
    · subst hj1
      simp
    · by_cases hj0 : i = j
      · subst hj0
        simp
      · by_cases hlt : j < i
        · have : j < i + (0 + 1 + 1) := by omega
          simp [hj1, hj0, hlt, this]
        · have h3 : ¬ j < i + (0 + 1 + 1) := by omega
          simp only [hj1, hj0, hlt, h3, if_false, dite_false]
          congr 1
          omega

/-- The emitting loop writes the selected pairs one after the other from index `i`. -/
theorem emit_fold (p : Nat → Bool) (g : Nat → Int) (l : List Nat) (buf : List Int) (i : Nat)
    (h : i + 2 * (l.filter p).length ≤ buf.length) :
    l.foldl (fun st k => if p k then emit (emit st (k : Int)) (g k) else st) (buf, i)
      = ((buf.take i ++ flat_pairs ((l.filter p).map (fun (k : Nat) => ((k : Int), g k))))
          ++ buf.drop (i + 2 * (l.filter p).length), i + 2 * (l.filter p).length) := by
  induction l generalizing buf i with
  | nil => simp [flat_pairs]
  | cons k l ih =>
    rw [List.foldl_cons]
    by_cases hp : p k = true
    · have hf : (k :: l).filter p = k :: l.filter p := by simp [List.filter, hp]
      rw [hf] at h ⊢
      simp only [List.length_cons] at h ⊢
      rw [if_pos hp, emit_emit buf i _ _ (by omega)]
      have hlen : ((buf.take i ++ [(k : Int), g k]) ++ buf.drop (i + 2)).length = buf.length := by
        simp; omega
      have hpre : (buf.take i ++ [(k : Int), g k]).length = i + 2 := by
        simp; omega
      rw [ih _ (i + 2) (by rw [hlen]; omega)]
      have e1 : ((buf.take i ++ [(k : Int), g k]) ++ buf.drop (i + 2)).take (i + 2)
          = buf.take i ++ [(k : Int), g k] := List.take_left' hpre
      have e2 : ((buf.take i ++ [(k : Int), g k]) ++ buf.drop (i + 2)).drop
            (i + 2 + 2 * (l.filter p).length)
          = buf.drop (i + 2 * ((l.filter p).length + 1)) := by
        rw [← hpre, List.drop_append, List.drop_drop]
        congr 1
        omega
      rw [e1, e2]
      simp only [List.map_cons, flat_pairs, List.append_assoc, List.cons_append,
        List.nil_append, Prod.mk.injEq, true_and]
      omega
    · have hf : (k :: l).filter p = l.filter p := by simp [List.filter, hp]
      rw [hf] at h ⊢
      rw [if_neg hp]
      exact ih buf i h

/-! ## Destination-aware serialization -/

theorem differential_sends_eq (ts : Timestamp DifferentialClockData) (dest : Nat) :
    differential_sends ts dest
      = fun k => decide (rd ts.data.LS dest < rd ts.data.LU k ∨ k = ts.pid) := by
  funext k
  simp [differential_sends]

theorem pairwise_keys (p : Nat → Bool) (g : Nat → Int) (n : Nat) :
    List.Pairwise (fun a b => a < b)
      ((((List.range n).filter p).map (fun (k : Nat) => ((k : Int), g k))).map
        (fun q => q.1)) := by
  rw [List.map_map]
  refine List.Pairwise.map _ ?_ ((List.pairwise_lt_range n).sublist (List.filter_sublist _))
  intro a b hab
  simpa using hab

/-- C9: with `dest` in `[0,n)` and a buffer of sufficient size,
`differential_serialize_for_dest` writes exactly the pairs `(k, v[k])`, in
increasing `k`, of the entries with `LS[dest] < LU[k]` or `k = pid` (judged on
the pre-call state), returns `2*sizeof(int)` times their number, and afterwards
`LS[dest] = v[pid]` while `v`, `LU` and every other `LS[j]` are unchanged. -/
theorem C9_differential_serialize_for_dest (ts : Timestamp DifferentialClockData)
    (dest : Nat) (buffer : List Int) (bufsize : Nat)
    (hdest : dest < ts.n) (hLS : ts.data.LS.length = ts.n)
    (hsuff : 2 * sizeof_int * (differential_delta ts dest).length ≤ bufsize)
    (hbuf : bufsize ≤ sizeof_int * buffer.length) :
    (differential_serialize_for_dest ts dest buffer bufsize).2.1
      = flat_pairs (differential_delta ts dest)
        ++ buffer.drop (2 * (differential_delta ts dest).length) ∧
    List.Pairwise (fun a b => a < b) ((differential_delta ts dest).map (fun q => q.1)) ∧
    (differential_serialize_for_dest ts dest buffer bufsize).2.2
      = 2 * sizeof_int * (differential_delta ts dest).length ∧
    rd (differential_serialize_for_dest ts dest buffer bufsize).1.data.LS dest
      = rd ts.data.v ts.pid ∧
    (∀ j, j ≠ dest →
      rd (differential_serialize_for_dest ts dest buffer bufsize).1.data.LS j
        = rd ts.data.LS j) ∧
    (differential_serialize_for_dest ts dest buffer bufsize).1.data.LS.length = ts.n ∧
    (differential_serialize_for_dest ts dest buffer bufsize).1.data.v = ts.data.v ∧
    (differential_serialize_for_dest ts dest buffer bufsize).1.data.LU = ts.data.LU := by
  have hlen : (differential_delta ts dest).length
      = ((List.range ts.n).filter (differential_sends ts dest)).length := by
    simp [differential_delta, differential_sends_eq]
  have hcount := count_fold (differential_sends ts dest) (List.range ts.n) 0
  have hreq : bufsize ≥ (List.range ts.n).foldl
      (fun c k => if differential_sends ts dest k then c + 1 else c) 0 * 2 * sizeof_int := by
    rw [hcount, ← hlen]
    simp only [sizeof_int] at hsuff ⊢
    omega
  have hroom : 0 + 2 * ((List.range ts.n).filter (differential_sends ts dest)).length
      ≤ buffer.length := by
    rw [← hlen]
    simp only [sizeof_int] at hsuff hbuf
    omega
  have hout := emit_fold (differential_sends ts dest) (fun k => rd ts.data.v k)
    (List.range ts.n) buffer 0 hroom
  have hdelta : ((List.range ts.n).filter (differential_sends ts dest)).map
      (fun (k : Nat) => ((k : Int), rd ts.data.v k)) = differential_delta ts dest := by
    simp [differential_delta, differential_sends_eq]
  rw [hdelta, ← hlen] at hout
  simp only [differential_serialize_for_dest, hreq, if_true, hout]
  refine ⟨by simp, ?_, ?_, ?_, ?_, ?_, trivial, trivial⟩
  · exact pairwise_keys _ _ _
  · rw [hcount, ← hlen]
    simp only [sizeof_int]
    omega
  · rw [rd_set_eq _ _ _ (by omega)]
  · intro j hj
    rw [rd_set_ne _ _ _ _ (fun h => hj h.symm)]
  · simp [hLS]

/-- Witness of C9: the call of the repository's test, `n = 3`, `pid = 1`,
`v = [5,2,3]`, `LU = [1,2,1]`, `LS = [0,0,0]`, `dest = 0`, a buffer of 6 ints. -/
theorem C9_differential_serialize_for_dest_witness :
    (differential_serialize_for_dest
        ⟨3, 1, ClockType.CLOCK_DIFFERENTIAL, ⟨[5, 2, 3], [0, 0, 0], [1, 2, 1]⟩, 0⟩ 0
        [9, 9, 9, 9, 9, 9] 24).2.1 = [0, 5, 1, 2, 2, 3] ∧
    rd (differential_serialize_for_dest
        ⟨3, 1, ClockType.CLOCK_DIFFERENTIAL, ⟨[5, 2, 3], [0, 0, 0], [1, 2, 1]⟩, 0⟩ 0
        [9, 9, 9, 9, 9, 9] 24).1.data.LS 0 = 2 :=
  have h := C9_differential_serialize_for_dest
    ⟨3, 1, ClockType.CLOCK_DIFFERENTIAL, ⟨[5, 2, 3], [0, 0, 0], [1, 2, 1]⟩, 0⟩ 0
    [9, 9, 9, 9, 9, 9] 24 (by decide) rfl (by decide) (by decide)
  ⟨h.1, h.2.2.2.1⟩

theorem compressed_differs_eq (d : CompressedClockData) (dest : Nat) :
    compressed_differs d dest = fun k => decide (rd (tau_row d dest) k ≠ rd d.vt k) := by
  funext k
  rfl

theorem getD_set_eq (tau : List (List Int)) (dest : Nat) (row : List Int)
    (h : dest < tau.length) : (tau.set dest row).getD dest [] = row := by
  simp [List.getD_eq_getElem?_getD, List.getElem?_set, h]

theorem getD_set_ne (tau : List (List Int)) (dest j : Nat) (row : List Int) (h : j ≠ dest) :
    (tau.set dest row).getD j [] = tau.getD j [] := by
  have : ¬ dest = j := fun e => h e.symm
  simp [List.getD_eq_getElem?_getD, List.getElem?_set, this]

/-- C10: with `dest` in `[0,n)`, a buffer of sufficient size and `d` the number
of indices `k` with `tau[dest][k] != vt[k]`, `compressed_serialize_for_dest`
writes the compressed form `[d, (k, vt[k]) ...]` (differing `k` in increasing
order) when `d > 0` and `1 + 2d <= n`, and otherwise the `n` integers of `vt`;
in both cases afterwards `tau[dest]` equals `vt`, and `vt` and every other row
of `tau` are unchanged. -/
theorem C10_compressed_serialize_for_dest (ts : Timestamp CompressedClockData)
    (dest : Nat) (buffer : List Int) (bufsize : Nat)
    (hdest : dest < ts.data.n) (htau : ts.data.tau.length = ts.data.n)
    (hvt : ts.data.vt.length = ts.data.n) (hrow : (tau_row ts.data dest).length = ts.data.n)
    (hsuff : (if 0 < (compressed_delta ts.data dest).length ∧
          1 + 2 * (compressed_delta ts.data dest).length ≤ ts.data.n
        then (1 + 2 * (compressed_delta ts.data dest).length) * sizeof_int
        else ts.data.n * sizeof_int) ≤ bufsize)
    (hbuf : bufsize ≤ sizeof_int * buffer.length) :
    (0 < (compressed_delta ts.data dest).length ∧
        1 + 2 * (compressed_delta ts.data dest).length ≤ ts.data.n →
      (compressed_serialize_for_dest ts dest buffer bufsize).2.1
        = ((compressed_delta ts.data dest).length : Int) :: flat_pairs (compressed_delta ts.data dest)
          ++ buffer.drop (1 + 2 * (compressed_delta ts.data dest).length) ∧
      (compressed_serialize_for_dest ts dest buffer bufsize).2.2
        = (1 + 2 * (compressed_delta ts.data dest).length) * sizeof_int) ∧
    (¬ (0 < (compressed_delta ts.data dest).length ∧
        1 + 2 * (compressed_delta ts.data dest).length ≤ ts.data.n) →
      (compressed_serialize_for_dest ts dest buffer bufsize).2.1
        = ts.data.vt ++ buffer.drop ts.data.n ∧
      (compressed_serialize_for_dest ts dest buffer bufsize).2.2 = ts.data.n * sizeof_int) ∧
    List.Pairwise (fun a b => a < b) ((compressed_delta ts.data dest).map (fun q => q.1)) ∧
    tau_row (compressed_serialize_for_dest ts dest buffer bufsize).1.data dest = ts.data.vt ∧
    (∀ j, j ≠ dest →
      tau_row (compressed_serialize_for_dest ts dest buffer bufsize).1.data j
        = tau_row ts.data j) ∧
    (compressed_serialize_for_dest ts dest buffer bufsize).1.data.tau.length = ts.data.n ∧
    (compressed_serialize_for_dest ts dest buffer bufsize).1.data.vt = ts.data.vt := by
  have hlen : (compressed_delta ts.data dest).length
      = ((List.range ts.data.n).filter (compressed_differs ts.data dest)).length := by
    simp [compressed_delta, compressed_differs_eq]
  have hcount := count_fold (compressed_differs ts.data dest) (List.range ts.data.n) 0
  rw [Nat.zero_add, ← hlen] at hcount
  have hdelta : ((List.range ts.data.n).filter (compressed_differs ts.data dest)).map
      (fun (k : Nat) => ((k : Int), rd ts.data.vt k)) = compressed_delta ts.data dest := by
    simp [compressed_delta, compressed_differs_eq]
  have hmem : memcpy_ints (tau_row ts.data dest) ts.data.vt ts.data.n = ts.data.vt := by
    rw [memcpy_ints_all _ _ _ hvt, List.drop_of_length_le (by omega), List.append_nil]
  have hsz : ((1 + 2 * (compressed_delta ts.data dest).length) * sizeof_int
      ≤ ts.data.n * sizeof_int ∧ (compressed_delta ts.data dest).length > 0)
      ↔ (0 < (compressed_delta ts.data dest).length ∧
        1 + 2 * (compressed_delta ts.data dest).length ≤ ts.data.n) := by
    simp only [sizeof_int]
    omega
  by_cases hc : 0 < (compressed_delta ts.data dest).length ∧
      1 + 2 * (compressed_delta ts.data dest).length ≤ ts.data.n
  · rw [if_pos hc] at hsuff
    have hroom : 1 + 2 * ((List.range ts.data.n).filter
        (compressed_differs ts.data dest)).length ≤ (buffer.set 0
          ((compressed_delta ts.data dest).length : Int)).length := by
      rw [← hlen, List.length_set]
      simp only [sizeof_int] at hsuff hbuf
      omega
    have hout := emit_fold (compressed_differs ts.data dest) (fun k => rd ts.data.vt k)
      (List.range ts.data.n) (buffer.set 0 ((compressed_delta ts.data dest).length : Int)) 1
      hroom
    rw [hdelta, ← hlen] at hout
    have hpos : 0 < buffer.length := by
      simp only [List.length_set] at hroom
      omega
    have htake : (buffer.set 0 ((compressed_delta ts.data dest).length : Int)).take 1
        = [((compressed_delta ts.data dest).length : Int)] := by
      cases buffer with
      | nil => simp at hpos
      | cons b bs => simp
    have hdrop : (buffer.set 0 ((compressed_delta ts.data dest).length : Int)).drop
        (1 + 2 * (compressed_delta ts.data dest).length)
        = buffer.drop (1 + 2 * (compressed_delta ts.data dest).length) :=
      List.drop_set_of_lt _ _ (by omega)
    rw [htake, hdrop] at hout
    have hres : compressed_serialize_for_dest ts dest buffer bufsize
        = ({ ts with data := ⟨ts.data.vt, ts.data.tau.set dest ts.data.vt, ts.data.n⟩ },
            ([((compressed_delta ts.data dest).length : Int)]
              ++ flat_pairs (compressed_delta ts.data dest))
              ++ buffer.drop (1 + 2 * (compressed_delta ts.data dest).length),
            (1 + 2 * (compressed_delta ts.data dest).length) * sizeof_int) := by
      have hemit : emit (buffer, 0) ((compressed_delta ts.data dest).length : Int)
          = (buffer.set 0 ((compressed_delta ts.data dest).length : Int), 1) := rfl
      rw [← hemit] at hout
      dsimp only [compressed_serialize_for_dest]
      rw [hcount, if_pos (hsz.mpr hc), if_pos hsuff, hmem, hout]
    rw [hres]
    refine ⟨fun _ => ⟨by simp, rfl⟩, fun h => absurd hc h, pairwise_keys _ _ _, ?_, ?_, ?_, rfl⟩
    · exact getD_set_eq _ _ _ (by omega)
    · intro j hj
      exact getD_set_ne _ _ _ _ hj
    · simp [htau]
  · rw [if_neg hc] at hsuff
    have hres : compressed_serialize_for_dest ts dest buffer bufsize
        = ({ ts with data := ⟨ts.data.vt, ts.data.tau.set dest ts.data.vt, ts.data.n⟩ },
            ts.data.vt ++ buffer.drop ts.data.n, ts.data.n * sizeof_int) := by
      dsimp only [compressed_serialize_for_dest]
      rw [hcount, if_neg (fun h => hc (hsz.mp h)), if_pos hsuff, hmem,
        memcpy_ints_all _ _ _ hvt]
    rw [hres]
    refine ⟨fun h => absurd h hc, fun _ => ⟨rfl, rfl⟩, pairwise_keys _ _ _, ?_, ?_, ?_, rfl⟩
    · exact getD_set_eq _ _ _ (by omega)
    · intro j hj
      exact getD_set_ne _ _ _ _ hj
    · simp [htau]

/-- Witness of C10: `n = 4`, `pid = 2`, `vt = [5,8,1,0]`, `tau[3] = [5,7,1,0]`,
`dest = 3` and a buffer of 10 ints: one entry differs and `[1, 1,8]` is written. -/
theorem C10_compressed_serialize_for_dest_witness :
    (compressed_serialize_for_dest
        ⟨4, 2, ClockType.CLOCK_COMPRESSED,
          ⟨[5, 8, 1, 0], [[0, 0, 0, 0], [0, 0, 0, 0], [0, 0, 0, 0], [5, 7, 1, 0]], 4⟩, 0⟩
        3 [9, 9, 9, 9, 9, 9, 9, 9, 9, 9] 40).2.1 = [1, 1, 8, 9, 9, 9, 9, 9, 9, 9] ∧
    tau_row (compressed_serialize_for_dest
        ⟨4, 2, ClockType.CLOCK_COMPRESSED,
          ⟨[5, 8, 1, 0], [[0, 0, 0, 0], [0, 0, 0, 0], [0, 0, 0, 0], [5, 7, 1, 0]], 4⟩, 0⟩
        3 [9, 9, 9, 9, 9, 9, 9, 9, 9, 9] 40).1.data 3 = [5, 8, 1, 0] :=
  have h := C10_compressed_serialize_for_dest
    ⟨4, 2, ClockType.CLOCK_COMPRESSED,
      ⟨[5, 8, 1, 0], [[0, 0, 0, 0], [0, 0, 0, 0], [0, 0, 0, 0], [5, 7, 1, 0]], 4⟩, 0⟩
    3 [9, 9, 9, 9, 9, 9, 9, 9, 9, 9] 40 (by decide) rfl rfl rfl (by decide) (by decide)
  ⟨(h.1 (by decide)).1, h.2.2.2.1⟩

/-! ## Compressed serialization: size, first send, send event -/

/-- The byte count `compressed_serialize_for_dest` returns, whatever the buffer. -/
theorem compressed_serialize_size (ts : Timestamp CompressedClockData) (dest : Nat)
    (buffer : List Int) (bufsize : Nat) :
    (compressed_serialize_for_dest ts dest buffer bufsize).2.2
      = if 0 < (compressed_delta ts.data dest).length ∧
            1 + 2 * (compressed_delta ts.data dest).length ≤ ts.data.n
        then (1 + 2 * (compressed_delta ts.data dest).length) * sizeof_int
        else ts.data.n * sizeof_int := by
  have hlen : (compressed_delta ts.data dest).length
      = ((List.range ts.data.n).filter (compressed_differs ts.data dest)).length := by
    simp [compressed_delta, compressed_differs_eq]
  have hcount := count_fold (compressed_differs ts.data dest) (List.range ts.data.n) 0
  rw [Nat.zero_add, ← hlen] at hcount
  have hsz : ((1 + 2 * (compressed_delta ts.data dest).length) * sizeof_int
      ≤ ts.data.n * sizeof_int ∧ (compressed_delta ts.data dest).length > 0)
      ↔ (0 < (compressed_delta ts.data dest).length ∧
        1 + 2 * (compressed_delta ts.data dest).length ≤ ts.data.n) := by
    simp only [sizeof_int]
    omega
  dsimp only [compressed_serialize_for_dest]
  rw [hcount]
  by_cases hc : 0 < (compressed_delta ts.data dest).length ∧
      1 + 2 * (compressed_delta ts.data dest).length ≤ ts.data.n
  · rw [if_pos (hsz.mpr hc), if_pos hc]
    split <;> rfl
  · rw [if_neg (fun h => hc (hsz.mp h)), if_neg hc]
    split <;> rfl

/-- The whole result of a call with a sufficient buffer. -/
theorem compressed_serialize_result (ts : Timestamp CompressedClockData)
    (dest : Nat) (buffer : List Int) (bufsize : Nat)
    (hvt : ts.data.vt.length = ts.data.n) (hrow : (tau_row ts.data dest).length = ts.data.n)
    (hsuff : (if 0 < (compressed_delta ts.data dest).length ∧
          1 + 2 * (compressed_delta ts.data dest).length ≤ ts.data.n
        then (1 + 2 * (compressed_delta ts.data dest).length) * sizeof_int
        else ts.data.n * sizeof_int) ≤ bufsize)
    (hbuf : bufsize ≤ sizeof_int * buffer.length) :
    compressed_serialize_for_dest ts dest buffer bufsize
      = ({ ts with data := ⟨ts.data.vt, ts.data.tau.set dest ts.data.vt, ts.data.n⟩ },
          (if 0 < (compressed_delta ts.data dest).length ∧
              1 + 2 * (compressed_delta ts.data dest).length ≤ ts.data.n
            then ((compressed_delta ts.data dest).length : Int)
              :: flat_pairs (compressed_delta ts.data dest)
              ++ buffer.drop (1 + 2 * (compressed_delta ts.data dest).length)
            else ts.data.vt ++ buffer.drop ts.data.n),
          (if 0 < (compressed_delta ts.data dest).length ∧
              1 + 2 * (compressed_delta ts.data dest).length ≤ ts.data.n
            then (1 + 2 * (compressed_delta ts.data dest).length) * sizeof_int
            else ts.data.n * sizeof_int)) := by
  have hlen : (compressed_delta ts.data dest).length
      = ((List.range ts.data.n).filter (compressed_differs ts.data dest)).length := by
    simp [compressed_delta, compressed_differs_eq]
  have hcount := count_fold (compressed_differs ts.data dest) (List.range ts.data.n) 0
  rw [Nat.zero_add, ← hlen] at hcount
  have hdelta : ((List.range ts.data.n).filter (compressed_differs ts.data dest)).map
      (fun (k : Nat) => ((k : Int), rd ts.data.vt k)) = compressed_delta ts.data dest := by
    simp [compressed_delta, compressed_differs_eq]
  have hmem : memcpy_ints (tau_row ts.data dest) ts.data.vt ts.data.n = ts.data.vt := by
    rw [memcpy_ints_all _ _ _ hvt, List.drop_of_length_le (by omega), List.append_nil]
  have hsz : ((1 + 2 * (compressed_delta ts.data dest).length) * sizeof_int
      ≤ ts.data.n * sizeof_int ∧ (compressed_delta ts.data dest).length > 0)
      ↔ (0 < (compressed_delta ts.data dest).length ∧
        1 + 2 * (compressed_delta ts.data dest).length ≤ ts.data.n) := by
    simp only [sizeof_int]
    omega
  by_cases hc : 0 < (compressed_delta ts.data dest).length ∧
      1 + 2 * (compressed_delta ts.data dest).length ≤ ts.data.n
  · rw [if_pos hc] at hsuff
    rw [if_pos hc, if_pos hc]
    have hroom : 1 + 2 * ((List.range ts.data.n).filter
        (compressed_differs ts.data dest)).length ≤ (buffer.set 0
          ((compressed_delta ts.data dest).length : Int)).length := by
      rw [← hlen, List.length_set]
      simp only [sizeof_int] at hsuff hbuf
      omega
    have hout := emit_fold (compressed_differs ts.data dest) (fun k => rd ts.data.vt k)
      (List.range ts.data.n) (buffer.set 0 ((compressed_delta ts.data dest).length : Int)) 1
      hroom
    rw [hdelta, ← hlen] at hout
    have hpos : 0 < buffer.length := by
      simp only [List.length_set] at hroom
      omega
    have htake : (buffer.set 0 ((compressed_delta ts.data dest).length : Int)).take 1
        = [((compressed_delta ts.data dest).length : Int)] := by
      cases buffer with
      | nil => simp at hpos
      | cons b bs => simp
    have hdrop : (buffer.set 0 ((compressed_delta ts.data dest).length : Int)).drop
        (1 + 2 * (compressed_delta ts.data dest).length)
        = buffer.drop (1 + 2 * (compressed_delta ts.data dest).length) :=
      List.drop_set_of_lt _ _ (by omega)
    rw [htake, hdrop] at hout
    have hemit : emit (buffer, 0) ((compressed_delta ts.data dest).length : Int)
        = (buffer.set 0 ((compressed_delta ts.data dest).length : Int), 1) := rfl
    rw [← hemit] at hout
    dsimp only [compressed_serialize_for_dest]
    rw [hcount, if_pos (hsz.mpr hc), if_pos hsuff, hmem, hout]
    simp
  · rw [if_neg hc] at hsuff
    rw [if_neg hc, if_neg hc]
    dsimp only [compressed_serialize_for_dest]
    rw [hcount, if_neg (fun h => hc (hsz.mp h)), if_pos hsuff, hmem,
      memcpy_ints_all _ _ _ hvt]

/-- C11, the code at the inputs of the repository's tests. With `n = 4`,
`pid = 2`, `vt = [5,8,1,0]`, `tau[3] = [5,7,1,0]` (the state of
`test_compressed_serialize_for_dest_multiple_changes`) the call writes the 3
integers `[1, 1,8]`, not the 5 integers `[2, 1,8, 2,2]`; with
`tau[3] = vt = [5,7,1,0]` (the state of `test_compressed_serialize_for_dest_basic`)
it writes the 4 integers of `vt`, not `[1, 2,2]`, and leaves `tau[3][2] = 1`. In
both calls `vt` is left as it was: no send event is counted on the own entry. -/
theorem C11_no_increment_in_serialize :
    compressed_serialize_for_dest
        ⟨4, 2, ClockType.CLOCK_COMPRESSED,
          ⟨[5, 8, 1, 0], [[0, 0, 0, 0], [0, 0, 0, 0], [0, 0, 0, 0], [5, 7, 1, 0]], 4⟩, 0⟩
        3 [0, 0, 0, 0, 0, 0, 0, 0, 0, 0] 40
      = (⟨4, 2, ClockType.CLOCK_COMPRESSED,
          ⟨[5, 8, 1, 0], [[0, 0, 0, 0], [0, 0, 0, 0], [0, 0, 0, 0], [5, 8, 1, 0]], 4⟩, 0⟩,
        [1, 1, 8, 0, 0, 0, 0, 0, 0, 0], 3 * sizeof_int) ∧
    compressed_serialize_for_dest
        ⟨4, 2, ClockType.CLOCK_COMPRESSED,
          ⟨[5, 7, 1, 0], [[0, 0, 0, 0], [0, 0, 0, 0], [0, 0, 0, 0], [5, 7, 1, 0]], 4⟩, 0⟩
        3 [0, 0, 0, 0, 0, 0, 0, 0, 0, 0] 40
      = (⟨4, 2, ClockType.CLOCK_COMPRESSED,
          ⟨[5, 7, 1, 0], [[0, 0, 0, 0], [0, 0, 0, 0], [0, 0, 0, 0], [5, 7, 1, 0]], 4⟩, 0⟩,
        [5, 7, 1, 0, 0, 0, 0, 0, 0, 0], 4 * sizeof_int) ∧
    ¬ ((compressed_serialize_for_dest
          ⟨4, 2, ClockType.CLOCK_COMPRESSED,
            ⟨[5, 8, 1, 0], [[0, 0, 0, 0], [0, 0, 0, 0], [0, 0, 0, 0], [5, 7, 1, 0]], 4⟩, 0⟩
          3 [0, 0, 0, 0, 0, 0, 0, 0, 0, 0] 40).2.2 = 5 * sizeof_int ∧
        (compressed_serialize_for_dest
          ⟨4, 2, ClockType.CLOCK_COMPRESSED,
            ⟨[5, 8, 1, 0], [[0, 0, 0, 0], [0, 0, 0, 0], [0, 0, 0, 0], [5, 7, 1, 0]], 4⟩, 0⟩
          3 [0, 0, 0, 0, 0, 0, 0, 0, 0, 0] 40).2.1.take 5 = [2, 1, 8, 2, 2]) ∧
    ¬ ((compressed_serialize_for_dest
          ⟨4, 2, ClockType.CLOCK_COMPRESSED,
            ⟨[5, 7, 1, 0], [[0, 0, 0, 0], [0, 0, 0, 0], [0, 0, 0, 0], [5, 7, 1, 0]], 4⟩, 0⟩
          3 [0, 0, 0, 0, 0, 0, 0, 0, 0, 0] 40).2.2 = 3 * sizeof_int ∧
        rd (tau_row (compressed_serialize_for_dest
          ⟨4, 2, ClockType.CLOCK_COMPRESSED,
            ⟨[5, 7, 1, 0], [[0, 0, 0, 0], [0, 0, 0, 0], [0, 0, 0, 0], [5, 7, 1, 0]], 4⟩, 0⟩
          3 [0, 0, 0, 0, 0, 0, 0, 0, 0, 0] 40).1.data 3) 2 = 2) :=
  ⟨by decide, by decide, by decide, by decide⟩

/-! ## Differential bookkeeping over sequences of operations -/

theorem foldl_preserves {σ α : Type} (P : σ → Prop) (f : σ → α → σ)
    (h : ∀ s a, P s → P (f s a)) (l : List α) (s : σ) (hs : P s) : P (l.foldl f s) := by
  induction l generalizing s with
  | nil => exact hs
  | cons a l ih => exact ih (f s a) (h s a hs)

/-- The whole result of a Differential destination-aware serialization with a
sufficient buffer. -/
theorem differential_serialize_result (ts : Timestamp DifferentialClockData)
    (dest : Nat) (buffer : List Int) (bufsize : Nat)
    (hsuff : 2 * sizeof_int * (differential_delta ts dest).length ≤ bufsize)
    (hbuf : bufsize ≤ sizeof_int * buffer.length) :
    differential_serialize_for_dest ts dest buffer bufsize
      = ({ ts with data :=
            ⟨ts.data.v, ts.data.LS.set dest (rd ts.data.v ts.pid), ts.data.LU⟩ },
          flat_pairs (differential_delta ts dest)
            ++ buffer.drop (2 * (differential_delta ts dest).length),
          2 * sizeof_int * (differential_delta ts dest).length) := by
  have hlen : (differential_delta ts dest).length
      = ((List.range ts.n).filter (differential_sends ts dest)).length := by
    simp [differential_delta, differential_sends_eq]
  have hcount := count_fold (differential_sends ts dest) (List.range ts.n) 0
  rw [Nat.zero_add, ← hlen] at hcount
  have hreq : bufsize ≥ (differential_delta ts dest).length * 2 * sizeof_int := by
    simp only [sizeof_int] at hsuff ⊢
    omega
  have hroom : 0 + 2 * ((List.range ts.n).filter (differential_sends ts dest)).length
      ≤ buffer.length := by
    rw [← hlen]
    simp only [sizeof_int] at hsuff hbuf
    omega
  have hout := emit_fold (differential_sends ts dest) (fun k => rd ts.data.v k)
    (List.range ts.n) buffer 0 hroom
  have hdelta : ((List.range ts.n).filter (differential_sends ts dest)).map
      (fun (k : Nat) => ((k : Int), rd ts.data.v k)) = differential_delta ts dest := by
    simp [differential_delta, differential_sends_eq]
  rw [hdelta, ← hlen] at hout
  dsimp only [differential_serialize_for_dest]
  rw [hcount, if_pos hreq, hout]
  simp only [List.take_zero, List.nil_append, Nat.zero_add, Prod.mk.injEq, true_and]
  simp only [sizeof_int]
  omega

theorem foldl_id {σ α : Type} (f : σ → α → σ) (l : List α) (s : σ)
    (h : ∀ a, a ∈ l → f s a = s) : l.foldl f s = s := by
  induction l with
  | nil => rfl
  | cons a l ih =>
    rw [List.foldl_cons, h a (List.mem_cons_self a l)]
    exact ih (fun b hb => h b (List.mem_cons_of_mem a hb))

theorem max_with_ge (x : Int) (xs : List Int) :
    x ≤ max_with x xs ∧ ∀ y, y ∈ xs → y ≤ max_with x xs := by
  induction xs generalizing x with
  | nil => exact ⟨le_refl _, fun y hy => absurd hy (List.not_mem_nil y)⟩
  | cons a xs ih =>
    obtain ⟨h1, h2⟩ := ih (max x a)
    have e : max_with x (a :: xs) = max_with (max x a) xs := rfl
    rw [e]
    refine ⟨le_trans (le_max_left x a) h1, ?_⟩
    intro y hy
    rcases List.mem_cons.mp hy with rfl | hy
    · exact le_trans (le_max_right x y) h1
    · exact h2 y hy

/-- The pair loop of a merge, written over the pairs the payload holds. -/
theorem pair_loop_eq {σ : Type} (f : σ → Int → Int → σ) (data : List Int) (off count : Nat)
    (s : σ) :
    (List.range count).foldl
        (fun s i => f s (rd data (off + i * 2)) (rd data (off + i * 2 + 1))) s
      = (payload_pairs data off count).foldl (fun s p => f s p.1 p.2) s := by
  unfold payload_pairs
  rw [List.foldl_map]

theorem merge_max_step_id (o v : List Int) (i : Nat) (h : rd o i ≤ rd v i) :
    merge_max_step o v i = v := by
  unfold merge_max_step
  rw [if_neg (by omega)]

theorem differential_merge_eq (dst : Timestamp DifferentialClockData) (other_data : List Int)
    (other_size : Nat) :
    differential_merge dst other_data other_size
      = { dst with data :=
          ⟨(differential_merge_loop dst other_data other_size).v.set dst.pid
              (rd (differential_merge_loop dst other_data other_size).v dst.pid + 1),
            (differential_merge_loop dst other_data other_size).LS,
            (differential_merge_loop dst other_data other_size).LU.set dst.pid
              (rd ((differential_merge_loop dst other_data other_size).v.set dst.pid
                (rd (differential_merge_loop dst other_data other_size).v dst.pid + 1))
                dst.pid)⟩ } := rfl

theorem compressed_merge_eq (dst : Timestamp CompressedClockData) (other_data : List Int)
    (other_size : Nat) :
    compressed_merge dst other_data other_size
      = { dst with data :=
          ⟨(compressed_merge_loop dst other_data other_size).set dst.pid
              (rd (compressed_merge_loop dst other_data other_size) dst.pid + 1),
            dst.data.tau, dst.data.n⟩ } := rfl

theorem pair_loop_eq0 {σ : Type} (f : σ → Int → Int → σ) (data : List Int) (count : Nat)
    (s : σ) :
    (List.range count).foldl (fun s i => f s (rd data (i * 2)) (rd data (i * 2 + 1))) s
      = (payload_pairs data 0 count).foldl (fun s p => f s p.1 p.2) s := by
  have := pair_loop_eq f data 0 count s
  simpa only [Nat.zero_add] using this

theorem payload_pairs_flat (ps : List (Int × Int)) (rest : List Int) :
    payload_pairs (flat_pairs ps ++ rest) 0 ps.length = ps := by
  unfold payload_pairs
  apply List.ext_getElem (by simp)
  intro i h1 h2
  have hi : i < ps.length := h2
  obtain ⟨e1, e2⟩ := rd_flat_pairs ps i hi
  have hl := flat_pairs_length ps
  simp only [List.getElem_map, List.getElem_range, Nat.zero_add]
  rw [rd_append_left _ _ _ (by omega), rd_append_left _ _ _ (by omega), e1, e2]

theorem merge_max_loop_vecinv (n : Nat) (o v : List Int) (m : Nat) (h : VecInv n v) :
    VecInv n ((List.range m).foldl (merge_max_step o) v) := by
  obtain ⟨hl, hr⟩ := merge_max_loop o v m
  refine ⟨by rw [hl]; exact h.1, ?_⟩
  intro k
  rw [hr k]
  split
  · exact le_trans (h.2 k) (le_max_left _ _)
  · exact h.2 k

/-- Cells of a full-vector merge into a Standard receiver. -/
theorem standard_merge_cells (n : Nat) (r : Timestamp StandardClockData) (o : List Int)
    (size : Nat) (hn : r.n = n) (hv : r.data.v.length = n) (k : Nat) (hk : k < n) :
    rd (standard_merge r o size).data.v k = max (rd r.data.v k) (rd o k) := by
  obtain ⟨_, hr⟩ := merge_max_loop o r.data.v n
  simp only [standard_merge, hn]
  rw [hr k, if_pos ⟨hk, by omega⟩]

/-- A dense serialization with a sufficient buffer writes the vector. -/
theorem dense_serialize_payload (n : Nat) (v buffer : List Int) (hv : v.length = n)
    (k : Nat) (hk : k < n) : rd (memcpy_ints buffer v n) k = rd v k := by
  rw [memcpy_ints_all _ _ _ hv, rd_append_left _ _ _ (by omega)]

/-! ## Sparse merge -/

theorem sparse_has_false_value (k : Int) (es : List SparseEntry)
    (h : sparse_has k es = false) : sparse_value k es = 0 := by
  induction es with
  | nil => rfl
  | cons e es ih =>
    by_cases he : e.pid = k
    · simp [sparse_has, he] at h
    · have h2 : sparse_has k es = false := by
        simpa [sparse_has, he] using h
      simp [sparse_value, he, ih h2]

/-- Effect of the search loop of `sparse_merge` when the pid is found. -/
theorem sparse_merge_scan_some (p c : Int) (es es2 : List SparseEntry)
    (h : sparse_merge_scan p c es = some es2) (k : Int) :
    sparse_has p es = true ∧ sparse_has k es2 = sparse_has k es ∧
      es2.map (fun e => e.pid) = es.map (fun e => e.pid) ∧
      sparse_value k es2
        = if k = p then max (sparse_value p es) c else sparse_value k es := by
  induction es generalizing es2 with
  | nil => simp [sparse_merge_scan] at h
  | cons e es ih =>
    by_cases he : e.pid = p
    · simp only [sparse_merge_scan, he, if_true, Option.some.injEq] at h
      subst h
      refine ⟨by simp [sparse_has, he], ?_, ?_, ?_⟩
      · by_cases hc : c > e.counter <;> simp [sparse_has, hc, he]
      · by_cases hc : c > e.counter <;> simp [hc, he]
      · by_cases hk : k = p
        · subst hk
          by_cases hc : c > e.counter
          · simp [sparse_value, hc, he, max_eq_right (le_of_lt hc)]
          · simp [sparse_value, hc, he, max_eq_left (not_lt.mp hc)]
        · have hpk : ¬ p = k := fun e => hk e.symm
          by_cases hc : c > e.counter <;> simp [sparse_value, hc, he, hk, hpk]
    · simp only [sparse_merge_scan, he, if_false, Option.map_eq_some'] at h
      obtain ⟨r, hr, rfl⟩ := h
      obtain ⟨h1, h2, h3, h4⟩ := ih r hr
      refine ⟨by simpa [sparse_has, he] using h1, ?_, ?_, ?_⟩
      · simp only [sparse_has, List.any_cons] at h2 ⊢
        rw [h2]
      · simp [h3]
      · by_cases hk : k = p
        · subst hk
          simp only [sparse_value, he, if_false, if_true] at h4 ⊢
          exact h4
        · by_cases hek : e.pid = k
          · simp [sparse_value, hek, hk]
          · simp only [sparse_value, hek, if_false, hk] at h4 ⊢
            exact h4

theorem sparse_merge_scan_none (p c : Int) (es : List SparseEntry)
    (h : sparse_merge_scan p c es = none) : sparse_has p es = false := by
  induction es with
  | nil => rfl
  | cons e es ih =>
    by_cases he : e.pid = p
    · simp [sparse_merge_scan, he] at h
    · simp only [sparse_merge_scan, he, if_false, Option.map_eq_none'] at h
      simp [sparse_has, he]
      simpa [sparse_has] using ih h

theorem sparse_has_append (k p c : Int) (es : List SparseEntry) :
    sparse_has k (es ++ [⟨p, c⟩]) = (sparse_has k es || decide (p = k)) := by
  simp [sparse_has]

/-- Effect of one incoming pair on the looked-up values. -/
theorem sparse_merge_entry_spec (d : SparseClockData) (p c k : Int) :
    sparse_has k (sparse_merge_entry d p c).entries
        = (sparse_has k d.entries || decide (p = k)) ∧
      sparse_value k (sparse_merge_entry d p c).entries
        = if k = p then
            (if sparse_has p d.entries = true then max (sparse_value p d.entries) c else c)
          else sparse_value k d.entries := by
  unfold sparse_merge_entry
  cases h : sparse_merge_scan p c d.entries with
  | some es2 =>
    obtain ⟨h1, h2, _, h4⟩ := sparse_merge_scan_some p c d.entries es2 h k
    refine ⟨?_, ?_⟩
    · simp only
      rw [h2]
      by_cases hpk : p = k
      · subst hpk; simp [h1]
      · simp [hpk]
    · simp only
      rw [h4, h1]
      simp
  | none =>
    have hno := sparse_merge_scan_none p c d.entries h
    refine ⟨sparse_has_append k p c d.entries, ?_⟩
    simp only
    rw [sparse_value_append]
    by_cases hk : k = p
    · subst hk
      have hf : d.entries.find? (fun e => decide (e.pid = k)) = none := by
        rw [List.find?_eq_none]
        intro e he
        have : sparse_has k d.entries = false := hno
        simp only [sparse_has, List.any_eq_false] at this
        exact this e he
      simp [hf, hno]
    · have hpk : ¬ p = k := fun e => hk e.symm
      by_cases hf : d.entries.find? (fun e => decide (e.pid = k)) = none
      · have hv : sparse_value k d.entries = 0 := by rw [sparse_value_eq_find, hf]
        simp [hf, hk, hpk, hv]
      · simp [hf, hk]

theorem carried_cons (q : Int × Int) (ps : List (Int × Int)) (k : Int) :
    carried (q :: ps) k = if q.1 = k then q.2 :: carried ps k else carried ps k := by
  unfold carried
  by_cases h : q.1 = k <;> simp [List.filter, h]

/-- The value `sparse_merge` leaves for `k` after a list of incoming pairs. -/
theorem sparse_merge_fold_spec (ps : List (Int × Int)) (d : SparseClockData) (k : Int) :
    sparse_has k (ps.foldl (fun d p => sparse_merge_entry d p.1 p.2) d).entries
        = (sparse_has k d.entries || !(carried ps k).isEmpty) ∧
      sparse_value k (ps.foldl (fun d p => sparse_merge_entry d p.1 p.2) d).entries
        = if sparse_has k d.entries = true then
            max_with (sparse_value k d.entries) (carried ps k)
          else
            match carried ps k with
            | [] => 0
            | c :: cs => max_with c cs := by
  induction ps generalizing d with
  | nil =>
    refine ⟨by simp [carried], ?_⟩
    by_cases h : sparse_has k d.entries = true
    · simp [h, carried, max_with]
    · have h2 : sparse_has k d.entries = false := by simpa using h
      simp [h2, carried, sparse_has_false_value k _ h2]
  | cons q ps ih =>
    obtain ⟨i1, i2⟩ := ih (sparse_merge_entry d q.1 q.2)
    obtain ⟨s1, s2⟩ := sparse_merge_entry_spec d q.1 q.2 k
    rw [List.foldl_cons, i1, i2, s1, s2, carried_cons]
    by_cases hq : q.1 = k
    · subst hq
      by_cases hh : sparse_has q.1 d.entries = true
      · simp [hh, max_with]
      · have h2 : sparse_has q.1 d.entries = false := by simpa using hh
        simp [h2, max_with]
    · have hkq : ¬ k = q.1 := fun e => hq e.symm
      simp [hq, hkq]

theorem payload_pairs_sparse (es : List SparseEntry) (rest : List Int) :
    payload_pairs (sparse_words es ++ rest) 0 es.length = sparse_pairs es := by
  have hw : sparse_words es = flat_pairs (sparse_pairs es) := by
    induction es with
    | nil => rfl
    | cons e es ih => simp [sparse_words, sparse_pairs, flat_pairs] at ih ⊢; exact ih
  have hl : es.length = (sparse_pairs es).length := by simp [sparse_pairs]
  rw [hw, hl]
  exact payload_pairs_flat _ _

theorem sparse_words_length (es : List SparseEntry) : (sparse_words es).length = 2 * es.length := by
  induction es with
  | nil => rfl
  | cons e es ih =>
    simp only [sparse_words, List.length_cons, ih]
    omega

theorem carried_sparse_pairs_cons (e : SparseEntry) (es : List SparseEntry) (k : Int) :
    carried (sparse_pairs (e :: es)) k
      = if e.pid = k then e.counter :: carried (sparse_pairs es) k
        else carried (sparse_pairs es) k := by
  have : sparse_pairs (e :: es) = (e.pid, e.counter) :: sparse_pairs es := rfl
  rw [this, carried_cons]

theorem carried_nil_of_not_mem (es : List SparseEntry) (k : Int)
    (h : k ∉ es.map (fun e => e.pid)) : carried (sparse_pairs es) k = [] := by
  induction es with
  | nil => rfl
  | cons e es ih =>
    rw [carried_sparse_pairs_cons]
    have h1 : ¬ e.pid = k := fun e1 => h (by simp [e1])
    have h2 : k ∉ es.map (fun e => e.pid) := fun hm => h (by simp at hm ⊢; exact Or.inr hm)
    rw [if_neg h1, ih h2]

/-- With at most one entry per pid, the list carries at most one value for `k`. -/
theorem carried_of_inv (es : List SparseEntry) (k : Int) (h : SparseInv es) :
    carried (sparse_pairs es) k = [] ∨ carried (sparse_pairs es) k = [sparse_value k es] := by
  induction es with
  | nil => exact Or.inl rfl
  | cons e es ih =>
    have hnd : e.pid ∉ es.map (fun e => e.pid) ∧ SparseInv es := by
      simpa [SparseInv] using h
    rw [carried_sparse_pairs_cons]
    by_cases he : e.pid = k
    · subst he
      rw [if_pos rfl, carried_nil_of_not_mem es _ hnd.1]
      right
      simp [sparse_value]
    · rw [if_neg he]
      rcases ih hnd.2 with h0 | h1
      · exact Or.inl h0
      · right
        rw [h1]
        simp [sparse_value, he]

theorem sparse_has_iff_mem (k : Int) (es : List SparseEntry) :
    sparse_has k es = true ↔ k ∈ es.map (fun e => e.pid) := by
  simp only [sparse_has, List.any_eq_true, decide_eq_true_eq, List.mem_map]

/-- One incoming pair keeps the invariant of the entry list. -/
theorem sparse_merge_entry_inv (d : SparseClockData) (p c : Int) (h : SparseInv d.entries) :
    SparseInv (sparse_merge_entry d p c).entries := by
  unfold sparse_merge_entry
  cases hs : sparse_merge_scan p c d.entries with
  | some es2 =>
    obtain ⟨_, _, h3, _⟩ := sparse_merge_scan_some p c d.entries es2 hs 0
    simp only [SparseInv]
    rw [h3]
    exact h
  | none =>
    have hno := sparse_merge_scan_none p c d.entries hs
    have hnm : p ∉ d.entries.map (fun e => e.pid) := by
      intro hm
      rw [(sparse_has_iff_mem p d.entries).mpr hm] at hno
      exact Bool.noConfusion hno
    simp only [SparseInv, List.map_append, List.map_cons, List.map_nil]
    rw [List.nodup_append]
    refine ⟨h, by simp, ?_⟩
    intro a ha hb
    simp at hb
    subst hb
    exact hnm ha

theorem sparse_increment_scan_pids (pid : Int) (es es2 : List SparseEntry)
    (h : sparse_increment_scan pid es = some es2) :
    es2.map (fun e => e.pid) = es.map (fun e => e.pid) := by
  induction es generalizing es2 with
  | nil => simp [sparse_increment_scan] at h
  | cons e es ih =>
    by_cases he : e.pid = pid
    · simp only [sparse_increment_scan, he, if_true, Option.some.injEq] at h
      subst h
      simp [he]
    · simp only [sparse_increment_scan, he, if_false, Option.map_eq_some'] at h
      obtain ⟨r, hr, rfl⟩ := h
      simp [ih r hr]

/-- Reading back the two words `encoded_serialize` wrote gives the product. -/
theorem read_u64_words (v : Nat) (hv : v < 2 ^ 64) (buffer : List Int) :
    read_u64 (memcpy_ints buffer (u64_words v) 2) = v := by
  have h0 : rd (memcpy_ints buffer (u64_words v) 2) 0 = to_int32 (v % 2 ^ 32) := rfl
  have h1 : rd (memcpy_ints buffer (u64_words v) 2) 1 = to_int32 (v / 2 ^ 32 % 2 ^ 32) := rfl
  have hw : ∀ w : Nat, w < 2 ^ 32 → (to_int32 w % 2 ^ 32).toNat = w := by
    intro w hw
    unfold to_int32
    split <;> omega
  unfold read_u64
  rw [h0, h1, hw _ (Nat.mod_lt _ (by norm_num)), hw _ (Nat.mod_lt _ (by norm_num))]
  omega

theorem rd_of_length_le (a : List Int) (j : Nat) (h : a.length ≤ j) : rd a j = 0 := by
  unfold rd
  rw [List.getD_eq_getElem?_getD, List.getElem?_eq_none h]
  rfl

theorem read_u64_lt (buf : List Int) : read_u64 buf < 2 ^ 64 := by
  unfold read_u64
  omega

theorem exponent_array_length (n value : Nat) : (exponent_array n value).length = 25 := by
  simp [exponent_array, MAX_PRIMES]

theorem rd_exponent_array (n value j : Nat) (hn : n ≤ 25) :
    rd (exponent_array n value) j
      = if j < n then ((value.factorization (PRIMES.getD j 0) : Nat) : Int) else 0 := by
  by_cases hj : j < 25
  · unfold exponent_array
    rw [rd_map_range _ _ _ (by simpa [MAX_PRIMES] using hj)]
  · have : ¬ j < n := by omega
    rw [if_neg this]
    exact rd_of_length_le _ _ (by rw [exponent_array_length]; omega)

/-- With 64 units of fuel the decoding of a non-zero 64-bit product ends with
the array of exponents. -/
theorem decode_value_eq (fuel n value : Nat) (hv0 : value ≠ 0) (hv : value < 2 ^ 64)
    (hfuel : 64 ≤ fuel) (hn : n ≤ 25) :
    decode_value fuel n value = some (exponent_array n value) := by
  obtain ⟨temp, arr, hst, _, _, hlen, _, hlow, hhigh⟩ :=
    decode_loop_inv fuel value hv0 hv hfuel n hn
  unfold decode_value
  rw [hst]
  simp only [Option.map_some', Option.some.injEq]
  rw [eq_iff_rd hlen (exponent_array_length n value)]
  intro i _
  rw [rd_exponent_array n value i hn]
  by_cases hi : i < n
  · rw [if_pos hi, hlow i hi]
  · rw [if_neg hi, hhigh i (by omega)]

/-- Invariant of the decoding loop of `encoded_increment`, which adds the
exponents to the cells of the array it is given. -/
theorem decode_into_loop (fuel value : Nat) (arr0 : List Int) (hv0 : value ≠ 0)
    (hv : value < 2 ^ 64) (hfuel : 64 ≤ fuel) (k : Nat) (hk : k ≤ 25) :
    ∃ temp arr,
      (List.range k).foldl
        (fun (st : Option (Nat × List Int)) i =>
          st.bind (fun s =>
            (divide_out (PRIMES.getD i 0) fuel s.1 (rd s.2 i)).map
              (fun r => (r.1, s.2.set i r.2))))
        (some (value, arr0)) = some (temp, arr) ∧
      temp ≠ 0 ∧ temp ≤ value ∧ arr.length = arr0.length ∧
      (∀ j, k ≤ j → j < 25 →
        temp.factorization (PRIMES.getD j 0) = value.factorization (PRIMES.getD j 0)) ∧
      (∀ j, j < k → j < arr0.length →
        rd arr j = rd arr0 j + ((value.factorization (PRIMES.getD j 0) : Nat) : Int)) ∧
      (∀ j, k ≤ j → rd arr j = rd arr0 j) ∧
      (∀ j, arr0.length ≤ j → rd arr j = rd arr0 j) := by
  induction k with
  | zero =>
    exact ⟨value, arr0, rfl, hv0, le_refl _, rfl, fun _ _ _ => rfl,
      fun j hj => absurd hj (Nat.not_lt_zero j), fun _ _ => rfl, fun _ _ => rfl⟩
  | succ k ih =>
    obtain ⟨temp, arr, hst, ht0, htle, hlen, hfac, hlow, hhigh, hout⟩ := ih (by omega)
    have hp := PRIMES_prime k (by omega)
    have hf64 : temp.factorization (PRIMES.getD k 0) < fuel := by
      have := factorization_lt_64 (PRIMES.getD k 0) temp hp ht0 (by omega)
      omega
    have hdiv := divide_out_spec (PRIMES.getD k 0) hp fuel temp (rd arr k) ht0 hf64
    have hfe := hfac k (le_refl k) (by omega)
    refine ⟨temp / PRIMES.getD k 0 ^ temp.factorization (PRIMES.getD k 0),
      arr.set k (rd arr k + ((temp.factorization (PRIMES.getD k 0) : Nat) : Int)),
      ?_, ?_, ?_, ?_, ?_, ?_, ?_, ?_⟩
    · rw [List.range_succ, List.foldl_append, hst]
      simp only [List.foldl_cons, List.foldl_nil, Option.some_bind]
      rw [hdiv]
      rfl
    · exact (Nat.ordCompl_pos _ ht0).ne'
    · exact le_trans (Nat.ordCompl_le _ _) htle
    · simp [hlen]
    · intro j hkj hj
      rw [factorization_div_pow_ne _ _ _ (PRIMES_inj j k hj (by omega) (by omega))]
      exact hfac j (by omega) hj
    · intro j hj hjl
      by_cases hjk : j = k
      · subst hjk
        rw [rd_set_eq _ _ _ (by omega), hhigh j (le_refl j), hfe]
      · rw [rd_set_ne _ _ _ _ (fun h => hjk h.symm)]
        exact hlow j (by omega) hjl
    · intro j hj
      rw [rd_set_ne _ _ _ _ (by omega)]
      exact hhigh j (by omega)
    · intro j hj
      by_cases hjk : j = k
      · subst hjk
        rw [rd_of_length_le _ _ (by simp [hlen]; omega), rd_of_length_le _ _ hj]
      · rw [rd_set_ne _ _ _ _ (fun h => hjk h.symm)]
        exact hout j hj

/-- The decoding loop of `encoded_increment` ends and adds the exponents. -/
theorem decode_into_spec (fuel n value : Nat) (arr0 : List Int) (hv0 : value ≠ 0)
    (hv : value < 2 ^ 64) (hfuel : 64 ≤ fuel) (hn : n ≤ 25) (hlen : arr0.length = n) :
    ∃ arr, decode_into fuel n value arr0 = some arr ∧ arr.length = n ∧
      ∀ j, j < n →
        rd arr j = rd arr0 j + ((value.factorization (PRIMES.getD j 0) : Nat) : Int) := by
  obtain ⟨temp, arr, hst, _, _, hl, _, hlow, _, _⟩ :=
    decode_into_loop fuel value arr0 hv0 hv hfuel n hn
  refine ⟨arr, ?_, by omega, fun j hj => hlow j hj (by omega)⟩
  unfold decode_into
  rw [hst]
  rfl

theorem prime_power_product_succ (e : List Int) (k : Nat) :
    prime_power_product e (k + 1)
      = prime_power_product e k * PRIMES.getD k 0 ^ (rd e k).toNat := by
  unfold prime_power_product
  rw [List.range_succ, List.foldl_append]
  rfl

theorem prime_power_product_pos (e : List Int) (k : Nat) (hk : k ≤ 25) :
    0 < prime_power_product e k := by
  induction k with
  | zero => exact Nat.one_pos
  | succ k ih =>
    rw [prime_power_product_succ]
    exact Nat.mul_pos (ih (by omega)) (Nat.pos_pow_of_pos _ (PRIMES_prime k (by omega)).pos)

/-- The inner loop of the re-encoding: `count` multiplications by `p`, given up
at the first product that does not fit 64 bits. -/
theorem reencode_prime_spec (p : Nat) (hp : 0 < p) (count result : Nat)
    (hr : result < 2 ^ 64) :
    reencode_prime p count result
      = if result * p ^ count < 2 ^ 64 then some (result * p ^ count) else none := by
  induction count generalizing result with
  | zero =>
    simp only [reencode_prime, pow_zero, mul_one]
    rw [if_pos hr]
  | succ c ih =>
    simp only [reencode_prime]
    by_cases hfit : result * p < 2 ^ 64
    · have hq : result * p % 2 ^ 64 / p = result := by
        rw [Nat.mod_eq_of_lt hfit, Nat.mul_div_cancel _ hp]
      have h4 : result * p ^ (c + 1) = result * p * p ^ c := by ring
      rw [if_neg (by rw [hq]; exact fun h => h rfl), ih _ (Nat.mod_lt _ (by norm_num)),
        Nat.mod_eq_of_lt hfit, h4]
    · have hq : result * p % 2 ^ 64 / p ≠ result := by
        intro h
        have h1 : result * p % 2 ^ 64 < result * p :=
          lt_of_lt_of_le (Nat.mod_lt _ (by norm_num)) (not_lt.mp hfit)
        have h2 : result * p ≤ result * p % 2 ^ 64 := by
          calc result * p = result * p % 2 ^ 64 / p * p := by rw [h]
            _ ≤ result * p % 2 ^ 64 := Nat.div_mul_le_self _ _
        omega
      rw [if_pos hq]
      have hge : ¬ result * p ^ (c + 1) < 2 ^ 64 := by
        intro h
        apply hfit
        have h1 : 0 < p ^ c := Nat.pos_pow_of_pos _ hp
        have h3 : result * p * 1 ≤ result * p * p ^ c := Nat.mul_le_mul_left _ h1
        have h4 : result * p ^ (c + 1) = result * p * p ^ c := by ring
        omega
      rw [if_neg hge]

/-- The re-encoding loop of `encoded_merge` returns the product of the prime
powers when it fits 64 bits and reports an overflow otherwise. -/
theorem reencode_spec (e : List Int) (n : Nat) (hn : n ≤ 25) :
    reencode n e
      = if prime_power_product e n < 2 ^ 64 then some (prime_power_product e n) else none := by
  unfold reencode
  induction n with
  | zero => rfl
  | succ k ih =>
    rw [List.range_succ, List.foldl_append, ih (by omega)]
    simp only [List.foldl_cons, List.foldl_nil]
    rw [prime_power_product_succ]
    by_cases hfit : prime_power_product e k < 2 ^ 64
    · rw [if_pos hfit, Option.some_bind,
        reencode_prime_spec _ (PRIMES_prime k (by omega)).pos _ _ hfit]
    · rw [if_neg hfit, Option.none_bind]
      have h1 : 0 < PRIMES.getD k 0 ^ (rd e k).toNat :=
        Nat.pos_pow_of_pos _ (PRIMES_prime k (by omega)).pos
      have h2 : prime_power_product e k * 1
          ≤ prime_power_product e k * PRIMES.getD k 0 ^ (rd e k).toNat :=
        Nat.mul_le_mul_left _ h1
      rw [if_neg (by omega)]

/-- Exponents of the table primes in a product of prime powers. -/
theorem prime_power_product_factorization (e : List Int) (k : Nat) (hk : k ≤ 25) (j : Nat)
    (hj : j < 25) :
    (prime_power_product e k).factorization (PRIMES.getD j 0)
      = if j < k then (rd e j).toNat else 0 := by
  induction k with
  | zero => simp [prime_power_product]
  | succ k ih =>
    have hp := PRIMES_prime k (by omega)
    rw [prime_power_product_succ,
      Nat.factorization_mul (prime_power_product_pos e k (by omega)).ne'
        (Nat.pos_pow_of_pos _ hp.pos).ne',
      Finsupp.add_apply, ih (by omega), Nat.Prime.factorization_pow hp, Finsupp.single_apply]
    by_cases hjk : j = k
    · subst hjk
      simp
    · have hne : ¬ PRIMES.getD k 0 = PRIMES.getD j 0 :=
        PRIMES_inj k j (by omega) hj (fun h => hjk h.symm)
      rw [if_neg hne]
      by_cases hlt : j < k
      · rw [if_pos hlt, if_pos (by omega)]
        rfl
      · rw [if_neg hlt, if_neg (by omega)]
        rfl

/-- The product rebuilt from the exponents of the first `n` primes divides the value. -/
theorem prime_power_product_dvd (n value : Nat) (hn : n ≤ 25) (k : Nat)
    (hk : k ≤ n) : prime_power_product (exponent_array n value) k ∣ value := by
  induction k with
  | zero => exact one_dvd _
  | succ k ih =>
    have hp := PRIMES_prime k (by omega)
    rw [prime_power_product_succ, rd_exponent_array n value k hn, if_pos (by omega),
      Int.toNat_ofNat]
    apply Nat.Coprime.mul_dvd_of_dvd_of_dvd _ (ih (by omega)) (Nat.ordProj_dvd _ _)
    apply Nat.Coprime.pow_right
    apply Nat.Coprime.symm
    rw [Nat.Prime.coprime_iff_not_dvd hp]
    intro hd
    have h1 := prime_power_product_factorization (exponent_array n value) k (by omega) k
      (by omega)
    rw [if_neg (lt_irrefl k)] at h1
    have h2 := (Nat.Prime.dvd_iff_one_le_factorization hp
      (prime_power_product_pos _ k (by omega)).ne').mp hd
    omega

theorem prime_power_product_le (n value : Nat) (hv0 : value ≠ 0) (hn : n ≤ 25) :
    prime_power_product (exponent_array n value) n ≤ value :=
  Nat.le_of_dvd (Nat.pos_of_ne_zero hv0) (prime_power_product_dvd n value hn n (le_refl n))

/-! ## Encoded: the shape kept by every operation -/

theorem exponent_array_vecinv (n value : Nat) (hn : n ≤ 25) :
    VecInv 25 (exponent_array n value) := by
  refine ⟨exponent_array_length n value, ?_⟩
  intro k
  rw [rd_exponent_array n value k hn]
  split
  · exact Int.ofNat_nonneg _
  · exact le_refl _

theorem rd_memcpy_ints (dst src : List Int) (n k : Nat) (hk : k < n) (hs : n ≤ src.length) :
    rd (memcpy_ints dst src n) k = rd src k := by
  unfold memcpy_ints
  rw [rd_append_left _ _ _ (by simp; omega)]
  unfold rd
  rw [List.getD_eq_getElem?_getD, List.getD_eq_getElem?_getD, List.getElem?_take_of_lt hk]

/-- The full-vector merge loop changes nothing when run a second time. -/
theorem merge_max_loop_idem (o v : List Int) (k : Nat) :
    (List.range k).foldl (merge_max_step o) ((List.range k).foldl (merge_max_step o) v)
      = (List.range k).foldl (merge_max_step o) v := by
  apply foldl_id
  intro i hi
  obtain ⟨hlen, hcell⟩ := merge_max_loop o v k
  by_cases hin : i < v.length
  · apply merge_max_step_id
    rw [hcell i, if_pos ⟨List.mem_range.mp hi, hin⟩]
    exact le_max_right _ _
  · have hV : ((List.range k).foldl (merge_max_step o) v).length ≤ i := by omega
    generalize (List.range k).foldl (merge_max_step o) v = V at hV ⊢
    unfold merge_max_step
    split
    · exact List.set_eq_of_length_le hV
    · rfl

/-- The full-vector merge loop changes nothing when the incoming cells are
not larger. -/
theorem merge_max_loop_id (o v : List Int) (k : Nat) (h : ∀ i, i < k → rd o i ≤ rd v i) :
    (List.range k).foldl (merge_max_step o) v = v :=
  foldl_id _ _ _ (fun i hi => merge_max_step_id o v i (h i (List.mem_range.mp hi)))

theorem standard_merge_idem (s : Timestamp StandardClockData) (p : List Int) (size : Nat) :
    standard_merge (standard_merge s p size) p size = standard_merge s p size := by
  unfold standard_merge
  simp only
  rw [merge_max_loop_idem]

theorem sparse_merge_eq_fold (dst : Timestamp SparseClockData) (other_data : List Int)
    (other_size : Nat) :
    sparse_merge dst other_data other_size
      = { dst with
          data := (payload_pairs other_data 0 (other_size / (2 * sizeof_int))).foldl
            (fun d p => sparse_merge_entry d p.1 p.2) dst.data } := by
  unfold sparse_merge payload_pairs
  rw [List.foldl_map]
  simp only [Nat.zero_add]

/-- An incoming pair that is already covered changes nothing. -/
theorem sparse_merge_entry_id (d : SparseClockData) (p c : Int)
    (hh : sparse_has p d.entries = true) (hc : c ≤ sparse_value p d.entries) :
    sparse_merge_entry d p c = d := by
  have key : ∀ es : List SparseEntry, sparse_has p es = true → c ≤ sparse_value p es →
      sparse_merge_scan p c es = some es := by
    intro es
    induction es with
    | nil => intro h; simp [sparse_has] at h
    | cons e es ih =>
      intro h1 h2
      by_cases he : e.pid = p
      · have h3 : ¬ c > e.counter := by
          simp only [sparse_value, he, if_true] at h2
          omega
        simp [sparse_merge_scan, he, h3]
      · have h1b : sparse_has p es = true := by
          simpa [sparse_has, he] using h1
        have h2b : c ≤ sparse_value p es := by
          simpa [sparse_value, he] using h2
        simp [sparse_merge_scan, he, ih h1b h2b]
  unfold sparse_merge_entry
  rw [key d.entries hh hc]

theorem mem_carried (ps : List (Int × Int)) (q : Int × Int) (h : q ∈ ps) :
    q.2 ∈ carried ps q.1 := by
  unfold carried
  rw [List.mem_map]
  exact ⟨q, by simp [List.mem_filter, h], rfl⟩

theorem sparse_merge_idem (s : Timestamp SparseClockData) (p : List Int) (size : Nat) :
    sparse_merge (sparse_merge s p size) p size = sparse_merge s p size := by
  rw [sparse_merge_eq_fold s, sparse_merge_eq_fold]
  simp only
  rw [foldl_id]
  intro q hq
  obtain ⟨h1, h2⟩ := sparse_merge_fold_spec (payload_pairs p 0 (size / (2 * sizeof_int)))
    s.data q.1
  have hm := mem_carried _ q hq
  apply sparse_merge_entry_id
  · rw [h1]
    cases hc : carried (payload_pairs p 0 (size / (2 * sizeof_int))) q.1 with
    | nil => rw [hc] at hm; exact absurd hm (List.not_mem_nil _)
    | cons a l => simp
  · rw [h2]
    split
    · exact (max_with_ge _ _).2 _ hm
    · cases hc : carried (payload_pairs p 0 (size / (2 * sizeof_int))) q.1 with
      | nil => rw [hc] at hm; exact absurd hm (List.not_mem_nil _)
      | cons a l =>
        rw [hc] at hm
        simp only
        rcases List.mem_cons.mp hm with h | h
        · rw [h]; exact (max_with_ge a l).1
        · exact (max_with_ge a l).2 _ h

/-! ## Round trips through the plain serializers -/

/-- The pairs `sparse_merge` reads from a serialization are the entries. -/
theorem sparse_serialize_pairs (x : Timestamp SparseClockData) (buffer : List Int)
    (bufsize : Nat) (hbuf : x.data.count * (2 * sizeof_int) ≤ bufsize) :
    payload_pairs (sparse_serialize x buffer bufsize).1 0
        ((sparse_serialize x buffer bufsize).2 / (2 * sizeof_int))
      = sparse_pairs x.data.entries := by
  unfold sparse_serialize
  simp only [ge_iff_le, hbuf, if_true]
  have hc : x.data.count = x.data.entries.length := rfl
  rw [Nat.mul_div_cancel _ (by decide : 0 < 2 * sizeof_int), hc,
    memcpy_ints_all _ _ _ (sparse_words_length _)]
  exact payload_pairs_sparse _ _

/-- Sparse: merging its own serialization leaves a timestamp with at most one
entry per pid as it is. -/
theorem sparse_self_merge (x : Timestamp SparseClockData) (hx : SparseInv x.data.entries)
    (buffer : List Int) (bufsize : Nat) (hbuf : x.data.count * (2 * sizeof_int) ≤ bufsize) :
    sparse_merge x (sparse_serialize x buffer bufsize).1 (sparse_serialize x buffer bufsize).2
      = x := by
  rw [sparse_merge_eq_fold, sparse_serialize_pairs x buffer bufsize hbuf, foldl_id]
  intro q hq
  have hm := mem_carried _ q hq
  have hval : sparse_value q.1 x.data.entries = q.2 := by
    rcases carried_of_inv x.data.entries q.1 hx with h0 | h1
    · rw [h0] at hm; exact absurd hm (List.not_mem_nil _)
    · rw [h1] at hm
      exact (List.mem_singleton.mp hm).symm
  apply sparse_merge_entry_id
  · rw [sparse_has_iff_mem]
    unfold sparse_pairs at hq
    rw [List.mem_map] at hq ⊢
    obtain ⟨e, he, rfl⟩ := hq
    exact ⟨e, he, rfl⟩
  · rw [hval]

/-- Standard: merging its own serialization leaves the timestamp as it is. -/
theorem standard_self_merge (x : Timestamp StandardClockData)
    (hx : x.data.v.length = x.n) (buffer : List Int) (bufsize : Nat)
    (hbuf : x.n * sizeof_int ≤ bufsize) :
    standard_merge x (standard_serialize x buffer bufsize).1
      (standard_serialize x buffer bufsize).2 = x := by
  unfold standard_serialize standard_merge
  simp only [ge_iff_le, hbuf, if_true]
  rw [merge_max_loop_id _ _ _ (fun i hi => le_of_eq (dense_serialize_payload x.n _ _ hx i hi))]

/-! ## Encoded: round trip, merging twice, merging the own serialization -/

/-- Decoding the product of the prime powers of an exponent array gives the
array back. -/
theorem exponent_array_product (e : List Int) (n : Nat) (hn : n ≤ 25) (he : VecInv 25 e)
    (hz : ∀ j, n ≤ j → rd e j = 0) :
    exponent_array n (prime_power_product e n) = e := by
  rw [eq_iff_rd (exponent_array_length _ _) he.1]
  intro i hi
  rw [rd_exponent_array _ _ _ hn]
  by_cases hin : i < n
  · rw [if_pos hin, prime_power_product_factorization e n hn i hi, if_pos hin]
    exact Int.toNat_of_nonneg (he.2 i)
  · rw [if_neg hin, hz i (by omega)]

theorem exponent_vector_rebuilt (n value : Nat) (hn : n ≤ 25) :
    exponent_vector n (prime_power_product (exponent_array n value) n)
      = exponent_vector n value := by
  unfold exponent_vector
  apply List.map_congr_left
  intro i hi
  have hin : i < n := List.mem_range.mp hi
  rw [prime_power_product_factorization _ n hn i (by omega), if_pos hin,
    rd_exponent_array _ _ _ hn, if_pos hin, Int.toNat_ofNat]

/-- The merged exponents `encoded_merge` re-encodes: non-negative, and zero
from cell `n` on. -/
theorem merged_exponents_inv (n value : Nat) (ov : List Int) (hn : n ≤ 25) :
    VecInv 25 ((List.range n).foldl (merge_max_step ov) (exponent_array n value)) ∧
      ∀ j, n ≤ j →
        rd ((List.range n).foldl (merge_max_step ov) (exponent_array n value)) j = 0 := by
  refine ⟨merge_max_loop_vecinv 25 _ _ _ (exponent_array_vecinv _ _ hn), ?_⟩
  intro j hj
  rw [(merge_max_loop ov (exponent_array n value) n).2 j, if_neg (by omega),
    rd_exponent_array _ _ _ hn, if_neg (by omega)]

/-- Encoded: merging a payload a second time changes nothing. -/
theorem encoded_merge_idem (fuel : Nat) (s : Timestamp EncodedClockData) (p : List Int)
    (size : Nat) (hfuel : 64 ≤ fuel) (hn : s.n ≤ 25) (hlen : s.data.fallback_v.length = s.n)
    (hv : s.data.overflow = false → 1 ≤ s.data.value ∧ s.data.value < 2 ^ 64)
    (hp : size = sizeof_ull → 1 ≤ read_u64 p) :
    ∃ m, encoded_merge fuel s p size = some m ∧ encoded_merge fuel m p size = some m := by
  by_cases hsz : size = sizeof_ull
  · have hdo : decode_value fuel s.n (read_u64 p) = some (exponent_array s.n (read_u64 p)) :=
      decode_value_eq fuel s.n _ (by have := hp hsz; omega) (read_u64_lt p) hfuel hn
    cases ho : s.data.overflow with
    | true =>
      refine ⟨{ s with data := ⟨s.data.value, true,
        (List.range s.n).foldl (merge_max_step (exponent_array s.n (read_u64 p)))
          s.data.fallback_v⟩ }, ?_, ?_⟩
      · unfold encoded_merge
        simp only [if_pos hsz, ho, if_true, hdo, Option.map_some']
      · unfold encoded_merge
        simp only [if_pos hsz, if_true, hdo, Option.map_some', merge_max_loop_idem]
    | false =>
      obtain ⟨h1, h64⟩ := hv ho
      have hds : decode_value fuel s.n s.data.value = some (exponent_array s.n s.data.value) :=
        decode_value_eq fuel s.n _ (by omega) h64 hfuel hn
      obtain ⟨hdv, hdz⟩ := merged_exponents_inv s.n s.data.value
        (exponent_array s.n (read_u64 p)) hn
      by_cases hfit : prime_power_product ((List.range s.n).foldl
          (merge_max_step (exponent_array s.n (read_u64 p)))
          (exponent_array s.n s.data.value)) s.n < 2 ^ 64
      · refine ⟨{ s with data := ⟨prime_power_product ((List.range s.n).foldl
          (merge_max_step (exponent_array s.n (read_u64 p)))
          (exponent_array s.n s.data.value)) s.n, false, s.data.fallback_v⟩ }, ?_, ?_⟩
        · unfold encoded_merge
          simp only [if_pos hsz, ho, Bool.false_eq_true, if_false, hdo, hds, Option.some_bind,
            Option.map_some', reencode_spec _ _ hn, if_pos hfit]
        · have hdm := decode_value_eq fuel s.n _
            (prime_power_product_pos _ s.n hn).ne' hfit hfuel hn
          rw [exponent_array_product _ s.n hn hdv hdz] at hdm
          unfold encoded_merge
          simp only [if_pos hsz, Bool.false_eq_true, if_false, hdo, hdm, Option.some_bind,
            Option.map_some', merge_max_loop_idem, reencode_spec _ _ hn, if_pos hfit]
      · refine ⟨{ s with data := ⟨s.data.value, true, memcpy_ints s.data.fallback_v
          ((List.range s.n).foldl (merge_max_step (exponent_array s.n (read_u64 p)))
            (exponent_array s.n s.data.value)) s.n⟩ }, ?_, ?_⟩
        · unfold encoded_merge
          simp only [if_pos hsz, ho, Bool.false_eq_true, if_false, hdo, hds, Option.some_bind,
            Option.map_some', reencode_spec _ _ hn, if_neg hfit]
        · unfold encoded_merge
          simp only [if_pos hsz, if_true, hdo, Option.map_some']
          rw [merge_max_loop_id]
          intro i hi
          rw [rd_memcpy_ints _ _ _ _ hi (by rw [hdv.1]; exact hn),
            (merge_max_loop _ _ s.n).2 i,
            if_pos ⟨hi, by rw [exponent_array_length]; omega⟩]
          exact le_max_right _ _
  · cases ho : s.data.overflow with
    | true =>
      refine ⟨{ s with data := ⟨s.data.value, true,
        (List.range s.n).foldl (merge_max_step p) s.data.fallback_v⟩ }, ?_, ?_⟩
      · unfold encoded_merge
        simp only [if_neg hsz, ho, not_true_eq_false, if_false]
      · unfold encoded_merge
        simp only [if_neg hsz, not_true_eq_false, if_false, merge_max_loop_idem]
    | false =>
      obtain ⟨h1, h64⟩ := hv ho
      have hds : decode_value fuel s.n s.data.value = some (exponent_array s.n s.data.value) :=
        decode_value_eq fuel s.n _ (by omega) h64 hfuel hn
      refine ⟨{ s with data := ⟨s.data.value, true,
        (List.range s.n).foldl (merge_max_step p)
          (memcpy_ints s.data.fallback_v (exponent_array s.n s.data.value) s.n)⟩ }, ?_, ?_⟩
      · unfold encoded_merge
        simp only [if_neg hsz, ho, Bool.false_eq_true, not_false_eq_true, if_true, hds,
          Option.map_some']
      · unfold encoded_merge
        simp only [if_neg hsz, not_true_eq_false, if_false, merge_max_loop_idem]

/-- Encoded: merging its own serialization leaves the logical vector of a
timestamp as it is, in product mode, and in fallback mode when the vector
payload cannot be taken for a product. -/
theorem encoded_self_merge (fuel : Nat) (s : Timestamp EncodedClockData)
    (buffer : List Int) (bufsize : Nat) (hfuel : 64 ≤ fuel) (hn : s.n ≤ 25)
    (hlen : s.data.fallback_v.length = s.n)
    (hv : s.data.overflow = false → 1 ≤ s.data.value ∧ s.data.value < 2 ^ 64)
    (hmode : s.data.overflow = true → s.n * sizeof_int ≠ sizeof_ull)
    (hbuf : (encoded_serialize s buffer bufsize).2 ≤ bufsize) :
    ∃ m, encoded_merge fuel s (encoded_serialize s buffer bufsize).1
        (encoded_serialize s buffer bufsize).2 = some m ∧
      encoded_logical m = encoded_logical s := by
  cases ho : s.data.overflow with
  | true =>
    unfold encoded_serialize at hbuf ⊢
    rw [ho] at hbuf ⊢
    simp only [if_true, ge_iff_le] at hbuf ⊢
    rw [if_pos hbuf]
    unfold encoded_merge
    simp only [if_neg (hmode ho), ho, not_true_eq_false, if_false]
    refine ⟨_, rfl, ?_⟩
    unfold encoded_logical
    simp only [if_true, ho]
    exact merge_max_loop_id _ _ _
      (fun i hi => le_of_eq (dense_serialize_payload s.n _ _ hlen i hi))
  | false =>
    obtain ⟨h1, h64⟩ := hv ho
    unfold encoded_serialize at hbuf ⊢
    rw [ho] at hbuf ⊢
    simp only [Bool.false_eq_true, if_false, ge_iff_le] at hbuf ⊢
    rw [if_pos hbuf]
    unfold encoded_merge
    simp only [if_true, ho, Bool.false_eq_true, if_false, Option.some_bind,
      read_u64_words _ h64,
      decode_value_eq fuel s.n s.data.value (by omega) h64 hfuel hn, Option.map_some',
      merge_max_loop_id _ _ _ (fun i _ => le_refl _), reencode_spec _ _ hn,
      if_pos (lt_of_le_of_lt (prime_power_product_le s.n s.data.value (by omega) hn) h64)]
    refine ⟨_, rfl, ?_⟩
    unfold encoded_logical
    simp only [Bool.false_eq_true, if_false, ho]
    exact exponent_vector_rebuilt s.n s.data.value hn

/-! ## Round trip and idempotence -/

/-- C15, counterexample. An Encoded timestamp of `n = 2` reaches fallback mode
with the vector `[0, 41]` after 41 increments of process 1; its serialization
is 8 bytes long, so merging it into the timestamp itself reads it as the
product `41 * 2^32` and raises entry 0 to 32. A Sparse timestamp holding two
entries for pid 0, as `sparse_deserialize` installs them from the pairs
`(0,1), (0,5)`, has logical entry 1 for pid 0 and 5 after merging its own
serialization. -/
theorem C15_self_merge_changes_vector :
    encoded_create 2 1 ClockType.CLOCK_ENCODED
      = some ⟨2, 1, ClockType.CLOCK_ENCODED, ⟨1, false, [0, 0]⟩, 8⟩ ∧
    encoded_run 64 ⟨2, 1, ClockType.CLOCK_ENCODED, ⟨1, false, [0, 0]⟩, 8⟩
        (List.replicate 41 Event.increment)
      = some ⟨2, 1, ClockType.CLOCK_ENCODED, ⟨3 ^ 40, true, [0, 41]⟩, 8⟩ ∧
    encoded_logical ⟨2, 1, ClockType.CLOCK_ENCODED, ⟨3 ^ 40, true, [0, 41]⟩, 8⟩ = [0, 41] ∧
    read_u64 (encoded_serialize ⟨2, 1, ClockType.CLOCK_ENCODED, ⟨3 ^ 40, true, [0, 41]⟩, 8⟩
      [0, 0] 8).1 = 41 * 2 ^ 32 ∧
    (encoded_merge 64 ⟨2, 1, ClockType.CLOCK_ENCODED, ⟨3 ^ 40, true, [0, 41]⟩, 8⟩
        (encoded_serialize ⟨2, 1, ClockType.CLOCK_ENCODED, ⟨3 ^ 40, true, [0, 41]⟩, 8⟩
          [0, 0] 8).1
        (encoded_serialize ⟨2, 1, ClockType.CLOCK_ENCODED, ⟨3 ^ 40, true, [0, 41]⟩, 8⟩
          [0, 0] 8).2).map encoded_logical = some [32, 41] ∧
    (sparse_deserialize (sparse_create 2 0 ClockType.CLOCK_SPARSE) [0, 1, 0, 5] 16).data.entries
      = [⟨0, 1⟩, ⟨0, 5⟩] ∧
    sparse_logical 2 [⟨0, 1⟩, ⟨0, 5⟩] = [1, 0] ∧
    sparse_logical 2 (sparse_merge
        (sparse_deserialize (sparse_create 2 0 ClockType.CLOCK_SPARSE) [0, 1, 0, 5] 16)
        (sparse_serialize
          (sparse_deserialize (sparse_create 2 0 ClockType.CLOCK_SPARSE) [0, 1, 0, 5] 16)
          [0, 0, 0, 0] 16).1
        (sparse_serialize
          (sparse_deserialize (sparse_create 2 0 ClockType.CLOCK_SPARSE) [0, 1, 0, 5] 16)
          [0, 0, 0, 0] 16).2).data.entries = [5, 0] :=
  ⟨by decide, by decide, by decide, by decide, by decide, by decide, by decide, by decide⟩

/-- C15, amended: merge idempotence for Standard, Sparse and Encoded. Merging a
payload a second time leaves the state the first merge produced (for Encoded
with products of at least 1 and 64 units of fuel, both merges end). Merging
its own serialization leaves the logical vector of a timestamp unchanged for
Standard, for Sparse with at most one entry per pid, and for Encoded in
product mode or in fallback mode with `n * sizeof(int) != 8`. -/
theorem C15_merge_idempotence (fuel : Nat) (hfuel : 64 ≤ fuel) :
    (∀ (s : Timestamp StandardClockData) (p : List Int) (size : Nat),
      standard_merge (standard_merge s p size) p size = standard_merge s p size) ∧
    (∀ (s : Timestamp SparseClockData) (p : List Int) (size : Nat),
      sparse_merge (sparse_merge s p size) p size = sparse_merge s p size) ∧
    (∀ (s : Timestamp EncodedClockData) (p : List Int) (size : Nat),
      s.n ≤ MAX_PRIMES → s.data.fallback_v.length = s.n →
      (s.data.overflow = false → 1 ≤ s.data.value ∧ s.data.value < 2 ^ 64) →
      (size = sizeof_ull → 1 ≤ read_u64 p) →
      ∃ m, encoded_merge fuel s p size = some m ∧ encoded_merge fuel m p size = some m) ∧
    (∀ (s : Timestamp StandardClockData) (buffer : List Int) (bufsize : Nat),
      s.data.v.length = s.n → (standard_serialize s buffer bufsize).2 ≤ bufsize →
      (standard_merge s (standard_serialize s buffer bufsize).1
        (standard_serialize s buffer bufsize).2).data.v = s.data.v) ∧
    (∀ (s : Timestamp SparseClockData) (buffer : List Int) (bufsize : Nat),
      SparseInv s.data.entries → (sparse_serialize s buffer bufsize).2 ≤ bufsize →
      sparse_logical s.n (sparse_merge s (sparse_serialize s buffer bufsize).1
        (sparse_serialize s buffer bufsize).2).data.entries
        = sparse_logical s.n s.data.entries) ∧
    (∀ (s : Timestamp EncodedClockData) (buffer : List Int) (bufsize : Nat),
      s.n ≤ MAX_PRIMES → s.data.fallback_v.length = s.n →
      (s.data.overflow = false → 1 ≤ s.data.value ∧ s.data.value < 2 ^ 64) →
      (s.data.overflow = true → s.n * sizeof_int ≠ sizeof_ull) →
      (encoded_serialize s buffer bufsize).2 ≤ bufsize →
      ∃ m, encoded_merge fuel s (encoded_serialize s buffer bufsize).1
          (encoded_serialize s buffer bufsize).2 = some m ∧
        encoded_logical m = encoded_logical s) := by
  refine ⟨standard_merge_idem, sparse_merge_idem, ?_, ?_, ?_, ?_⟩
  · intro s p size hn hlen hv hp
    exact encoded_merge_idem fuel s p size hfuel hn hlen hv hp
  · intro s buffer bufsize hlen hbuf
    rw [standard_self_merge s hlen buffer bufsize hbuf]
  · intro s buffer bufsize hinv hbuf
    rw [sparse_self_merge s hinv buffer bufsize hbuf]
  · intro s buffer bufsize hn hlen hv hmode hbuf
    exact encoded_self_merge fuel s buffer bufsize hfuel hn hlen hv hmode hbuf

/-- Witness of C15 (amended): a Standard, a Sparse and an Encoded timestamp of
`n = 3` with the payloads `[0, 4, 1]`, `(1,4), (2,1)` and the product `45`, and
their own serializations in a buffer of 32 bytes. -/
theorem C15_merge_idempotence_witness :
    standard_merge (standard_merge ⟨3, 0, ClockType.CLOCK_STANDARD, ⟨[2, 1, 0]⟩, 12⟩
        [0, 4, 1] 12) [0, 4, 1] 12
      = standard_merge ⟨3, 0, ClockType.CLOCK_STANDARD, ⟨[2, 1, 0]⟩, 12⟩ [0, 4, 1] 12 ∧
    sparse_merge (sparse_merge ⟨3, 0, ClockType.CLOCK_SPARSE, ⟨[⟨0, 2⟩, ⟨1, 1⟩], 3⟩, 0⟩
        [1, 4, 2, 1] 16) [1, 4, 2, 1] 16
      = sparse_merge ⟨3, 0, ClockType.CLOCK_SPARSE, ⟨[⟨0, 2⟩, ⟨1, 1⟩], 3⟩, 0⟩
        [1, 4, 2, 1] 16 ∧
    (∃ m, encoded_merge 64 ⟨3, 0, ClockType.CLOCK_ENCODED, ⟨12, false, [0, 0, 0]⟩, 8⟩
          [45, 0] 8 = some m ∧
      encoded_merge 64 m [45, 0] 8 = some m) ∧
    (standard_merge ⟨3, 0, ClockType.CLOCK_STANDARD, ⟨[2, 1, 0]⟩, 12⟩
        (standard_serialize ⟨3, 0, ClockType.CLOCK_STANDARD, ⟨[2, 1, 0]⟩, 12⟩
          [0, 0, 0, 0, 0, 0, 0, 0] 32).1
        (standard_serialize ⟨3, 0, ClockType.CLOCK_STANDARD, ⟨[2, 1, 0]⟩, 12⟩
          [0, 0, 0, 0, 0, 0, 0, 0] 32).2).data.v = [2, 1, 0] ∧
    sparse_logical 3 (sparse_merge ⟨3, 0, ClockType.CLOCK_SPARSE, ⟨[⟨0, 2⟩, ⟨1, 1⟩], 3⟩, 0⟩
        (sparse_serialize ⟨3, 0, ClockType.CLOCK_SPARSE, ⟨[⟨0, 2⟩, ⟨1, 1⟩], 3⟩, 0⟩
          [0, 0, 0, 0, 0, 0, 0, 0] 32).1
        (sparse_serialize ⟨3, 0, ClockType.CLOCK_SPARSE, ⟨[⟨0, 2⟩, ⟨1, 1⟩], 3⟩, 0⟩
          [0, 0, 0, 0, 0, 0, 0, 0] 32).2).data.entries
      = sparse_logical 3 [⟨0, 2⟩, ⟨1, 1⟩] ∧
    (∃ m, encoded_merge 64 ⟨3, 0, ClockType.CLOCK_ENCODED, ⟨12, false, [0, 0, 0]⟩, 8⟩
          (encoded_serialize ⟨3, 0, ClockType.CLOCK_ENCODED, ⟨12, false, [0, 0, 0]⟩, 8⟩
            [0, 0, 0, 0, 0, 0, 0, 0] 32).1
          (encoded_serialize ⟨3, 0, ClockType.CLOCK_ENCODED, ⟨12, false, [0, 0, 0]⟩, 8⟩
            [0, 0, 0, 0, 0, 0, 0, 0] 32).2 = some m ∧
      encoded_logical m
        = encoded_logical ⟨3, 0, ClockType.CLOCK_ENCODED, ⟨12, false, [0, 0, 0]⟩, 8⟩) :=
  ⟨(C15_merge_idempotence 64 (by decide)).1
      ⟨3, 0, ClockType.CLOCK_STANDARD, ⟨[2, 1, 0]⟩, 12⟩ [0, 4, 1] 12,
    (C15_merge_idempotence 64 (by decide)).2.1
      ⟨3, 0, ClockType.CLOCK_SPARSE, ⟨[⟨0, 2⟩, ⟨1, 1⟩], 3⟩, 0⟩ [1, 4, 2, 1] 16,
    (C15_merge_idempotence 64 (by decide)).2.2.1
      ⟨3, 0, ClockType.CLOCK_ENCODED, ⟨12, false, [0, 0, 0]⟩, 8⟩ [45, 0] 8
      (by decide) (by decide) (by decide) (by decide),
    (C15_merge_idempotence 64 (by decide)).2.2.2.1
      ⟨3, 0, ClockType.CLOCK_STANDARD, ⟨[2, 1, 0]⟩, 12⟩ [0, 0, 0, 0, 0, 0, 0, 0] 32
      (by decide) (by decide),
    (C15_merge_idempotence 64 (by decide)).2.2.2.2.1
      ⟨3, 0, ClockType.CLOCK_SPARSE, ⟨[⟨0, 2⟩, ⟨1, 1⟩], 3⟩, 0⟩ [0, 0, 0, 0, 0, 0, 0, 0] 32
      (by unfold SparseInv; decide) (by decide),
    (C15_merge_idempotence 64 (by decide)).2.2.2.2.2
      ⟨3, 0, ClockType.CLOCK_ENCODED, ⟨12, false, [0, 0, 0]⟩, 8⟩ [0, 0, 0, 0, 0, 0, 0, 0] 32
      (by decide) (by decide) (by decide) (by decide) (by decide)⟩

/-- C19, the code at the input of `test_compressed_serialize_for_dest_first_send`:
with `n = 3`, `pid = 1`, `vt = [2,3,1]` and `tau[0]` all zero the three entries
differ, the compressed form would take 7 integers, and the call returns the 3
integers of `vt` instead, so neither the size is 7 integers nor the first
integer 3. -/
theorem C19_first_send_full_vector :
    compressed_serialize_for_dest
        ⟨3, 1, ClockType.CLOCK_COMPRESSED,
          ⟨[2, 3, 1], [[0, 0, 0], [0, 0, 0], [0, 0, 0]], 3⟩, 0⟩
        0 [0, 0, 0, 0, 0, 0, 0, 0, 0, 0] 40
      = (⟨3, 1, ClockType.CLOCK_COMPRESSED,
          ⟨[2, 3, 1], [[2, 3, 1], [0, 0, 0], [0, 0, 0]], 3⟩, 0⟩,
        [2, 3, 1, 0, 0, 0, 0, 0, 0, 0], 3 * sizeof_int) ∧
    ¬ ((compressed_serialize_for_dest
          ⟨3, 1, ClockType.CLOCK_COMPRESSED,
            ⟨[2, 3, 1], [[0, 0, 0], [0, 0, 0], [0, 0, 0]], 3⟩, 0⟩
          0 [0, 0, 0, 0, 0, 0, 0, 0, 0, 0] 40).2.2 = 7 * sizeof_int ∧
        rd (compressed_serialize_for_dest
          ⟨3, 1, ClockType.CLOCK_COMPRESSED,
            ⟨[2, 3, 1], [[0, 0, 0], [0, 0, 0], [0, 0, 0]], 3⟩, 0⟩
          0 [0, 0, 0, 0, 0, 0, 0, 0, 0, 0] 40).2.1 0 = 3) := by
  decide

/-- Counterexample to C20 as stated: with `n = 4` and `tau[3] = vt = [5,7,1,0]`
no index differs, `min(1 + 2*0, 4) = 1`, and the call returns 4 integers. -/
theorem C20_size_when_nothing_differs :
    (compressed_delta
        ⟨[5, 7, 1, 0], [[0, 0, 0, 0], [0, 0, 0, 0], [0, 0, 0, 0], [5, 7, 1, 0]], 4⟩ 3).length = 0 ∧
    (compressed_serialize_for_dest
        ⟨4, 2, ClockType.CLOCK_COMPRESSED,
          ⟨[5, 7, 1, 0], [[0, 0, 0, 0], [0, 0, 0, 0], [0, 0, 0, 0], [5, 7, 1, 0]], 4⟩, 0⟩
        3 [0, 0, 0, 0, 0, 0, 0, 0, 0, 0] 40).2.2 = 4 * sizeof_int ∧
    ¬ ((compressed_serialize_for_dest
        ⟨4, 2, ClockType.CLOCK_COMPRESSED,
          ⟨[5, 7, 1, 0], [[0, 0, 0, 0], [0, 0, 0, 0], [0, 0, 0, 0], [5, 7, 1, 0]], 4⟩, 0⟩
        3 [0, 0, 0, 0, 0, 0, 0, 0, 0, 0] 40).2.2
      = min (1 + 2 * (compressed_delta
          ⟨[5, 7, 1, 0], [[0, 0, 0, 0], [0, 0, 0, 0], [0, 0, 0, 0], [5, 7, 1, 0]], 4⟩ 3).length)
          4 * sizeof_int) := by
  decide

/-- C20 (amended): with `d` the number of indices where `tau[dest][k] != vt[k]`,
the size `compressed_serialize_for_dest` returns is `min(1 + 2d, n)` integers
when `d > 0`, and `n` integers when `d = 0`. -/
theorem C20_serialize_size (ts : Timestamp CompressedClockData) (dest : Nat)
    (buffer : List Int) (bufsize : Nat) :
    (compressed_serialize_for_dest ts dest buffer bufsize).2.2
      = if (compressed_delta ts.data dest).length = 0 then ts.data.n * sizeof_int
        else min (1 + 2 * (compressed_delta ts.data dest).length) ts.data.n * sizeof_int := by
  rw [compressed_serialize_size]
  by_cases h0 : (compressed_delta ts.data dest).length = 0
  · simp [h0]
  · rw [if_neg h0]
    by_cases hle : 1 + 2 * (compressed_delta ts.data dest).length ≤ ts.data.n
    · rw [if_pos ⟨Nat.pos_of_ne_zero h0, hle⟩, Nat.min_eq_left hle]
    · rw [if_neg (fun h => hle h.2), Nat.min_eq_right (by omega)]

/-! ## Encoded increment and the overflow transition -/

/-- The overflow test of `encoded_increment` fires exactly when the product
does not fit 64 bits. -/
theorem overflow_test_exact (v p : Nat) (hp : 0 < p) :
    (v * p % 2 ^ 64 / p ≠ v) ↔ 2 ^ 64 ≤ v * p := by
  constructor
  · intro h
    by_contra hlt
    apply h
    rw [Nat.mod_eq_of_lt (by omega), Nat.mul_div_cancel _ hp]
  · intro hge h
    have h1 : v * p % 2 ^ 64 < v * p := lt_of_lt_of_le (Nat.mod_lt _ (by norm_num)) hge
    have h2 : v * p ≤ v * p % 2 ^ 64 := by
      calc v * p = v * p % 2 ^ 64 / p * p := by rw [h]
        _ ≤ v * p % 2 ^ 64 := Nat.div_mul_le_self _ _
    omega

theorem exponent_vector_length (n value : Nat) : (exponent_vector n value).length = n := by
  simp [exponent_vector]

theorem rd_exponent_vector (n value k : Nat) (hk : k < n) :
    rd (exponent_vector n value) k
      = ((value.factorization (PRIMES.getD k 0) : Nat) : Int) := by
  unfold exponent_vector
  rw [rd_map_range _ _ _ hk]

/-- Both arms of `encoded_increment` in product mode. -/
theorem encoded_increment_product (fuel : Nat) (ts : Timestamp EncodedClockData)
    (hfuel : 64 ≤ fuel) (hn : ts.n ≤ 25) (hmode : ts.data.overflow = false)
    (h1 : 1 ≤ ts.data.value) (h64 : ts.data.value < 2 ^ 64)
    (hz : ts.data.fallback_v = List.replicate ts.n 0) (hp : 0 < PRIMES.getD ts.pid 0) :
    (ts.data.value * PRIMES.getD ts.pid 0 < 2 ^ 64 →
      encoded_increment fuel ts
        = some { ts with
            data := ⟨ts.data.value * PRIMES.getD ts.pid 0, false, ts.data.fallback_v⟩ }) ∧
    (2 ^ 64 ≤ ts.data.value * PRIMES.getD ts.pid 0 →
      encoded_increment fuel ts
        = some { ts with
            data := ⟨ts.data.value, true,
              (exponent_vector ts.n ts.data.value).set ts.pid
                (rd (exponent_vector ts.n ts.data.value) ts.pid + 1)⟩ }) := by
  constructor
  · intro hfit
    unfold encoded_increment
    rw [hmode]
    simp only [Bool.false_eq_true, if_false]
    rw [if_neg (fun h => absurd ((overflow_test_exact _ _ hp).mp h) (by omega)),
      Nat.mod_eq_of_lt hfit]
  · intro hge
    unfold encoded_increment
    rw [hmode]
    simp only [Bool.false_eq_true, if_false]
    rw [if_pos ((overflow_test_exact _ _ hp).mpr hge)]
    obtain ⟨arr, ha, hal, hcells⟩ := decode_into_spec fuel ts.n ts.data.value
      ts.data.fallback_v (by omega) h64 hfuel hn (by rw [hz]; simp)
    have harr : arr = exponent_vector ts.n ts.data.value := by
      rw [eq_iff_rd hal (exponent_vector_length _ _)]
      intro i hi
      rw [hcells i hi, hz, rd_replicate_zero, zero_add, rd_exponent_vector _ _ _ hi]
    rw [ha, harr]
    rfl

/-- C21: `encoded_increment` detects 64-bit overflow exactly. For an Encoded
timestamp in product mode with `1 <= v < 2^64`, owner `pid < n <= 25`, an
all-zero fallback vector and `p = PRIMES[pid]`: if `v * p < 2^64` the increment
returns with value `v * p` and the flag clear; if `v * p >= 2^64` it returns
with the flag set, the value unchanged and the fallback vector equal to the
exponent vector of `v` over the first `n` primes with entry `pid` raised by one
(64 units of fuel suffice for the decoding loop). -/
theorem C21_increment_overflow_exact (fuel : Nat) (ts : Timestamp EncodedClockData)
    (hfuel : 64 ≤ fuel) (hn : ts.n ≤ MAX_PRIMES) (hpid : ts.pid < ts.n)
    (hmode : ts.data.overflow = false) (h1 : 1 ≤ ts.data.value)
    (h64 : ts.data.value < 2 ^ 64) (hz : ts.data.fallback_v = List.replicate ts.n 0) :
    (ts.data.value * PRIMES.getD ts.pid 0 < 2 ^ 64 →
      encoded_increment fuel ts
        = some { ts with
            data := ⟨ts.data.value * PRIMES.getD ts.pid 0, false, ts.data.fallback_v⟩ }) ∧
    (2 ^ 64 ≤ ts.data.value * PRIMES.getD ts.pid 0 →
      encoded_increment fuel ts
        = some { ts with
            data := ⟨ts.data.value, true,
              (exponent_vector ts.n ts.data.value).set ts.pid
                (rd (exponent_vector ts.n ts.data.value) ts.pid + 1)⟩ }) :=
  encoded_increment_product fuel ts hfuel hn hmode h1 h64 hz
    (PRIMES_prime ts.pid (lt_of_lt_of_le hpid hn)).pos

/-- Witness of C21: `n = 2`, process 1 (prime 3), at the values `9` (the
product `27` fits) and `3^40` (the product `3^41` does not). -/
theorem C21_increment_overflow_exact_witness :
    encoded_increment 64 ⟨2, 1, ClockType.CLOCK_ENCODED, ⟨9, false, [0, 0]⟩, 8⟩
        = some ⟨2, 1, ClockType.CLOCK_ENCODED, ⟨9 * PRIMES.getD 1 0, false, [0, 0]⟩, 8⟩ ∧
    encoded_increment 64 ⟨2, 1, ClockType.CLOCK_ENCODED, ⟨3 ^ 40, false, [0, 0]⟩, 8⟩
        = some ⟨2, 1, ClockType.CLOCK_ENCODED, ⟨3 ^ 40, true,
            (exponent_vector 2 (3 ^ 40)).set 1 (rd (exponent_vector 2 (3 ^ 40)) 1 + 1)⟩, 8⟩ :=
  ⟨(C21_increment_overflow_exact 64 ⟨2, 1, ClockType.CLOCK_ENCODED, ⟨9, false, [0, 0]⟩, 8⟩
      (by decide) (by decide) (by decide) rfl (by decide) (by decide) rfl).1 (by decide),
    (C21_increment_overflow_exact 64
      ⟨2, 1, ClockType.CLOCK_ENCODED, ⟨3 ^ 40, false, [0, 0]⟩, 8⟩
      (by decide) (by decide) (by decide) rfl (by decide) (by decide) rfl).2 (by decide)⟩

theorem encoded_run_snoc (fuel : Nat) (ts : Timestamp EncodedClockData) (evs : List Event)
    (e : Event) :
    encoded_run fuel ts (evs ++ [e])
      = (encoded_run fuel ts evs).bind (fun s => encoded_apply fuel s e) := by
  unfold encoded_run
  rw [List.foldl_append]
  rfl

theorem standard_run_snoc (ts : Timestamp StandardClockData) (evs : List Event) (e : Event) :
    standard_run ts (evs ++ [e]) = standard_apply (standard_run ts evs) e := by
  unfold standard_run
  rw [List.foldl_append]
  rfl

theorem set_set_succ (n pid : Nat) (k : Int) (hpid : pid < n) :
    ((List.replicate n (0 : Int)).set pid k).set pid
        (rd ((List.replicate n (0 : Int)).set pid k) pid + 1)
      = (List.replicate n (0 : Int)).set pid (k + 1) := by
  rw [rd_set_eq _ _ _ (by simpa using hpid), List.set_set]

/-- Exponent vector of a power of the prime of process `pid`. -/
theorem exponent_vector_prime_pow (n pid k : Nat) (hn : n ≤ 25) (hpid : pid < n) :
    exponent_vector n (PRIMES.getD pid 0 ^ k) = (List.replicate n (0 : Int)).set pid (k : Int) := by
  have hp := PRIMES_prime pid (by omega)
  rw [eq_iff_rd (exponent_vector_length _ _) (by simp)]
  intro i hi
  rw [rd_exponent_vector _ _ _ hi, Nat.Prime.factorization_pow hp, Finsupp.single_apply, rd_set]
  by_cases hip : pid = i
  · subst hip
    simp [hi]
  · have hne : ¬ PRIMES.getD pid 0 = PRIMES.getD i 0 := PRIMES_inj pid i (by omega) (by omega) hip
    rw [if_neg hne, if_neg (fun h => hip h.1), rd_replicate_zero]
    rfl

/-- Standard: after `k` increments the vector holds `k` at `pid`, `0` elsewhere. -/
theorem standard_run_increments (n pid k : Nat) (type : ClockType) (hpid : pid < n) :
    (standard_run (standard_create n pid type) (List.replicate k Event.increment)).data.v
        = (List.replicate n (0 : Int)).set pid (k : Int) ∧
      (standard_run (standard_create n pid type) (List.replicate k Event.increment)).pid
        = pid := by
  induction k with
  | zero =>
    refine ⟨?_, rfl⟩
    show List.replicate n (0 : Int) = _
    rw [eq_iff_rd (n := n) (by simp) (by simp)]
    intro i _
    rw [rd_set]
    split
    · rw [rd_replicate_zero]; rfl
    · rfl
  | succ k ih =>
    rw [List.replicate_succ', standard_run_snoc]
    refine ⟨?_, ih.2⟩
    show (standard_increment _).data.v = _
    unfold standard_increment
    simp only
    rw [ih.1, ih.2, set_set_succ n pid _ hpid]
    push_cast
    rfl

/-- Encoded: the state after `k` increments of a fresh timestamp. -/
theorem encoded_run_increments (fuel n pid k : Nat) (type : ClockType) (hfuel : 64 ≤ fuel)
    (hn : n ≤ 25) (hpid : pid < n) :
    ∃ x, encoded_run fuel ⟨n, pid, type, ⟨1, false, List.replicate n 0⟩, sizeof_ull⟩
        (List.replicate k Event.increment) = some x ∧
      x.n = n ∧ x.pid = pid ∧
      (PRIMES.getD pid 0 ^ k < 2 ^ 64 →
        x.data = ⟨PRIMES.getD pid 0 ^ k, false, List.replicate n 0⟩) ∧
      (2 ^ 64 ≤ PRIMES.getD pid 0 ^ k →
        x.data.overflow = true ∧
          x.data.fallback_v = (List.replicate n (0 : Int)).set pid (k : Int)) := by
  have hp := PRIMES_prime pid (by omega)
  induction k with
  | zero =>
    exact ⟨_, rfl, rfl, rfl, fun _ => rfl, fun h => absurd h (by norm_num)⟩
  | succ k ih =>
    obtain ⟨x, hx, hxn, hxp, hprod, hfall⟩ := ih
    rw [List.replicate_succ', encoded_run_snoc, hx, Option.some_bind]
    show ∃ y, encoded_increment fuel x = some y ∧ _
    by_cases hk : PRIMES.getD pid 0 ^ k < 2 ^ 64
    · have hd := hprod hk
      have hinc := encoded_increment_product fuel x hfuel (by omega) (by rw [hd])
        (by rw [hd]; exact Nat.pos_pow_of_pos _ hp.pos) (by rw [hd]; exact hk)
        (by rw [hd, hxn]) (by rw [hxp]; exact hp.pos)
      rw [hd, hxp, hxn] at hinc
      simp only at hinc
      have hpow : PRIMES.getD pid 0 ^ k * PRIMES.getD pid 0 = PRIMES.getD pid 0 ^ (k + 1) := by
        ring
      rw [hpow] at hinc
      by_cases hk1 : PRIMES.getD pid 0 ^ (k + 1) < 2 ^ 64
      · refine ⟨_, hinc.1 hk1, rfl, rfl, fun _ => rfl, fun h => absurd h (by omega)⟩
      · refine ⟨_, hinc.2 (by omega), rfl, rfl, fun h => absurd h hk1, fun _ => ⟨rfl, ?_⟩⟩
        simp only
        rw [exponent_vector_prime_pow n pid k hn hpid, set_set_succ n pid _ hpid]
        push_cast
        rfl
    · obtain ⟨ho, hf⟩ := hfall (by omega)
      have hk1 : 2 ^ 64 ≤ PRIMES.getD pid 0 ^ (k + 1) := by
        have : PRIMES.getD pid 0 ^ k * 1 ≤ PRIMES.getD pid 0 ^ k * PRIMES.getD pid 0 :=
          Nat.mul_le_mul_left _ hp.pos
        have hpow : PRIMES.getD pid 0 ^ (k + 1) = PRIMES.getD pid 0 ^ k * PRIMES.getD pid 0 := by
          ring
        omega
      refine ⟨{ x with data := ⟨x.data.value, x.data.overflow,
        x.data.fallback_v.set x.pid (rd x.data.fallback_v x.pid + 1)⟩ }, ?_, hxn, hxp,
        fun h => absurd h (by omega), fun _ => ⟨ho, ?_⟩⟩
      · unfold encoded_increment
        rw [if_pos ho]
      simp only
      rw [hf, hxp, set_set_succ n pid _ hpid]
      push_cast
      rfl

/-- C22: Encoded agrees with Standard across the overflow transition. For
`n <= 25`, `pid < n` and every `k`, `k` increments of a freshly created Encoded
timestamp return (with 64 units of fuel) a state whose decoded vector is the
vector of a Standard timestamp after the same `k` increments, that is `k` at
`pid` and `0` elsewhere; its overflow flag is set iff `PRIMES[pid]^k >= 2^64`,
and while the flag is clear its product is `PRIMES[pid]^k`. -/
theorem C22_encoded_agrees_with_standard (fuel n pid k : Nat) (hfuel : 64 ≤ fuel)
    (hn : n ≤ MAX_PRIMES) (hpid : pid < n) :
    ∃ x0 x, encoded_create n pid ClockType.CLOCK_ENCODED = some x0 ∧
      encoded_run fuel x0 (List.replicate k Event.increment) = some x ∧
      encoded_logical x
        = (standard_run (standard_create n pid ClockType.CLOCK_STANDARD)
            (List.replicate k Event.increment)).data.v ∧
      (standard_run (standard_create n pid ClockType.CLOCK_STANDARD)
          (List.replicate k Event.increment)).data.v
        = (List.replicate n (0 : Int)).set pid (k : Int) ∧
      (x.data.overflow = true ↔ 2 ^ 64 ≤ PRIMES.getD pid 0 ^ k) ∧
      (x.data.overflow = false → x.data.value = PRIMES.getD pid 0 ^ k) ∧
      (x.data.overflow = true →
        x.data.fallback_v = (List.replicate n (0 : Int)).set pid (k : Int)) := by
  have hn25 : n ≤ 25 := hn
  obtain ⟨x, hx, hxn, _, hprod, hfall⟩ :=
    encoded_run_increments fuel n pid k ClockType.CLOCK_ENCODED hfuel hn25 hpid
  have hstd := (standard_run_increments n pid k ClockType.CLOCK_STANDARD hpid).1
  refine ⟨⟨n, pid, ClockType.CLOCK_ENCODED, ⟨1, false, List.replicate n 0⟩, sizeof_ull⟩, x,
    ?_, hx, ?_, hstd, ?_, ?_, ?_⟩
  · unfold encoded_create
    rw [if_neg (by omega)]
  · rw [hstd]
    unfold encoded_logical
    by_cases hk : PRIMES.getD pid 0 ^ k < 2 ^ 64
    · rw [hprod hk, hxn]
      simp only [Bool.false_eq_true, if_false]
      exact exponent_vector_prime_pow n pid k hn25 hpid
    · obtain ⟨ho, hf⟩ := hfall (by omega)
      rw [ho, if_pos rfl, hf]
  · constructor
    · intro ho
      by_contra hk
      rw [hprod (by omega)] at ho
      exact Bool.noConfusion ho
    · intro hk
      exact (hfall hk).1
  · intro ho
    by_cases hk : PRIMES.getD pid 0 ^ k < 2 ^ 64
    · rw [hprod hk]
    · rw [(hfall (by omega)).1] at ho
      exact Bool.noConfusion ho
  · intro ho
    by_cases hk : PRIMES.getD pid 0 ^ k < 2 ^ 64
    · rw [hprod hk] at ho
      exact Bool.noConfusion ho
    · exact (hfall (by omega)).2

/-- Witness of C22: `n = 3`, process 0 (prime 2), after 63 and after 64
increments. -/
theorem C22_encoded_agrees_with_standard_witness :
    (∃ x0 x, encoded_create 3 0 ClockType.CLOCK_ENCODED = some x0 ∧
      encoded_run 64 x0 (List.replicate 63 Event.increment) = some x ∧
      encoded_logical x
        = (standard_run (standard_create 3 0 ClockType.CLOCK_STANDARD)
            (List.replicate 63 Event.increment)).data.v ∧
      (standard_run (standard_create 3 0 ClockType.CLOCK_STANDARD)
          (List.replicate 63 Event.increment)).data.v
        = (List.replicate 3 (0 : Int)).set 0 ((63 : Nat) : Int) ∧
      (x.data.overflow = true ↔ 2 ^ 64 ≤ PRIMES.getD 0 0 ^ 63) ∧
      (x.data.overflow = false → x.data.value = PRIMES.getD 0 0 ^ 63) ∧
      (x.data.overflow = true →
        x.data.fallback_v = (List.replicate 3 (0 : Int)).set 0 ((63 : Nat) : Int))) ∧
    (∃ x0 x, encoded_create 3 0 ClockType.CLOCK_ENCODED = some x0 ∧
      encoded_run 64 x0 (List.replicate 64 Event.increment) = some x ∧
      encoded_logical x
        = (standard_run (standard_create 3 0 ClockType.CLOCK_STANDARD)
            (List.replicate 64 Event.increment)).data.v ∧
      (standard_run (standard_create 3 0 ClockType.CLOCK_STANDARD)
          (List.replicate 64 Event.increment)).data.v
        = (List.replicate 3 (0 : Int)).set 0 ((64 : Nat) : Int) ∧
      (x.data.overflow = true ↔ 2 ^ 64 ≤ PRIMES.getD 0 0 ^ 64) ∧
      (x.data.overflow = false → x.data.value = PRIMES.getD 0 0 ^ 64) ∧
      (x.data.overflow = true →
        x.data.fallback_v = (List.replicate 3 (0 : Int)).set 0 ((64 : Nat) : Int))) :=
  ⟨C22_encoded_agrees_with_standard 64 3 0 63 (by decide) (by decide) (by decide),
    C22_encoded_agrees_with_standard 64 3 0 64 (by decide) (by decide) (by decide)⟩

/-! ## Encoded fallback mode -/

/-- C23, counterexample. An Encoded timestamp of `n = 3` is in fallback mode
after merging the vector payload `[0, 2, 1]`; `encoded_deserialize` of an
8-byte buffer holding the product `6` clears its overflow flag. -/
theorem C23_deserialize_clears_overflow :
    encoded_create 3 0 ClockType.CLOCK_ENCODED
      = some ⟨3, 0, ClockType.CLOCK_ENCODED, ⟨1, false, [0, 0, 0]⟩, 8⟩ ∧
    encoded_run 64 ⟨3, 0, ClockType.CLOCK_ENCODED, ⟨1, false, [0, 0, 0]⟩, 8⟩
        [Event.increment, Event.merge [0, 2, 1] 12, Event.increment]
      = some ⟨3, 0, ClockType.CLOCK_ENCODED, ⟨2, true, [2, 2, 1]⟩, 8⟩ ∧
    encoded_deserialize ⟨3, 0, ClockType.CLOCK_ENCODED, ⟨2, true, [2, 2, 1]⟩, 8⟩ [6, 0] 8
      = ⟨3, 0, ClockType.CLOCK_ENCODED, ⟨6, false, [2, 2, 1]⟩, 8⟩ :=
  ⟨by decide, by decide, by decide⟩

/-- C23, amended: once the overflow flag of an Encoded timestamp is set, an
increment returns with the flag set, every merge that returns leaves it set
(and a merge returns with 64 units of fuel when an 8-byte payload holds a
product of at least 1), and a deserialize of a buffer whose size is not 8
bytes leaves it set; a deserialize of an 8-byte buffer clears it. -/
theorem C23_fallback_kept (fuel : Nat) (ts : Timestamp EncodedClockData)
    (ho : ts.data.overflow = true) :
    (∃ r, encoded_increment fuel ts = some r ∧ r.data.overflow = true) ∧
    (∀ (p : List Int) (size : Nat) (r : Timestamp EncodedClockData),
      encoded_merge fuel ts p size = some r → r.data.overflow = true) ∧
    (∀ (p : List Int) (size : Nat), 64 ≤ fuel → ts.n ≤ MAX_PRIMES →
      (size = sizeof_ull → 1 ≤ read_u64 p) →
      ∃ r, encoded_merge fuel ts p size = some r) ∧
    (∀ (buffer : List Int) (size : Nat), size ≠ sizeof_ull →
      (encoded_deserialize ts buffer size).data.overflow = true) ∧
    (∀ (buffer : List Int),
      (encoded_deserialize ts buffer sizeof_ull).data.overflow = false) := by
  refine ⟨?_, ?_, ?_, ?_, ?_⟩
  · refine ⟨{ ts with data := ⟨ts.data.value, ts.data.overflow,
      ts.data.fallback_v.set ts.pid (rd ts.data.fallback_v ts.pid + 1)⟩ }, ?_, ho⟩
    unfold encoded_increment
    rw [if_pos ho]
  · intro p size r hr
    unfold encoded_merge at hr
    by_cases hsz : size = sizeof_ull
    · rw [if_pos hsz, if_pos ho, Option.map_eq_some'] at hr
      obtain ⟨ov, _, rfl⟩ := hr
      exact ho
    · rw [if_neg hsz, if_neg (by simp [ho]), Option.some.injEq] at hr
      subst hr
      exact ho
  · intro p size hfuel hn hp
    unfold encoded_merge
    by_cases hsz : size = sizeof_ull
    · rw [if_pos hsz, if_pos ho,
        decode_value_eq fuel ts.n (read_u64 p) (by have := hp hsz; omega) (read_u64_lt p)
          hfuel hn]
      exact ⟨_, rfl⟩
    · rw [if_neg hsz, if_neg (by simp [ho])]
      exact ⟨_, rfl⟩
  · intro buffer size hsz
    unfold encoded_deserialize
    rw [if_neg hsz]
    split
    · rfl
    · exact ho
  · intro buffer
    unfold encoded_deserialize
    rw [if_pos rfl]

/-- Witness of C23 (amended): the fallback state `[2, 2, 1]` of `n = 3`, the
8-byte payload holding the product `45`, and the 12-byte buffer `[7, 8, 9]`. -/
theorem C23_fallback_kept_witness :
    (∃ r, encoded_increment 64 ⟨3, 0, ClockType.CLOCK_ENCODED, ⟨2, true, [2, 2, 1]⟩, 8⟩
        = some r ∧ r.data.overflow = true) ∧
    (⟨3, 0, ClockType.CLOCK_ENCODED, ⟨2, true, [2, 2, 1]⟩, 8⟩ :
      Timestamp EncodedClockData).data.overflow = true ∧
    (∃ r, encoded_merge 64 ⟨3, 0, ClockType.CLOCK_ENCODED, ⟨2, true, [2, 2, 1]⟩, 8⟩ [45, 0] 8
        = some r) ∧
    (encoded_deserialize ⟨3, 0, ClockType.CLOCK_ENCODED, ⟨2, true, [2, 2, 1]⟩, 8⟩
      [7, 8, 9] 12).data.overflow = true ∧
    (encoded_deserialize ⟨3, 0, ClockType.CLOCK_ENCODED, ⟨2, true, [2, 2, 1]⟩, 8⟩
      [6, 0] sizeof_ull).data.overflow = false :=
  ⟨(C23_fallback_kept 64 ⟨3, 0, ClockType.CLOCK_ENCODED, ⟨2, true, [2, 2, 1]⟩, 8⟩ rfl).1,
    (C23_fallback_kept 64 ⟨3, 0, ClockType.CLOCK_ENCODED, ⟨2, true, [2, 2, 1]⟩, 8⟩ rfl).2.1
      [45, 0] 8 ⟨3, 0, ClockType.CLOCK_ENCODED, ⟨2, true, [2, 2, 1]⟩, 8⟩ (by decide),
    (C23_fallback_kept 64 ⟨3, 0, ClockType.CLOCK_ENCODED, ⟨2, true, [2, 2, 1]⟩, 8⟩ rfl).2.2.1
      [45, 0] 8 (by decide) (by decide) (by decide),
    (C23_fallback_kept 64 ⟨3, 0, ClockType.CLOCK_ENCODED, ⟨2, true, [2, 2, 1]⟩, 8⟩ rfl).2.2.2.1
      [7, 8, 9] 12 (by decide),
    (C23_fallback_kept 64 ⟨3, 0, ClockType.CLOCK_ENCODED, ⟨2, true, [2, 2, 1]⟩, 8⟩ rfl).2.2.2.2
      [6, 0]⟩

/-! ## Encoded merge -/

theorem prime_power_product_congr (e1 e2 : List Int) (k : Nat)
    (h : ∀ i, i < k → rd e1 i = rd e2 i) :
    prime_power_product e1 k = prime_power_product e2 k := by
  induction k with
  | zero => rfl
  | succ k ih =>
    rw [prime_power_product_succ, prime_power_product_succ,
      ih (fun i hi => h i (by omega)), h k (by omega)]

/-- A prime factor of a product of prime powers is one of its primes. -/
theorem prime_dvd_prime_power_product (e : List Int) (k : Nat) (hk : k ≤ 25) (q : Nat)
    (hq : q.Prime) (hd : q ∣ prime_power_product e k) : ∃ i, i < k ∧ q = PRIMES.getD i 0 := by
  induction k with
  | zero =>
    have h1 : prime_power_product e 0 = 1 := rfl
    rw [h1] at hd
    exact absurd (Nat.dvd_one.mp hd) hq.one_lt.ne'
  | succ k ih =>
    rw [prime_power_product_succ] at hd
    rcases (Nat.Prime.dvd_mul hq).mp hd with h | h
    · obtain ⟨i, hi, he⟩ := ih (by omega) h
      exact ⟨i, by omega, he⟩
    · have h2 := Nat.Prime.dvd_of_dvd_pow hq h
      exact ⟨k, by omega, (Nat.prime_dvd_prime_iff_eq hq (PRIMES_prime k (by omega))).mp h2⟩

theorem max_exponents_length (n a b : Nat) : (max_exponents n a b).length = n := by
  simp [max_exponents]

theorem rd_max_exponents (n a b i : Nat) (hi : i < n) :
    rd (max_exponents n a b) i
      = max ((a.factorization (PRIMES.getD i 0) : Nat) : Int)
          ((b.factorization (PRIMES.getD i 0) : Nat) : Int) := by
  unfold max_exponents
  rw [rd_map_range _ _ _ hi]

/-- The merged exponents of `encoded_merge` are the pointwise maximum. -/
theorem rd_merged_exponents (n a b i : Nat) (hn : n ≤ 25) (hi : i < n) :
    rd ((List.range n).foldl (merge_max_step (exponent_array n b)) (exponent_array n a)) i
      = rd (max_exponents n a b) i := by
  rw [(merge_max_loop _ _ n).2 i, if_pos ⟨hi, by rw [exponent_array_length]; omega⟩,
    rd_exponent_array _ _ _ hn, rd_exponent_array _ _ _ hn, if_pos hi, if_pos hi,
    rd_max_exponents _ _ _ _ hi]

/-- The product of the maximal prime powers is the least common multiple when
both values factor over the first `n` primes. -/
theorem prime_power_product_lcm (n a b : Nat) (hn : n ≤ 25) (ha : a ≠ 0) (hb : b ≠ 0)
    (hfa : factors_over n a) (hfb : factors_over n b) :
    prime_power_product (max_exponents n a b) n = Nat.lcm a b := by
  apply Nat.eq_of_factorization_eq (prime_power_product_pos _ n hn).ne'
    (Nat.lcm_ne_zero ha hb)
  intro q
  rw [Nat.factorization_lcm ha hb, Finsupp.sup_apply]
  by_cases hq : q.Prime
  · by_cases hex : ∃ i, i < n ∧ q = PRIMES.getD i 0
    · obtain ⟨i, hi, rfl⟩ := hex
      rw [prime_power_product_factorization _ n hn i (by omega), if_pos hi,
        rd_max_exponents _ _ _ _ hi]
      omega
    · have h0 : (prime_power_product (max_exponents n a b) n).factorization q = 0 := by
        rw [Nat.factorization_eq_zero_iff]
        right; left
        exact fun hd => hex (prime_dvd_prime_power_product _ n hn q hq hd)
      have ha0 : a.factorization q = 0 := by
        rw [Nat.factorization_eq_zero_iff]
        right; left
        exact fun hd => hex (hfa q hq hd)
      have hb0 : b.factorization q = 0 := by
        rw [Nat.factorization_eq_zero_iff]
        right; left
        exact fun hd => hex (hfb q hq hd)
      rw [h0, ha0, hb0]
      rfl
  · rw [Nat.factorization_eq_zero_of_non_prime _ hq, Nat.factorization_eq_zero_of_non_prime _ hq,
      Nat.factorization_eq_zero_of_non_prime _ hq]
    rfl

/-- C24: Encoded merge of a product into a product. For a timestamp in product
mode with value `1 <= a < 2^64` and an 8-byte payload holding `b >= 1`, with
`m` the pointwise maximum of the exponent vectors of `a` and `b` over the first
`n` primes and `P` the product of `PRIMES[i]^m[i]`: the merge returns (with 64
units of fuel); if `P < 2^64` the result stays in product mode with value `P`;
if `P >= 2^64` the flag is set, the value is kept and the fallback vector is
`m`; and `P` is the least common multiple of `a` and `b` when both factor over
the first `n` primes. -/
theorem C24_merge_product_into_product (fuel : Nat) (ts : Timestamp EncodedClockData)
    (p : List Int) (hfuel : 64 ≤ fuel) (hn : ts.n ≤ MAX_PRIMES)
    (hlen : ts.data.fallback_v.length = ts.n) (hmode : ts.data.overflow = false)
    (h1 : 1 ≤ ts.data.value) (h64 : ts.data.value < 2 ^ 64) (hb : 1 ≤ read_u64 p) :
    (prime_power_product (max_exponents ts.n ts.data.value (read_u64 p)) ts.n < 2 ^ 64 →
      encoded_merge fuel ts p sizeof_ull
        = some { ts with
            data := ⟨prime_power_product (max_exponents ts.n ts.data.value (read_u64 p)) ts.n,
              false, ts.data.fallback_v⟩ }) ∧
    (2 ^ 64 ≤ prime_power_product (max_exponents ts.n ts.data.value (read_u64 p)) ts.n →
      encoded_merge fuel ts p sizeof_ull
        = some { ts with
            data := ⟨ts.data.value, true, max_exponents ts.n ts.data.value (read_u64 p)⟩ }) ∧
    (factors_over ts.n ts.data.value → factors_over ts.n (read_u64 p) →
      prime_power_product (max_exponents ts.n ts.data.value (read_u64 p)) ts.n
        = Nat.lcm ts.data.value (read_u64 p)) := by
  have hn25 : ts.n ≤ 25 := hn
  have hda := decode_value_eq fuel ts.n ts.data.value (by omega) h64 hfuel hn25
  have hdb := decode_value_eq fuel ts.n (read_u64 p) (by omega) (read_u64_lt p) hfuel hn25
  have hP := prime_power_product_congr _ _ ts.n
    (fun i hi => rd_merged_exponents ts.n ts.data.value (read_u64 p) i hn25 hi)
  refine ⟨?_, ?_, ?_⟩
  · intro hfit
    unfold encoded_merge
    simp only [if_true, hmode, Bool.false_eq_true, if_false, hda, hdb, Option.some_bind,
      Option.map_some', reencode_spec _ _ hn25, hP, if_pos hfit]
  · intro hge
    have hge2 : ¬ prime_power_product (max_exponents ts.n ts.data.value (read_u64 p)) ts.n
        < 2 ^ 64 := by
      omega
    have hm : memcpy_ints ts.data.fallback_v
        ((List.range ts.n).foldl (merge_max_step (exponent_array ts.n (read_u64 p)))
          (exponent_array ts.n ts.data.value)) ts.n
        = max_exponents ts.n ts.data.value (read_u64 p) := by
      rw [eq_iff_rd (n := ts.n) (by
        simp [memcpy_ints, hlen, (merge_max_loop _ _ _).1, exponent_array_length]
        omega) (max_exponents_length _ _ _)]
      intro i hi
      rw [rd_memcpy_ints _ _ _ _ hi (by
        rw [(merge_max_loop _ _ _).1, exponent_array_length]; exact hn25),
        rd_merged_exponents _ _ _ _ hn25 hi]
    unfold encoded_merge
    simp only [if_true, hmode, Bool.false_eq_true, if_false, hda, hdb, Option.some_bind,
      Option.map_some', reencode_spec _ _ hn25, hP, if_neg hge2, hm]
  · intro hfa hfb
    exact prime_power_product_lcm ts.n _ _ hn25 (by omega) (by omega) hfa hfb

/-- The maximal exponents computed from the two decoded arrays. -/
theorem max_exponents_of_decode (fuel n a b : Nat) (ea eb : List Int) (hfuel : 64 ≤ fuel)
    (hn : n ≤ 25) (ha1 : 1 ≤ a) (ha : a < 2 ^ 64) (hb1 : 1 ≤ b) (hb : b < 2 ^ 64)
    (hda : decode_value fuel n a = some ea) (hdb : decode_value fuel n b = some eb) :
    max_exponents n a b = (List.range n).map (fun (i : Nat) => max (rd ea i) (rd eb i)) := by
  rw [decode_value_eq fuel n a (by omega) ha hfuel hn, Option.some.injEq] at hda
  rw [decode_value_eq fuel n b (by omega) hb hfuel hn, Option.some.injEq] at hdb
  subst hda
  subst hdb
  unfold max_exponents
  apply List.map_congr_left
  intro i hi
  have hin : i < n := List.mem_range.mp hi
  rw [rd_exponent_array _ _ _ hn, rd_exponent_array _ _ _ hn, if_pos hin, if_pos hin]

theorem factors_over_product (e : List Int) (n : Nat) (hn : n ≤ 25) :
    factors_over n (prime_power_product e n) :=
  fun q hq hd => prime_dvd_prime_power_product e n hn q hq hd

theorem max_exponents_12_45 : max_exponents 3 12 (read_u64 [45, 0]) = [2, 2, 1] :=
  max_exponents_of_decode 64 3 12 (read_u64 [45, 0]) _ _ (by decide) (by decide) (by decide)
    (by decide) (by decide) (by decide)
    (by decide : decode_value 64 3 12 = some
      [2, 1, 0, 0, 0, 0, 0, 0, 0, 0, 0, 0, 0, 0, 0, 0, 0, 0, 0, 0, 0, 0, 0, 0, 0])
    (by decide : decode_value 64 3 (read_u64 [45, 0]) = some
      [0, 2, 1, 0, 0, 0, 0, 0, 0, 0, 0, 0, 0, 0, 0, 0, 0, 0, 0, 0, 0, 0, 0, 0, 0])

theorem max_exponents_pow63_9 : max_exponents 3 (2 ^ 63) (read_u64 [9, 0]) = [63, 2, 0] :=
  max_exponents_of_decode 64 3 (2 ^ 63) (read_u64 [9, 0]) _ _ (by decide) (by decide)
    (by decide) (by decide) (by decide) (by decide)
    (by decide : decode_value 64 3 (2 ^ 63) = some
      [63, 0, 0, 0, 0, 0, 0, 0, 0, 0, 0, 0, 0, 0, 0, 0, 0, 0, 0, 0, 0, 0, 0, 0, 0])
    (by decide : decode_value 64 3 (read_u64 [9, 0]) = some
      [0, 2, 0, 0, 0, 0, 0, 0, 0, 0, 0, 0, 0, 0, 0, 0, 0, 0, 0, 0, 0, 0, 0, 0, 0])

/-- Witness of C24: `n = 3`; `a = 12`, `b = 45` merge to `180 = lcm(12, 45)`;
`a = 2^63`, `b = 9` overflow to the fallback vector `[63, 2, 0]`. -/
theorem C24_merge_product_into_product_witness :
    encoded_merge 64 ⟨3, 0, ClockType.CLOCK_ENCODED, ⟨12, false, [0, 0, 0]⟩, 8⟩ [45, 0]
        sizeof_ull
      = some ⟨3, 0, ClockType.CLOCK_ENCODED,
          ⟨prime_power_product (max_exponents 3 12 (read_u64 [45, 0])) 3, false, [0, 0, 0]⟩,
          8⟩ ∧
    encoded_merge 64 ⟨3, 0, ClockType.CLOCK_ENCODED, ⟨2 ^ 63, false, [0, 0, 0]⟩, 8⟩ [9, 0]
        sizeof_ull
      = some ⟨3, 0, ClockType.CLOCK_ENCODED,
          ⟨2 ^ 63, true, max_exponents 3 (2 ^ 63) (read_u64 [9, 0])⟩, 8⟩ ∧
    prime_power_product (max_exponents 3 12 (read_u64 [45, 0])) 3
      = Nat.lcm 12 (read_u64 [45, 0]) :=
  ⟨(C24_merge_product_into_product 64
      ⟨3, 0, ClockType.CLOCK_ENCODED, ⟨12, false, [0, 0, 0]⟩, 8⟩ [45, 0]
      (by decide) (by decide) rfl rfl (by decide) (by decide) (by decide)).1
      (by rw [max_exponents_12_45]; decide),
    (C24_merge_product_into_product 64
      ⟨3, 0, ClockType.CLOCK_ENCODED, ⟨2 ^ 63, false, [0, 0, 0]⟩, 8⟩ [9, 0]
      (by decide) (by decide) rfl rfl (by decide) (by decide) (by decide)).2.1
      (by rw [max_exponents_pow63_9]; decide),
    (C24_merge_product_into_product 64
      ⟨3, 0, ClockType.CLOCK_ENCODED, ⟨12, false, [0, 0, 0]⟩, 8⟩ [45, 0]
      (by decide) (by decide) rfl rfl (by decide) (by decide) (by decide)).2.2
      (factors_over_product [2, 1, 0] 3 (by decide))
      (factors_over_product [0, 2, 1] 3 (by decide))⟩

/-! ## Trial division of the value zero -/

theorem divide_out_zero (p fuel : Nat) (c : Int) : divide_out p fuel 0 c = none := by
  induction fuel generalizing c with
  | zero => rfl
  | succ f ih =>
    unfold divide_out
    rw [if_pos (Nat.zero_mod p), Nat.zero_div]
    exact ih (c + 1)

theorem foldl_bind_none {σ α : Type} (f : σ → α → Option σ) (l : List α) :
    l.foldl (fun (st : Option σ) a => st.bind (fun s => f s a)) none = none := by
  induction l with
  | nil => rfl
  | cons a l ih => rw [List.foldl_cons, Option.none_bind]; exact ih

/-- The decoding loop never ends on the value zero, whatever the fuel. -/
theorem decode_value_zero (fuel n : Nat) (hn : 0 < n) : decode_value fuel n 0 = none := by
  obtain ⟨m, rfl⟩ : ∃ m, n = m + 1 := ⟨n - 1, by omega⟩
  unfold decode_value
  rw [List.range_succ_eq_map, List.foldl_cons]
  simp only [Option.some_bind, divide_out_zero, Option.map_none']
  rw [foldl_bind_none (fun (s : Nat × List Int) i =>
    (divide_out (PRIMES.getD i 0) fuel s.1 (rd s.2 i)).map (fun r => (r.1, s.2.set i r.2)))]
  rfl

/-- C25, counterexample. An Encoded timestamp of `n = 3` in product mode whose
product is 0, as `encoded_deserialize` installs it from 8 zero bytes, is merged
with the vector payload `[0, 4, 1]`: the merge decodes the product first and
returns for no amount of fuel, so no state with the overflow flag set is
reached. -/
theorem C25_product_zero_never_merges :
    encoded_deserialize ⟨3, 0, ClockType.CLOCK_ENCODED, ⟨2, false, [0, 0, 0]⟩, 8⟩ [0, 0] 8
      = ⟨3, 0, ClockType.CLOCK_ENCODED, ⟨0, false, [0, 0, 0]⟩, 8⟩ ∧
    3 * sizeof_int ≠ sizeof_ull ∧
    ∀ fuel : Nat,
      encoded_merge fuel ⟨3, 0, ClockType.CLOCK_ENCODED, ⟨0, false, [0, 0, 0]⟩, 8⟩
        [0, 4, 1] (3 * sizeof_int) = none := by
  refine ⟨by decide, by decide, ?_⟩
  intro fuel
  unfold encoded_merge
  simp only [sizeof_ull, sizeof_int, Nat.reduceMul, Nat.reduceEqDiff, if_false,
    Bool.false_eq_true, not_false_eq_true, if_true, decode_value_zero fuel 3 (by decide),
    Option.map_none']

/-- C25, amended: Encoded merge of a vector payload forces fallback. For an Encoded
timestamp with `n <= 25`, `n * sizeof(int) != 8`, a product of at least 1 while
in product mode, and a payload `o` of `n` integers: `encoded_merge` returns
(with 64 units of fuel) with the overflow flag set and a fallback vector of `n`
cells that is the pointwise maximum of `o` and the previous decoded vector. -/
theorem C25_vector_payload_forces_fallback (fuel : Nat) (ts : Timestamp EncodedClockData)
    (o : List Int) (hfuel : 64 ≤ fuel) (hn : ts.n ≤ MAX_PRIMES)
    (hlen : ts.data.fallback_v.length = ts.n)
    (hv : ts.data.overflow = false → 1 ≤ ts.data.value ∧ ts.data.value < 2 ^ 64)
    (hn8 : ts.n * sizeof_int ≠ sizeof_ull) :
    ∃ r, encoded_merge fuel ts o (ts.n * sizeof_int) = some r ∧
      r.data.overflow = true ∧ r.data.fallback_v.length = ts.n ∧
      ∀ k, k < ts.n → rd r.data.fallback_v k = max (rd (encoded_logical ts) k) (rd o k) := by
  have hn25 : ts.n ≤ 25 := hn
  cases ho : ts.data.overflow with
  | true =>
    refine ⟨{ ts with data := ⟨ts.data.value, true,
      (List.range ts.n).foldl (merge_max_step o) ts.data.fallback_v⟩ }, ?_, rfl, ?_, ?_⟩
    · unfold encoded_merge
      simp only [if_neg hn8, ho, not_true_eq_false, if_false]
    · simp only
      rw [(merge_max_loop _ _ _).1, hlen]
    · intro k hk
      simp only
      rw [(merge_max_loop _ _ _).2 k, if_pos ⟨hk, by omega⟩]
      unfold encoded_logical
      rw [ho, if_pos rfl]
  | false =>
    obtain ⟨h1, h64⟩ := hv ho
    have hds := decode_value_eq fuel ts.n ts.data.value (by omega) h64 hfuel hn25
    have hml : (memcpy_ints ts.data.fallback_v (exponent_array ts.n ts.data.value) ts.n).length
        = ts.n := by
      simp [memcpy_ints, hlen, exponent_array_length]
      omega
    refine ⟨{ ts with data := ⟨ts.data.value, true,
      (List.range ts.n).foldl (merge_max_step o)
        (memcpy_ints ts.data.fallback_v (exponent_array ts.n ts.data.value) ts.n)⟩ },
      ?_, rfl, ?_, ?_⟩
    · unfold encoded_merge
      simp only [if_neg hn8, ho, Bool.false_eq_true, not_false_eq_true, if_true, hds,
        Option.map_some']
    · simp only
      rw [(merge_max_loop _ _ _).1, hml]
    · intro k hk
      simp only
      rw [(merge_max_loop _ _ _).2 k, if_pos ⟨hk, by omega⟩,
        rd_memcpy_ints _ _ _ _ hk (by rw [exponent_array_length]; exact hn25),
        rd_exponent_array _ _ _ hn25, if_pos hk]
      unfold encoded_logical
      rw [ho]
      simp only [Bool.false_eq_true, if_false]
      rw [rd_exponent_vector _ _ _ hk]

/-- Witness of C25: `n = 3`, the product `12` and the payload `[0, 4, 1]`. -/
theorem C25_vector_payload_forces_fallback_witness :
    ∃ r, encoded_merge 64 ⟨3, 0, ClockType.CLOCK_ENCODED, ⟨12, false, [0, 0, 0]⟩, 8⟩
        [0, 4, 1] (3 * sizeof_int) = some r ∧
      r.data.overflow = true ∧ r.data.fallback_v.length = 3 ∧
      ∀ k, k < 3 →
        rd r.data.fallback_v k
          = max (rd (encoded_logical
              ⟨3, 0, ClockType.CLOCK_ENCODED, ⟨12, false, [0, 0, 0]⟩, 8⟩) k)
            (rd [0, 4, 1] k) :=
  C25_vector_payload_forces_fallback 64
    ⟨3, 0, ClockType.CLOCK_ENCODED, ⟨12, false, [0, 0, 0]⟩, 8⟩ [0, 4, 1]
    (by decide) (by decide) rfl (by decide) (by decide)

/-! ## The size-then-fill protocol -/

theorem differential_serialize_size (ts : Timestamp DifferentialClockData) (dest : Nat)
    (buffer : List Int) (bufsize : Nat) :
    (differential_serialize_for_dest ts dest buffer bufsize).2.2
      = 2 * sizeof_int * (differential_delta ts dest).length := by
  have hlen : (differential_delta ts dest).length
      = ((List.range ts.n).filter (differential_sends ts dest)).length := by
    simp [differential_delta, differential_sends_eq]
  have hcount := count_fold (differential_sends ts dest) (List.range ts.n) 0
  rw [Nat.zero_add, ← hlen] at hcount
  dsimp only [differential_serialize_for_dest]
  rw [hcount]
  split
  · simp only
    ring
  · simp only
    ring

theorem differential_serialize_small (ts : Timestamp DifferentialClockData) (dest : Nat)
    (buffer : List Int) (bufsize : Nat)
    (h : bufsize < 2 * sizeof_int * (differential_delta ts dest).length) :
    differential_serialize_for_dest ts dest buffer bufsize
      = (ts, buffer, 2 * sizeof_int * (differential_delta ts dest).length) := by
  have hlen : (differential_delta ts dest).length
      = ((List.range ts.n).filter (differential_sends ts dest)).length := by
    simp [differential_delta, differential_sends_eq]
  have hcount := count_fold (differential_sends ts dest) (List.range ts.n) 0
  rw [Nat.zero_add, ← hlen] at hcount
  dsimp only [differential_serialize_for_dest]
  rw [hcount, if_neg (by simp only [sizeof_int] at h ⊢; omega)]
  simp only [Prod.mk.injEq, true_and]
  ring

theorem differential_delta_pos (ts : Timestamp DifferentialClockData) (dest : Nat)
    (hpid : ts.pid < ts.n) : 0 < (differential_delta ts dest).length := by
  unfold differential_delta
  rw [List.length_map]
  apply List.length_pos_of_mem (a := ts.pid)
  rw [List.mem_filter]
  exact ⟨List.mem_range.mpr hpid, by simp⟩

theorem compressed_serialize_small (ts : Timestamp CompressedClockData) (dest : Nat)
    (buffer : List Int) (bufsize : Nat)
    (h : bufsize < (compressed_serialize_for_dest ts dest buffer bufsize).2.2) :
    compressed_serialize_for_dest ts dest buffer bufsize
      = (ts, buffer, (compressed_serialize_for_dest ts dest buffer bufsize).2.2) := by
  revert h
  dsimp only [compressed_serialize_for_dest]
  split
  · split
    · intro h
      simp only at h
      omega
    · intro _
      rfl
  · split
    · intro h
      simp only at h
      omega
    · intro _
      rfl

/-- A `serialize` function of the shape all five encodings share follows the
two-call protocol with the copied array as its payload. -/
theorem size_then_fill_memcpy {D : Type}
    (serialize : Timestamp D → List Int → Nat → List Int × Nat) (ts : Timestamp D)
    (src : List Int) (k : Nat) (hk : src.length = k)
    (hdef : ∀ (buffer : List Int) (bufsize : Nat), serialize ts buffer bufsize
      = (if bufsize ≥ k * sizeof_int then memcpy_ints buffer src k else buffer,
          k * sizeof_int)) :
    size_then_fill serialize ts src := by
  subst hk
  refine ⟨?_, ?_, ?_, ?_⟩
  · intro buffer bufsize
    rw [hdef]
  · intro buffer bufsize hlt
    rw [hdef, if_neg (by omega)]
  · intro buffer bufsize hle _
    rw [hdef, if_pos hle, memcpy_ints_all _ _ _ rfl]
  · intro buffer _
    rw [hdef [] 0, hdef, if_pos (le_refl _), memcpy_ints_all _ _ _ rfl]

/-- A `serialize_for_dest` function that sizes, refuses a small buffer and
fills a sufficient one follows the two-call protocol, when its payload is not
empty. -/
theorem size_then_fill_dest_of {D : Type}
    (ser : Timestamp D → Nat → List Int → Nat → Timestamp D × List Int × Nat)
    (ts : Timestamp D) (dest : Nat) (payload : List Int) (sent : Timestamp D)
    (hpos : 0 < payload.length)
    (hsmall : ∀ (buffer : List Int) (bufsize : Nat), bufsize < payload.length * sizeof_int →
      ser ts dest buffer bufsize = (ts, buffer, payload.length * sizeof_int))
    (hfill : ∀ (buffer : List Int) (bufsize : Nat), payload.length * sizeof_int ≤ bufsize →
      bufsize ≤ sizeof_int * buffer.length →
      ser ts dest buffer bufsize
        = (sent, payload ++ buffer.drop payload.length, payload.length * sizeof_int))
    (hsize : ∀ (buffer : List Int) (bufsize : Nat),
      (ser ts dest buffer bufsize).2.2 = payload.length * sizeof_int) :
    size_then_fill_dest ser ts dest payload sent := by
  refine ⟨hsize, hsmall, hfill, ?_⟩
  intro buffer hbuf
  rw [hsmall [] 0 (by simp only [sizeof_int]; omega)] at hbuf ⊢
  exact hfill buffer _ (le_refl _) hbuf

/-- The destination-aware Differential serializer follows the two-call
protocol: its payload is the pairs of the delta and a send sets `LS[dest]`. -/
theorem differential_size_then_fill (ts : Timestamp DifferentialClockData) (dest : Nat)
    (hpid : ts.pid < ts.n) :
    size_then_fill_dest differential_serialize_for_dest ts dest
      (flat_pairs (differential_delta ts dest))
      { ts with data :=
        ⟨ts.data.v, ts.data.LS.set dest (rd ts.data.v ts.pid), ts.data.LU⟩ } := by
  have hpos := differential_delta_pos ts dest hpid
  have hlen : (flat_pairs (differential_delta ts dest)).length * sizeof_int
      = 2 * sizeof_int * (differential_delta ts dest).length := by
    rw [flat_pairs_length]
    ring
  apply size_then_fill_dest_of
  · rw [flat_pairs_length]
    omega
  · intro buffer bufsize hlt
    rw [hlen] at hlt ⊢
    exact differential_serialize_small ts dest buffer bufsize hlt
  · intro buffer bufsize hle hbuf
    rw [hlen] at hle ⊢
    rw [differential_serialize_result ts dest buffer bufsize hle hbuf, flat_pairs_length]
  · intro buffer bufsize
    rw [hlen]
    exact differential_serialize_size ts dest buffer bufsize

/-- The destination-aware Compressed serializer follows the two-call protocol:
its payload is the compressed form or the full vector and a send sets
`tau[dest]`. -/
theorem compressed_size_then_fill (ts : Timestamp CompressedClockData) (dest : Nat)
    (hn : 0 < ts.data.n) (hvt : ts.data.vt.length = ts.data.n)
    (hrow : (tau_row ts.data dest).length = ts.data.n) :
    size_then_fill_dest compressed_serialize_for_dest ts dest
      (if 0 < (compressed_delta ts.data dest).length ∧
          1 + 2 * (compressed_delta ts.data dest).length ≤ ts.data.n
        then ((compressed_delta ts.data dest).length : Int)
          :: flat_pairs (compressed_delta ts.data dest)
        else ts.data.vt)
      { ts with data := ⟨ts.data.vt, ts.data.tau.set dest ts.data.vt, ts.data.n⟩ } := by
  have hlen : (if 0 < (compressed_delta ts.data dest).length ∧
          1 + 2 * (compressed_delta ts.data dest).length ≤ ts.data.n
        then ((compressed_delta ts.data dest).length : Int)
          :: flat_pairs (compressed_delta ts.data dest)
        else ts.data.vt).length
      = if 0 < (compressed_delta ts.data dest).length ∧
            1 + 2 * (compressed_delta ts.data dest).length ≤ ts.data.n
        then 1 + 2 * (compressed_delta ts.data dest).length
        else ts.data.n := by
    split
    · rw [List.length_cons, flat_pairs_length]
      omega
    · exact hvt
  have hsz : ∀ (buffer : List Int) (bufsize : Nat),
      (compressed_serialize_for_dest ts dest buffer bufsize).2.2
        = (if 0 < (compressed_delta ts.data dest).length ∧
              1 + 2 * (compressed_delta ts.data dest).length ≤ ts.data.n
            then ((compressed_delta ts.data dest).length : Int)
              :: flat_pairs (compressed_delta ts.data dest)
            else ts.data.vt).length * sizeof_int := by
    intro buffer bufsize
    rw [compressed_serialize_size, hlen]
    split <;> rfl
  apply size_then_fill_dest_of
  · rw [hlen]
    split <;> omega
  · intro buffer bufsize hlt
    rw [← hsz buffer bufsize] at hlt ⊢
    exact compressed_serialize_small ts dest buffer bufsize hlt
  · intro buffer bufsize hle hbuf
    have hsuff : (if 0 < (compressed_delta ts.data dest).length ∧
          1 + 2 * (compressed_delta ts.data dest).length ≤ ts.data.n
        then (1 + 2 * (compressed_delta ts.data dest).length) * sizeof_int
        else ts.data.n * sizeof_int) ≤ bufsize := by
      rw [hlen] at hle
      split at hle <;> rename_i hc
      · rw [if_pos hc]; exact hle
      · rw [if_neg hc]; exact hle
    rw [compressed_serialize_result ts dest buffer bufsize hvt hrow hsuff hbuf, hlen]
    by_cases hc : 0 < (compressed_delta ts.data dest).length ∧
        1 + 2 * (compressed_delta ts.data dest).length ≤ ts.data.n
    · simp only [if_pos hc]
    · simp only [if_neg hc]
  · exact hsz

/-- C26: size-then-fill protocol. The `serialize` function of each of the five
encodings, and the `serialize_for_dest` functions of Differential and
Compressed (the other three encodings have none, `ts_serialize_for_dest` calls
their `serialize`), return the exact byte size of their payload whatever the
buffer and `bufsize` are; with a `bufsize` smaller than that size nothing is
written and the timestamp is unchanged (`LS[dest]` and `tau[dest]` included);
with a sufficient `bufsize` exactly the payload is written, the rest of the
buffer is left, and `LS[dest]` or `tau[dest]` is updated; so after a sizing call
with `bufsize` 0 a call with a buffer of the reported size returns the same
size and writes exactly that many bytes. The payloads are: the `n` entries of
the vector for Standard and for the plain serializers of Differential and
Compressed; the `(pid, counter)` words of the entries for Sparse; the two words
of the product, or the `n` entries of the fallback vector, for Encoded; the
pairs of the delta for the Differential `serialize_for_dest`; the count and the
pairs of the delta, or the `n` entries of `vt`, for the Compressed one. The
timestamps are those of the data model: vectors of `n` cells, `pid < n`,
`n >= 1`. -/
theorem C26_size_then_fill :
    (∀ ts : Timestamp StandardClockData, ts.data.v.length = ts.n →
      size_then_fill standard_serialize ts ts.data.v) ∧
    (∀ ts : Timestamp SparseClockData,
      size_then_fill sparse_serialize ts (sparse_words ts.data.entries)) ∧
    (∀ ts : Timestamp DifferentialClockData, ts.data.v.length = ts.n →
      size_then_fill differential_serialize ts ts.data.v) ∧
    (∀ ts : Timestamp CompressedClockData, ts.data.vt.length = ts.n →
      size_then_fill compressed_serialize ts ts.data.vt) ∧
    (∀ ts : Timestamp EncodedClockData, ts.data.fallback_v.length = ts.n →
      size_then_fill encoded_serialize ts
        (if ts.data.overflow then ts.data.fallback_v else u64_words ts.data.value)) ∧
    (∀ (ts : Timestamp DifferentialClockData) (dest : Nat), ts.pid < ts.n →
      size_then_fill_dest differential_serialize_for_dest ts dest
        (flat_pairs (differential_delta ts dest))
        { ts with data :=
          ⟨ts.data.v, ts.data.LS.set dest (rd ts.data.v ts.pid), ts.data.LU⟩ }) ∧
    (∀ (ts : Timestamp CompressedClockData) (dest : Nat), 0 < ts.data.n →
      ts.data.vt.length = ts.data.n → (tau_row ts.data dest).length = ts.data.n →
      size_then_fill_dest compressed_serialize_for_dest ts dest
        (if 0 < (compressed_delta ts.data dest).length ∧
            1 + 2 * (compressed_delta ts.data dest).length ≤ ts.data.n
          then ((compressed_delta ts.data dest).length : Int)
            :: flat_pairs (compressed_delta ts.data dest)
          else ts.data.vt)
        { ts with data := ⟨ts.data.vt, ts.data.tau.set dest ts.data.vt, ts.data.n⟩ }) := by
  refine ⟨?_, ?_, ?_, ?_, ?_, ?_, ?_⟩
  · intro ts hv
    exact size_then_fill_memcpy standard_serialize ts ts.data.v ts.n hv (fun _ _ => rfl)
  · intro ts
    refine size_then_fill_memcpy sparse_serialize ts (sparse_words ts.data.entries)
      (2 * ts.data.count) (sparse_words_length _) ?_
    intro buffer bufsize
    unfold sparse_serialize
    have h : ts.data.count * (2 * sizeof_int) = 2 * ts.data.count * sizeof_int := by ring
    simp only [h]
  · intro ts hv
    exact size_then_fill_memcpy differential_serialize ts ts.data.v ts.n hv (fun _ _ => rfl)
  · intro ts hv
    exact size_then_fill_memcpy compressed_serialize ts ts.data.vt ts.n hv (fun _ _ => rfl)
  · intro ts hv
    cases ho : ts.data.overflow with
    | true =>
      rw [if_pos rfl]
      refine size_then_fill_memcpy encoded_serialize ts ts.data.fallback_v ts.n hv ?_
      intro buffer bufsize
      unfold encoded_serialize
      rw [ho]
      rfl
    | false =>
      rw [if_neg (by simp)]
      refine size_then_fill_memcpy encoded_serialize ts (u64_words ts.data.value) 2 rfl ?_
      intro buffer bufsize
      unfold encoded_serialize
      rw [ho]
      rfl
  · intro ts dest hpid
    exact differential_size_then_fill ts dest hpid
  · intro ts dest hn hvt hrow
    exact compressed_size_then_fill ts dest hn hvt hrow

/-- Witness of C26: one timestamp of `n = 3` per encoding, destination 1. The
Differential timestamp sends the pairs `(0, 2), (1, 1)` (`LS[1] = 0 < LU`), the
Compressed one its full vector (two entries differ, `1 + 2 * 2 > 3`). -/
theorem C26_size_then_fill_witness :
    size_then_fill standard_serialize ⟨3, 0, ClockType.CLOCK_STANDARD, ⟨[2, 1, 0]⟩, 12⟩
      [2, 1, 0] ∧
    size_then_fill sparse_serialize
      ⟨3, 0, ClockType.CLOCK_SPARSE, ⟨[⟨0, 2⟩, ⟨1, 1⟩], 3⟩, 0⟩ [0, 2, 1, 1] ∧
    size_then_fill differential_serialize
      ⟨3, 0, ClockType.CLOCK_DIFFERENTIAL, ⟨[2, 1, 0], [0, 0, 0], [2, 1, 0]⟩, 0⟩ [2, 1, 0] ∧
    size_then_fill compressed_serialize
      ⟨3, 0, ClockType.CLOCK_COMPRESSED,
        ⟨[2, 1, 0], [[0, 0, 0], [0, 0, 0], [0, 0, 0]], 3⟩, 0⟩ [2, 1, 0] ∧
    size_then_fill encoded_serialize
      ⟨3, 0, ClockType.CLOCK_ENCODED, ⟨12, false, [0, 0, 0]⟩, 8⟩ [12, 0] ∧
    size_then_fill_dest differential_serialize_for_dest
      ⟨3, 0, ClockType.CLOCK_DIFFERENTIAL, ⟨[2, 1, 0], [0, 0, 0], [2, 1, 0]⟩, 0⟩ 1
      [0, 2, 1, 1]
      ⟨3, 0, ClockType.CLOCK_DIFFERENTIAL, ⟨[2, 1, 0], [0, 2, 0], [2, 1, 0]⟩, 0⟩ ∧
    size_then_fill_dest compressed_serialize_for_dest
      ⟨3, 0, ClockType.CLOCK_COMPRESSED,
        ⟨[2, 1, 0], [[0, 0, 0], [0, 0, 0], [0, 0, 0]], 3⟩, 0⟩ 1
      [2, 1, 0]
      ⟨3, 0, ClockType.CLOCK_COMPRESSED,
        ⟨[2, 1, 0], [[0, 0, 0], [2, 1, 0], [0, 0, 0]], 3⟩, 0⟩ ∧
    differential_serialize_for_dest
        ⟨3, 0, ClockType.CLOCK_DIFFERENTIAL, ⟨[2, 1, 0], [0, 0, 0], [2, 1, 0]⟩, 0⟩ 1
        [9, 9, 9, 9, 9] 20
      = (⟨3, 0, ClockType.CLOCK_DIFFERENTIAL, ⟨[2, 1, 0], [0, 2, 0], [2, 1, 0]⟩, 0⟩,
          [0, 2, 1, 1, 9], 16) ∧
    differential_serialize_for_dest
        ⟨3, 0, ClockType.CLOCK_DIFFERENTIAL, ⟨[2, 1, 0], [0, 0, 0], [2, 1, 0]⟩, 0⟩ 1
        [9, 9, 9, 9, 9] 12
      = (⟨3, 0, ClockType.CLOCK_DIFFERENTIAL, ⟨[2, 1, 0], [0, 0, 0], [2, 1, 0]⟩, 0⟩,
          [9, 9, 9, 9, 9], 16) :=
  ⟨C26_size_then_fill.1 ⟨3, 0, ClockType.CLOCK_STANDARD, ⟨[2, 1, 0]⟩, 12⟩ rfl,
    C26_size_then_fill.2.1 ⟨3, 0, ClockType.CLOCK_SPARSE, ⟨[⟨0, 2⟩, ⟨1, 1⟩], 3⟩, 0⟩,
    C26_size_then_fill.2.2.1
      ⟨3, 0, ClockType.CLOCK_DIFFERENTIAL, ⟨[2, 1, 0], [0, 0, 0], [2, 1, 0]⟩, 0⟩ rfl,
    C26_size_then_fill.2.2.2.1
      ⟨3, 0, ClockType.CLOCK_COMPRESSED,
        ⟨[2, 1, 0], [[0, 0, 0], [0, 0, 0], [0, 0, 0]], 3⟩, 0⟩ rfl,
    C26_size_then_fill.2.2.2.2.1
      ⟨3, 0, ClockType.CLOCK_ENCODED, ⟨12, false, [0, 0, 0]⟩, 8⟩ rfl,
    C26_size_then_fill.2.2.2.2.2.1
      ⟨3, 0, ClockType.CLOCK_DIFFERENTIAL, ⟨[2, 1, 0], [0, 0, 0], [2, 1, 0]⟩, 0⟩ 1
      (by decide),
    C26_size_then_fill.2.2.2.2.2.2
      ⟨3, 0, ClockType.CLOCK_COMPRESSED,
        ⟨[2, 1, 0], [[0, 0, 0], [0, 0, 0], [0, 0, 0]], 3⟩, 0⟩ 1
      (by decide) rfl rfl,
    (C26_size_then_fill.2.2.2.2.2.1
      ⟨3, 0, ClockType.CLOCK_DIFFERENTIAL, ⟨[2, 1, 0], [0, 0, 0], [2, 1, 0]⟩, 0⟩ 1
      (by decide)).2.2.1 [9, 9, 9, 9, 9] 20 (by decide) (by decide),
    (C26_size_then_fill.2.2.2.2.2.1
      ⟨3, 0, ClockType.CLOCK_DIFFERENTIAL, ⟨[2, 1, 0], [0, 0, 0], [2, 1, 0]⟩, 0⟩ 1
      (by decide)).2.1 [9, 9, 9, 9, 9] 12 (by decide)⟩

/-! ## Pairs with an index outside `[0, n)` -/

theorem foldl_filter_skip {σ α : Type} (f : σ → α → σ) (P : α → Bool) (l : List α) (s : σ)
    (h : ∀ s a, P a = false → f s a = s) :
    l.foldl f s = (l.filter P).foldl f s := by
  induction l generalizing s with
  | nil => rfl
  | cons a l ih =>
    cases hP : P a with
    | true => rw [List.filter_cons_of_pos hP, List.foldl_cons, List.foldl_cons, ih]
    | false =>
      rw [List.filter_cons_of_neg (by simp [hP]), List.foldl_cons, h s a hP, ih]

theorem differential_merge_pair_step_out (n pid : Nat) (d : DifferentialClockData)
    (k val : Int) (h : k < 0 ∨ (n : Int) ≤ k) :
    differential_merge_pair_step n pid d k val = d := by
  unfold differential_merge_pair_step
  rw [if_neg (by omega)]

theorem differential_deserialize_pair_step_out (n pid : Nat) (d : DifferentialClockData)
    (k val : Int) (h : k < 0 ∨ (n : Int) ≤ k) :
    differential_deserialize_pair_step n pid d k val = d := by
  unfold differential_deserialize_pair_step
  rw [if_neg (by omega)]

theorem compressed_merge_pair_step_out (n : Nat) (vt : List Int) (k val : Int)
    (h : k < 0 ∨ (n : Int) ≤ k) : compressed_merge_pair_step n vt k val = vt := by
  unfold compressed_merge_pair_step
  rw [if_neg (by omega)]

/-- The two pair steps of the Differential encoding are the same function. -/
theorem differential_deserialize_pair_step_eq (n pid : Nat) (d : DifferentialClockData)
    (k val : Int) :
    differential_deserialize_pair_step n pid d k val
      = differential_merge_pair_step n pid d k val := by
  unfold differential_deserialize_pair_step differential_merge_pair_step
  by_cases h1 : k ≥ 0 ∧ k < (n : Int)
  · by_cases h2 : val > rd d.v k.toNat
    · rw [if_pos h1, if_pos h2, if_pos ⟨h1.1, h1.2, h2⟩]
    · rw [if_pos h1, if_neg h2, if_neg (fun h => h2 h.2.2)]
  · rw [if_neg h1, if_neg (fun h => h1 ⟨h.1, h.2.1⟩)]

theorem not_in_range (n : Nat) (p : Int × Int)
    (h : decide (0 ≤ p.1 ∧ p.1 < (n : Int)) = false) : p.1 < 0 ∨ (n : Int) ≤ p.1 := by
  simp only [decide_eq_false_iff_not, not_and, not_lt] at h
  by_cases h0 : 0 ≤ p.1
  · exact Or.inr (h h0)
  · exact Or.inl (by omega)

/-- The pair loop of `differential_merge` runs over the pairs in range only. -/
theorem differential_merge_loop_in_range (dst : Timestamp DifferentialClockData)
    (p : List Int) (size : Nat) (hsz : size ≠ dst.n * sizeof_int) :
    differential_merge_loop dst p size
      = (in_range dst.n (differential_pairs p size)).foldl
          (fun d q => differential_merge_pair_step dst.n dst.pid d q.1 q.2) dst.data := by
  unfold differential_merge_loop
  rw [if_neg hsz, pair_loop_eq0 (differential_merge_pair_step dst.n dst.pid)]
  unfold in_range differential_pairs
  exact foldl_filter_skip _ _ _ _
    (fun d q hq => differential_merge_pair_step_out _ _ _ _ _ (not_in_range _ q hq))

/-- The pair loop of `differential_deserialize` runs over the pairs in range only. -/
theorem differential_deserialize_in_range (ts : Timestamp DifferentialClockData)
    (p : List Int) (size : Nat) (hsz : size ≠ ts.n * sizeof_int) :
    differential_deserialize ts p size
      = { ts with
          data := (in_range ts.n (differential_pairs p size)).foldl
            (fun d q => differential_merge_pair_step ts.n ts.pid d q.1 q.2) ts.data } := by
  unfold differential_deserialize
  rw [if_neg hsz]
  simp only [differential_deserialize_pair_step_eq]
  rw [pair_loop_eq0 (differential_merge_pair_step ts.n ts.pid)]
  unfold in_range differential_pairs
  rw [foldl_filter_skip _ _ _ _
    (fun d q hq => differential_merge_pair_step_out _ _ _ _ _ (not_in_range _ q hq))]

/-- The pair loop of `compressed_merge` runs over the pairs in range only. -/
theorem compressed_merge_loop_in_range (dst : Timestamp CompressedClockData)
    (p : List Int) (size : Nat) (hsz : size ≠ dst.n * sizeof_int) :
    compressed_merge_loop dst p size
      = (in_range dst.n (compressed_pairs p size)).foldl
          (fun vt q => compressed_merge_pair_step dst.n vt q.1 q.2) dst.data.vt := by
  unfold compressed_merge_loop compressed_pairs
  rw [if_neg hsz]
  by_cases h1 : size ≥ sizeof_int
  · by_cases h2 : size ≥ int_bytes (1 + 2 * rd p 0)
    · rw [if_pos h1, if_pos h2, if_pos ⟨h1, h2⟩,
        pair_loop_eq (compressed_merge_pair_step dst.n)]
      unfold in_range
      exact foldl_filter_skip _ _ _ _
        (fun d q hq => compressed_merge_pair_step_out _ _ _ _ (not_in_range _ q hq))
    · rw [if_pos h1, if_neg h2, if_neg (fun h => h2 h.2)]
      rfl
  · rw [if_neg h1, if_neg (fun h => h1 h.1)]
    rfl

theorem compressed_deserialize_eq (ts : Timestamp CompressedClockData) (p : List Int)
    (size : Nat) :
    compressed_deserialize ts p size
      = { ts with data := ⟨compressed_merge_loop ts p size, ts.data.tau, ts.data.n⟩ } := rfl

theorem differential_merge_loop_LS (dst : Timestamp DifferentialClockData) (p : List Int)
    (size : Nat) : (differential_merge_loop dst p size).LS = dst.data.LS := by
  unfold differential_merge_loop
  split
  · apply foldl_preserves (fun d : DifferentialClockData => d.LS = dst.data.LS) _ _ _ _ rfl
    intro d i hd
    unfold differential_merge_full_step
    split
    · exact hd
    · exact hd
  · apply foldl_preserves (fun d : DifferentialClockData => d.LS = dst.data.LS) _ _ _ _ rfl
    intro d i hd
    unfold differential_merge_pair_step
    split
    · exact hd
    · exact hd

theorem differential_deserialize_eq (ts : Timestamp DifferentialClockData) (p : List Int)
    (size : Nat) :
    differential_deserialize ts p size
      = { ts with data := differential_merge_loop ts p size } := by
  unfold differential_deserialize differential_merge_loop
  simp only [differential_deserialize_pair_step_eq]
  split <;> rfl

/-- C27, counterexample. A pair list as long as a full vector is read as a
vector, its out-of-range pair included. Differential, `n = 2`, `pid = 0`, all
zero: the single pair `(7, 9)` takes 8 bytes, and merge leaves `v = [8, 9]`
where the payload without the pair leaves `[1, 0]`; deserialize leaves
`[7, 9]` against `[0, 0]`. Compressed, `n = 3`, `pid = 0`, all zero: the count 1
and the pair `(7, 9)` take 12 bytes, and merge leaves `vt = [2, 7, 9]` where the
count 0 alone leaves `[1, 0, 0]`; deserialize leaves `[1, 7, 9]` against
`[0, 0, 0]`. -/
theorem C27_pair_list_of_vector_length :
    in_range 2 (differential_pairs [7, 9] 8) = [] ∧
    (differential_merge (differential_create 2 0 ClockType.CLOCK_DIFFERENTIAL)
      [7, 9] 8).data.v = [8, 9] ∧
    (differential_merge (differential_create 2 0 ClockType.CLOCK_DIFFERENTIAL)
      [] 0).data.v = [1, 0] ∧
    (differential_deserialize (differential_create 2 0 ClockType.CLOCK_DIFFERENTIAL)
      [7, 9] 8).data.v = [7, 9] ∧
    (differential_deserialize (differential_create 2 0 ClockType.CLOCK_DIFFERENTIAL)
      [] 0).data.v = [0, 0] ∧
    in_range 3 (compressed_pairs [1, 7, 9] 12) = [] ∧
    in_range 3 (compressed_pairs [0] 4) = [] ∧
    (compressed_merge (compressed_create 3 0 ClockType.CLOCK_COMPRESSED)
      [1, 7, 9] 12).data.vt = [2, 7, 9] ∧
    (compressed_merge (compressed_create 3 0 ClockType.CLOCK_COMPRESSED)
      [0] 4).data.vt = [1, 0, 0] ∧
    (compressed_deserialize (compressed_create 3 0 ClockType.CLOCK_COMPRESSED)
      [1, 7, 9] 12).data.vt = [1, 7, 9] ∧
    (compressed_deserialize (compressed_create 3 0 ClockType.CLOCK_COMPRESSED)
      [0] 4).data.vt = [0, 0, 0] :=
  ⟨by decide, by decide, by decide, by decide, by decide, by decide, by decide, by decide,
    by decide, by decide, by decide⟩

/-- C27, amended: out-of-range indices are ignored by the Differential and Compressed
pair formats. A pair whose index lies outside `[0, n)` leaves the whole state
as it is in the pair loops of merge and deserialize; `LS` and `tau` are never
written by merge or deserialize; and for payloads read as pair lists (their
size is not `n * sizeof(int)`) the result of merge and of deserialize is the
same for any two payloads with the same pairs in range. -/
theorem C27_out_of_range_pairs_ignored (n : Nat) :
    (∀ (pid : Nat) (d : DifferentialClockData) (k val : Int), (k < 0 ∨ (n : Int) ≤ k) →
      differential_merge_pair_step n pid d k val = d ∧
        differential_deserialize_pair_step n pid d k val = d) ∧
    (∀ (vt : List Int) (k val : Int), (k < 0 ∨ (n : Int) ≤ k) →
      compressed_merge_pair_step n vt k val = vt) ∧
    (∀ (dst : Timestamp DifferentialClockData) (p : List Int) (size : Nat),
      (differential_merge dst p size).data.LS = dst.data.LS ∧
        (differential_deserialize dst p size).data.LS = dst.data.LS) ∧
    (∀ (dst : Timestamp CompressedClockData) (p : List Int) (size : Nat),
      (compressed_merge dst p size).data.tau = dst.data.tau ∧
        (compressed_deserialize dst p size).data.tau = dst.data.tau) ∧
    (∀ (dst : Timestamp DifferentialClockData) (p q : List Int) (sp sq : Nat),
      dst.n = n → sp ≠ n * sizeof_int → sq ≠ n * sizeof_int →
      in_range n (differential_pairs p sp) = in_range n (differential_pairs q sq) →
      differential_merge dst p sp = differential_merge dst q sq ∧
        differential_deserialize dst p sp = differential_deserialize dst q sq) ∧
    (∀ (dst : Timestamp CompressedClockData) (p q : List Int) (sp sq : Nat),
      dst.n = n → sp ≠ n * sizeof_int → sq ≠ n * sizeof_int →
      in_range n (compressed_pairs p sp) = in_range n (compressed_pairs q sq) →
      compressed_merge dst p sp = compressed_merge dst q sq ∧
        compressed_deserialize dst p sp = compressed_deserialize dst q sq) := by
  refine ⟨?_, ?_, ?_, ?_, ?_, ?_⟩
  · intro pid d k val h
    exact ⟨differential_merge_pair_step_out n pid d k val h,
      differential_deserialize_pair_step_out n pid d k val h⟩
  · intro vt k val h
    exact compressed_merge_pair_step_out n vt k val h
  · intro dst p size
    refine ⟨?_, ?_⟩
    · rw [differential_merge_eq]
      exact differential_merge_loop_LS dst p size
    · rw [differential_deserialize_eq]
      exact differential_merge_loop_LS dst p size
  · intro dst p size
    exact ⟨rfl, rfl⟩
  · intro dst p q sp sq hn hsp hsq hpairs
    subst hn
    have hloop : differential_merge_loop dst p sp = differential_merge_loop dst q sq := by
      rw [differential_merge_loop_in_range dst p sp hsp,
        differential_merge_loop_in_range dst q sq hsq, hpairs]
    refine ⟨?_, ?_⟩
    · rw [differential_merge_eq, differential_merge_eq, hloop]
    · rw [differential_deserialize_eq, differential_deserialize_eq, hloop]
  · intro dst p q sp sq hn hsp hsq hpairs
    subst hn
    have hloop : compressed_merge_loop dst p sp = compressed_merge_loop dst q sq := by
      rw [compressed_merge_loop_in_range dst p sp hsp,
        compressed_merge_loop_in_range dst q sq hsq, hpairs]
    refine ⟨?_, ?_⟩
    · rw [compressed_merge_eq, compressed_merge_eq, hloop]
    · rw [compressed_deserialize_eq, compressed_deserialize_eq, hloop]

/-- Witness of C27: `n = 3`; the pairs `(7, 9)` and `(-1, 4)` are out of range,
and the payloads with and without them give the same result. -/
theorem C27_out_of_range_pairs_ignored_witness :
    (differential_merge_pair_step 3 0 ⟨[2, 1, 0], [0, 0, 0], [2, 1, 0]⟩ 7 9
        = ⟨[2, 1, 0], [0, 0, 0], [2, 1, 0]⟩ ∧
      differential_deserialize_pair_step 3 0 ⟨[2, 1, 0], [0, 0, 0], [2, 1, 0]⟩ 7 9
        = ⟨[2, 1, 0], [0, 0, 0], [2, 1, 0]⟩) ∧
    compressed_merge_pair_step 3 [2, 1, 0] (-1) 4 = [2, 1, 0] ∧
    (differential_merge
          ⟨3, 0, ClockType.CLOCK_DIFFERENTIAL, ⟨[2, 1, 0], [0, 0, 0], [2, 1, 0]⟩, 0⟩
          [1, 5, 7, 9] 16
        = differential_merge
          ⟨3, 0, ClockType.CLOCK_DIFFERENTIAL, ⟨[2, 1, 0], [0, 0, 0], [2, 1, 0]⟩, 0⟩
          [1, 5] 8 ∧
      differential_deserialize
          ⟨3, 0, ClockType.CLOCK_DIFFERENTIAL, ⟨[2, 1, 0], [0, 0, 0], [2, 1, 0]⟩, 0⟩
          [1, 5, 7, 9] 16
        = differential_deserialize
          ⟨3, 0, ClockType.CLOCK_DIFFERENTIAL, ⟨[2, 1, 0], [0, 0, 0], [2, 1, 0]⟩, 0⟩
          [1, 5] 8) ∧
    (compressed_merge
          ⟨3, 0, ClockType.CLOCK_COMPRESSED,
            ⟨[2, 1, 0], [[0, 0, 0], [0, 0, 0], [0, 0, 0]], 3⟩, 0⟩
          [2, -1, 4, 1, 5] 20
        = compressed_merge
          ⟨3, 0, ClockType.CLOCK_COMPRESSED,
            ⟨[2, 1, 0], [[0, 0, 0], [0, 0, 0], [0, 0, 0]], 3⟩, 0⟩
          [1, 1, 5, 0, 0] 20 ∧
      compressed_deserialize
          ⟨3, 0, ClockType.CLOCK_COMPRESSED,
            ⟨[2, 1, 0], [[0, 0, 0], [0, 0, 0], [0, 0, 0]], 3⟩, 0⟩
          [2, -1, 4, 1, 5] 20
        = compressed_deserialize
          ⟨3, 0, ClockType.CLOCK_COMPRESSED,
            ⟨[2, 1, 0], [[0, 0, 0], [0, 0, 0], [0, 0, 0]], 3⟩, 0⟩
          [1, 1, 5, 0, 0] 20) :=
  ⟨(C27_out_of_range_pairs_ignored 3).1 0 ⟨[2, 1, 0], [0, 0, 0], [2, 1, 0]⟩ 7 9 (by decide),
    (C27_out_of_range_pairs_ignored 3).2.1 [2, 1, 0] (-1) 4 (by decide),
    (C27_out_of_range_pairs_ignored 3).2.2.2.2.1
      ⟨3, 0, ClockType.CLOCK_DIFFERENTIAL, ⟨[2, 1, 0], [0, 0, 0], [2, 1, 0]⟩, 0⟩
      [1, 5, 7, 9] [1, 5] 16 8 rfl (by decide) (by decide) (by decide),
    (C27_out_of_range_pairs_ignored 3).2.2.2.2.2
      ⟨3, 0, ClockType.CLOCK_COMPRESSED,
        ⟨[2, 1, 0], [[0, 0, 0], [0, 0, 0], [0, 0, 0]], 3⟩, 0⟩
      [2, -1, 4, 1, 5] [1, 1, 5, 0, 0] 20 20 rfl (by decide) (by decide) (by decide)⟩

/-! ## Sparse merge and pids outside `[0, n)` -/

theorem carried_in_range (n : Nat) (ps : List (Int × Int)) (k : Nat) (hk : k < n) :
    carried (in_range n ps) (k : Int) = carried ps (k : Int) := by
  unfold carried in_range
  rw [List.filter_filter]
  congr 1
  apply List.filter_congr
  intro p _
  by_cases hp : p.1 = (k : Int)
  · simp [hp, hk]
  · simp [hp]

/-- C28, counterexample. `sparse_merge` stores a pair whose pid is outside
`[0, n)`: merging the pair `(7, 5)` into a fresh timestamp of `n = 3` gives the
entry list `[(7, 5)]`, count 1 and 8 serialized bytes, where merging the empty
payload gives the empty list, count 0 and no bytes. -/
theorem C28_out_of_range_pid_is_stored :
    (sparse_merge (sparse_create 3 0 ClockType.CLOCK_SPARSE) [7, 5] 8).data.entries
      = [⟨7, 5⟩] ∧
    (sparse_merge (sparse_create 3 0 ClockType.CLOCK_SPARSE) [] 0).data.entries = [] ∧
    (sparse_merge (sparse_create 3 0 ClockType.CLOCK_SPARSE) [7, 5] 8).data.count = 1 ∧
    (sparse_merge (sparse_create 3 0 ClockType.CLOCK_SPARSE) [] 0).data.count = 0 ∧
    sparse_serialize (sparse_merge (sparse_create 3 0 ClockType.CLOCK_SPARSE) [7, 5] 8)
      [0, 0] 8 = ([7, 5], 8) ∧
    sparse_serialize (sparse_merge (sparse_create 3 0 ClockType.CLOCK_SPARSE) [] 0)
      [0, 0] 8 = ([0, 0], 0) :=
  ⟨by decide, by decide, by decide, by decide, by decide, by decide⟩

/-- C28, amended: `sparse_merge` stores a pair whose pid lies outside `[0, n)`
like any other pair (a pair whose pid is not in the entry list is appended),
but the logical vector does not depend on such pairs: the values looked up for
the pids in `[0, n)` after the merge are those after merging the payload
without the out-of-range pairs. -/
theorem C28_sparse_logical_ignores_out_of_range (s : Timestamp SparseClockData)
    (p : List Int) (size : Nat) :
    sparse_logical s.n (sparse_merge s p size).data.entries
        = sparse_logical s.n (sparse_merge s
            (flat_pairs (in_range s.n (payload_pairs p 0 (size / (2 * sizeof_int)))))
            ((in_range s.n (payload_pairs p 0 (size / (2 * sizeof_int)))).length
              * (2 * sizeof_int))).data.entries ∧
    ∀ (pid counter : Int), sparse_has pid s.data.entries = false →
      (sparse_merge_entry s.data pid counter).entries = s.data.entries ++ [⟨pid, counter⟩] := by
  refine ⟨?_, ?_⟩
  · rw [eq_iff_rd (n := s.n) (by simp [sparse_logical]) (by simp [sparse_logical])]
    intro k hk
    rw [rd_sparse_logical _ _ _ hk, rd_sparse_logical _ _ _ hk, sparse_merge_eq_fold,
      sparse_merge_eq_fold]
    simp only
    rw [Nat.mul_div_cancel _ (by decide : 0 < 2 * sizeof_int)]
    have hflat := payload_pairs_flat
      (in_range s.n (payload_pairs p 0 (size / (2 * sizeof_int)))) []
    rw [List.append_nil] at hflat
    rw [hflat, (sparse_merge_fold_spec _ s.data (k : Int)).2,
      (sparse_merge_fold_spec _ s.data (k : Int)).2, carried_in_range s.n _ k hk]
  · intro pid counter hno
    unfold sparse_merge_entry
    cases hs : sparse_merge_scan pid counter s.data.entries with
    | some es2 =>
      have := (sparse_merge_scan_some pid counter s.data.entries es2 hs 0).1
      rw [hno] at this
      exact Bool.noConfusion this
    | none => rfl

/-- Witness of C28 (amended): the pair `(7, 5)` is appended to the entry list
of a timestamp of `n = 3` that does not hold pid 7. -/
theorem C28_sparse_logical_ignores_out_of_range_witness :
    (sparse_merge_entry
        (⟨3, 0, ClockType.CLOCK_SPARSE, ⟨[⟨0, 2⟩], 3⟩, 0⟩ : Timestamp SparseClockData).data
        7 5).entries
      = (⟨3, 0, ClockType.CLOCK_SPARSE, ⟨[⟨0, 2⟩], 3⟩, 0⟩ :
          Timestamp SparseClockData).data.entries ++ [⟨7, 5⟩] :=
  (C28_sparse_logical_ignores_out_of_range ⟨3, 0, ClockType.CLOCK_SPARSE, ⟨[⟨0, 2⟩], 3⟩, 0⟩
    [7, 5] 8).2 7 5 (by decide)

/-! ## Payloads of an incoherent length -/

/-- C29, counterexample. A Differential payload of 20 bytes (`n = 3`: neither
12 bytes nor a multiple of 8) is read as two pairs and raises entries 0 and 1;
a Compressed payload of 16 bytes with leading count 1 (neither 12 bytes nor
`(1 + 2*1) * 4` bytes) raises entry 0. -/
theorem C29_incoherent_length_is_merged :
    (20 ≠ 3 * sizeof_int ∧ 20 % (2 * sizeof_int) ≠ 0) ∧
    (differential_merge
      ⟨3, 2, ClockType.CLOCK_DIFFERENTIAL, ⟨[0, 0, 0], [0, 0, 0], [0, 0, 0]⟩, 0⟩
      [0, 5, 1, 6, 9] 20).data.v = [5, 6, 1] ∧
    (16 ≠ 3 * sizeof_int ∧ 16 ≠ int_bytes (1 + 2 * rd [1, 0, 5, 99] 0)) ∧
    (compressed_merge
      ⟨3, 2, ClockType.CLOCK_COMPRESSED,
        ⟨[0, 0, 0], [[0, 0, 0], [0, 0, 0], [0, 0, 0]], 3⟩, 0⟩
      [1, 0, 5, 99] 16).data.vt = [5, 0, 1] :=
  ⟨by decide, by decide, by decide, by decide⟩

/-- C29, amended: a Differential payload whose length is not `n * sizeof(int)`
is read as `length / (2 * sizeof(int))` pairs, the bytes after them being
ignored, so the merge is only the receive increment when the payload is
shorter than one pair; a Compressed payload whose length is not
`n * sizeof(int)` is read as its `count` pairs when it holds at least
`(1 + 2 * count) * sizeof(int)` bytes, any further bytes being ignored, and
the merge is only the receive increment when the payload is shorter than one
`int` or than `(1 + 2 * count) * sizeof(int)`. -/
theorem C29_incoherent_length (n : Nat) :
    (∀ (dst : Timestamp DifferentialClockData) (p : List Int) (size : Nat),
      dst.n = n → size ≠ n * sizeof_int → size < 2 * sizeof_int →
      differential_merge dst p size = differential_increment dst) ∧
    (∀ (dst : Timestamp DifferentialClockData) (p : List Int) (s1 s2 : Nat),
      dst.n = n → s1 ≠ n * sizeof_int → s2 ≠ n * sizeof_int →
      s1 / (2 * sizeof_int) = s2 / (2 * sizeof_int) →
      differential_merge dst p s1 = differential_merge dst p s2) ∧
    (∀ (dst : Timestamp CompressedClockData) (p : List Int) (size : Nat),
      dst.n = n → size ≠ n * sizeof_int →
      (size < sizeof_int ∨ size < int_bytes (1 + 2 * rd p 0)) →
      compressed_merge dst p size = compressed_increment dst) ∧
    (∀ (dst : Timestamp CompressedClockData) (p : List Int) (s1 s2 : Nat),
      dst.n = n → s1 ≠ n * sizeof_int → s2 ≠ n * sizeof_int →
      sizeof_int ≤ s1 → int_bytes (1 + 2 * rd p 0) ≤ s1 →
      sizeof_int ≤ s2 → int_bytes (1 + 2 * rd p 0) ≤ s2 →
      compressed_merge dst p s1 = compressed_merge dst p s2) := by
  refine ⟨?_, ?_, ?_, ?_⟩
  · intro dst p size hn hsz hsmall
    subst hn
    have h0 : size / (2 * sizeof_int) = 0 := Nat.div_eq_of_lt hsmall
    unfold differential_merge differential_increment
    rw [if_neg hsz, h0]
    rfl
  · intro dst p s1 s2 hn h1 h2 heq
    subst hn
    unfold differential_merge
    rw [if_neg h1, if_neg h2, heq]
  · intro dst p size hn hsz hsmall
    subst hn
    unfold compressed_merge compressed_increment
    rw [if_neg hsz]
    by_cases h1 : size ≥ sizeof_int
    · have h2 : ¬ size ≥ int_bytes (1 + 2 * rd p 0) := by
        rcases hsmall with h | h
        · omega
        · omega
      rw [if_pos h1]
      simp only [if_neg h2]
    · rw [if_neg h1]
  · intro dst p s1 s2 hn h1 h2 ha1 hb1 ha2 hb2
    subst hn
    unfold compressed_merge
    rw [if_neg h1, if_neg h2, if_pos ha1, if_pos ha2]
    simp only [if_pos hb1, if_pos hb2]

/-- Witness of C29 (amended): `n = 3`; a Differential payload of 4 bytes and
payloads of 20 and 16 bytes; a Compressed payload of 8 bytes announcing one
pair and payloads of 16 and 20 bytes. -/
theorem C29_incoherent_length_witness :
    differential_merge
        ⟨3, 2, ClockType.CLOCK_DIFFERENTIAL, ⟨[0, 0, 0], [0, 0, 0], [0, 0, 0]⟩, 0⟩ [9] 4
      = differential_increment
        ⟨3, 2, ClockType.CLOCK_DIFFERENTIAL, ⟨[0, 0, 0], [0, 0, 0], [0, 0, 0]⟩, 0⟩ ∧
    differential_merge
        ⟨3, 2, ClockType.CLOCK_DIFFERENTIAL, ⟨[0, 0, 0], [0, 0, 0], [0, 0, 0]⟩, 0⟩
        [0, 5, 1, 6, 9] 20
      = differential_merge
        ⟨3, 2, ClockType.CLOCK_DIFFERENTIAL, ⟨[0, 0, 0], [0, 0, 0], [0, 0, 0]⟩, 0⟩
        [0, 5, 1, 6, 9] 16 ∧
    compressed_merge
        ⟨3, 2, ClockType.CLOCK_COMPRESSED,
          ⟨[0, 0, 0], [[0, 0, 0], [0, 0, 0], [0, 0, 0]], 3⟩, 0⟩ [1, 0] 8
      = compressed_increment
        ⟨3, 2, ClockType.CLOCK_COMPRESSED,
          ⟨[0, 0, 0], [[0, 0, 0], [0, 0, 0], [0, 0, 0]], 3⟩, 0⟩ ∧
    compressed_merge
        ⟨3, 2, ClockType.CLOCK_COMPRESSED,
          ⟨[0, 0, 0], [[0, 0, 0], [0, 0, 0], [0, 0, 0]], 3⟩, 0⟩ [1, 0, 5, 99, 98] 16
      = compressed_merge
        ⟨3, 2, ClockType.CLOCK_COMPRESSED,
          ⟨[0, 0, 0], [[0, 0, 0], [0, 0, 0], [0, 0, 0]], 3⟩, 0⟩ [1, 0, 5, 99, 98] 20 :=
  ⟨(C29_incoherent_length 3).1
      ⟨3, 2, ClockType.CLOCK_DIFFERENTIAL, ⟨[0, 0, 0], [0, 0, 0], [0, 0, 0]⟩, 0⟩ [9] 4
      rfl (by decide) (by decide),
    (C29_incoherent_length 3).2.1
      ⟨3, 2, ClockType.CLOCK_DIFFERENTIAL, ⟨[0, 0, 0], [0, 0, 0], [0, 0, 0]⟩, 0⟩
      [0, 5, 1, 6, 9] 20 16 rfl (by decide) (by decide) (by decide),
    (C29_incoherent_length 3).2.2.1
      ⟨3, 2, ClockType.CLOCK_COMPRESSED,
        ⟨[0, 0, 0], [[0, 0, 0], [0, 0, 0], [0, 0, 0]], 3⟩, 0⟩ [1, 0] 8
      rfl (by decide) (by decide),
    (C29_incoherent_length 3).2.2.2
      ⟨3, 2, ClockType.CLOCK_COMPRESSED,
        ⟨[0, 0, 0], [[0, 0, 0], [0, 0, 0], [0, 0, 0]], 3⟩, 0⟩ [1, 0, 5, 99, 98] 16 20
      rfl (by decide) (by decide) (by decide) (by decide) (by decide) (by decide)⟩

/-! ## Comparing timestamps of different process counts -/

/-- C30, the code at a failing input: timestamps with `n = 2` and `n = 3`.
`standard_compare` takes its `exit(1)`; `sparse_compare`,
`differential_compare`, `encoded_compare` and `compressed_compare` have no such
test and return the verdict of the first two entries, `TS_EQUAL`, although the
second timestamp holds `5` in its third entry. -/
theorem C30_compare_with_different_n :
    standard_compare ⟨2, 0, ClockType.CLOCK_STANDARD, ⟨[1, 0]⟩, 8⟩
        ⟨3, 0, ClockType.CLOCK_STANDARD, ⟨[1, 0, 5]⟩, 12⟩ = none ∧
    sparse_compare ⟨2, 0, ClockType.CLOCK_SPARSE, ⟨[⟨0, 1⟩], 2⟩, 0⟩
        ⟨3, 0, ClockType.CLOCK_SPARSE, ⟨[⟨0, 1⟩, ⟨2, 5⟩], 3⟩, 0⟩ = TSOrder.TS_EQUAL ∧
    differential_compare
        ⟨2, 0, ClockType.CLOCK_DIFFERENTIAL, ⟨[1, 0], [0, 0], [1, 0]⟩, 0⟩
        ⟨3, 0, ClockType.CLOCK_DIFFERENTIAL, ⟨[1, 0, 5], [0, 0, 0], [1, 0, 2]⟩, 0⟩
      = TSOrder.TS_EQUAL ∧
    encoded_compare 64 ⟨2, 0, ClockType.CLOCK_ENCODED, ⟨2, false, [0, 0]⟩, 8⟩
        ⟨3, 0, ClockType.CLOCK_ENCODED, ⟨2 * 5 ^ 5, false, [0, 0, 0]⟩, 8⟩
      = some TSOrder.TS_EQUAL ∧
    compressed_compare
        ⟨2, 0, ClockType.CLOCK_COMPRESSED, ⟨[1, 0], [[0, 0], [0, 0]], 2⟩, 0⟩
        ⟨3, 0, ClockType.CLOCK_COMPRESSED,
          ⟨[1, 0, 5], [[0, 0, 0], [0, 0, 0], [0, 0, 0]], 3⟩, 0⟩
      = TSOrder.TS_EQUAL :=
  ⟨by decide, by decide, by decide, by decide, by decide⟩

/-! ## The timestamp facade -/

theorem with_data_self {D : Type} (ts : Timestamp D) : with_data ts ts.data = ts := rfl

/-- C31: `ts_compare` fails (returns no verdict, whatever the fuel) on two
timestamps whose type tags differ; on two timestamps of the same encoding it
returns exactly what the `compare` function of that encoding returns. -/
theorem C31_ts_compare_dispatch (fuel : Nat) :
    (∀ a b : Timestamp ClockData, a.type ≠ b.type → ts_compare fuel a b = none) ∧
    (∀ a b : Timestamp StandardClockData, a.type = ClockType.CLOCK_STANDARD →
      b.type = ClockType.CLOCK_STANDARD →
      ts_compare fuel (of_standard a) (of_standard b) = standard_compare a b) ∧
    (∀ a b : Timestamp SparseClockData, a.type = ClockType.CLOCK_SPARSE →
      b.type = ClockType.CLOCK_SPARSE →
      ts_compare fuel (of_sparse a) (of_sparse b) = some (sparse_compare a b)) ∧
    (∀ a b : Timestamp DifferentialClockData, a.type = ClockType.CLOCK_DIFFERENTIAL →
      b.type = ClockType.CLOCK_DIFFERENTIAL →
      ts_compare fuel (of_differential a) (of_differential b)
        = some (differential_compare a b)) ∧
    (∀ a b : Timestamp EncodedClockData, a.type = ClockType.CLOCK_ENCODED →
      b.type = ClockType.CLOCK_ENCODED →
      ts_compare fuel (of_encoded a) (of_encoded b) = encoded_compare fuel a b) ∧
    (∀ a b : Timestamp CompressedClockData, a.type = ClockType.CLOCK_COMPRESSED →
      b.type = ClockType.CLOCK_COMPRESSED →
      ts_compare fuel (of_compressed a) (of_compressed b)
        = some (compressed_compare a b)) := by
  refine ⟨?_, ?_, ?_, ?_, ?_, ?_⟩
  · intro a b h
    unfold ts_compare
    rw [if_pos h]
  · intro a b ha hb
    have h1 : (of_standard a).type = ClockType.CLOCK_STANDARD := ha
    have h2 : (of_standard b).type = ClockType.CLOCK_STANDARD := hb
    unfold ts_compare
    rw [if_neg (by rw [h1, h2]; exact fun h => h rfl), h1]
    rfl
  · intro a b ha hb
    have h1 : (of_sparse a).type = ClockType.CLOCK_SPARSE := ha
    have h2 : (of_sparse b).type = ClockType.CLOCK_SPARSE := hb
    unfold ts_compare
    rw [if_neg (by rw [h1, h2]; exact fun h => h rfl), h1]
    rfl
  · intro a b ha hb
    have h1 : (of_differential a).type = ClockType.CLOCK_DIFFERENTIAL := ha
    have h2 : (of_differential b).type = ClockType.CLOCK_DIFFERENTIAL := hb
    unfold ts_compare
    rw [if_neg (by rw [h1, h2]; exact fun h => h rfl), h1]
    rfl
  · intro a b ha hb
    have h1 : (of_encoded a).type = ClockType.CLOCK_ENCODED := ha
    have h2 : (of_encoded b).type = ClockType.CLOCK_ENCODED := hb
    unfold ts_compare
    rw [if_neg (by rw [h1, h2]; exact fun h => h rfl), h1]
    rfl
  · intro a b ha hb
    have h1 : (of_compressed a).type = ClockType.CLOCK_COMPRESSED := ha
    have h2 : (of_compressed b).type = ClockType.CLOCK_COMPRESSED := hb
    unfold ts_compare
    rw [if_neg (by rw [h1, h2]; exact fun h => h rfl), h1]
    rfl

/-- Witness of C31: a Standard against a Sparse timestamp, and for each
encoding the timestamps `[2, 0, 0]` of process 0 and `[0, 1, 0]` of process 1. -/
theorem C31_ts_compare_dispatch_witness :
    ts_compare 64 (of_standard ⟨3, 0, ClockType.CLOCK_STANDARD, ⟨[2, 0, 0]⟩, 12⟩)
        (of_sparse ⟨3, 1, ClockType.CLOCK_SPARSE, ⟨[⟨1, 1⟩], 3⟩, 0⟩) = none ∧
    ts_compare 64 (of_standard ⟨3, 0, ClockType.CLOCK_STANDARD, ⟨[2, 0, 0]⟩, 12⟩)
        (of_standard ⟨3, 1, ClockType.CLOCK_STANDARD, ⟨[0, 1, 0]⟩, 12⟩)
      = standard_compare ⟨3, 0, ClockType.CLOCK_STANDARD, ⟨[2, 0, 0]⟩, 12⟩
          ⟨3, 1, ClockType.CLOCK_STANDARD, ⟨[0, 1, 0]⟩, 12⟩ ∧
    ts_compare 64 (of_sparse ⟨3, 0, ClockType.CLOCK_SPARSE, ⟨[⟨0, 2⟩], 3⟩, 0⟩)
        (of_sparse ⟨3, 1, ClockType.CLOCK_SPARSE, ⟨[⟨1, 1⟩], 3⟩, 0⟩)
      = some (sparse_compare ⟨3, 0, ClockType.CLOCK_SPARSE, ⟨[⟨0, 2⟩], 3⟩, 0⟩
          ⟨3, 1, ClockType.CLOCK_SPARSE, ⟨[⟨1, 1⟩], 3⟩, 0⟩) ∧
    ts_compare 64
        (of_differential
          ⟨3, 0, ClockType.CLOCK_DIFFERENTIAL, ⟨[2, 0, 0], [0, 0, 0], [2, 0, 0]⟩, 0⟩)
        (of_differential
          ⟨3, 1, ClockType.CLOCK_DIFFERENTIAL, ⟨[0, 1, 0], [0, 0, 0], [0, 1, 0]⟩, 0⟩)
      = some (differential_compare
          ⟨3, 0, ClockType.CLOCK_DIFFERENTIAL, ⟨[2, 0, 0], [0, 0, 0], [2, 0, 0]⟩, 0⟩
          ⟨3, 1, ClockType.CLOCK_DIFFERENTIAL, ⟨[0, 1, 0], [0, 0, 0], [0, 1, 0]⟩, 0⟩) ∧
    ts_compare 64 (of_encoded ⟨3, 0, ClockType.CLOCK_ENCODED, ⟨4, false, [0, 0, 0]⟩, 8⟩)
        (of_encoded ⟨3, 1, ClockType.CLOCK_ENCODED, ⟨3, false, [0, 0, 0]⟩, 8⟩)
      = encoded_compare 64 ⟨3, 0, ClockType.CLOCK_ENCODED, ⟨4, false, [0, 0, 0]⟩, 8⟩
          ⟨3, 1, ClockType.CLOCK_ENCODED, ⟨3, false, [0, 0, 0]⟩, 8⟩ ∧
    ts_compare 64
        (of_compressed ⟨3, 0, ClockType.CLOCK_COMPRESSED,
          ⟨[2, 0, 0], [[0, 0, 0], [0, 0, 0], [0, 0, 0]], 3⟩, 0⟩)
        (of_compressed ⟨3, 1, ClockType.CLOCK_COMPRESSED,
          ⟨[0, 1, 0], [[0, 0, 0], [0, 0, 0], [0, 0, 0]], 3⟩, 0⟩)
      = some (compressed_compare
          ⟨3, 0, ClockType.CLOCK_COMPRESSED,
            ⟨[2, 0, 0], [[0, 0, 0], [0, 0, 0], [0, 0, 0]], 3⟩, 0⟩
          ⟨3, 1, ClockType.CLOCK_COMPRESSED,
            ⟨[0, 1, 0], [[0, 0, 0], [0, 0, 0], [0, 0, 0]], 3⟩, 0⟩) :=
  ⟨(C31_ts_compare_dispatch 64).1
      (of_standard ⟨3, 0, ClockType.CLOCK_STANDARD, ⟨[2, 0, 0]⟩, 12⟩)
      (of_sparse ⟨3, 1, ClockType.CLOCK_SPARSE, ⟨[⟨1, 1⟩], 3⟩, 0⟩) (by decide),
    (C31_ts_compare_dispatch 64).2.1 ⟨3, 0, ClockType.CLOCK_STANDARD, ⟨[2, 0, 0]⟩, 12⟩
      ⟨3, 1, ClockType.CLOCK_STANDARD, ⟨[0, 1, 0]⟩, 12⟩ rfl rfl,
    (C31_ts_compare_dispatch 64).2.2.1 ⟨3, 0, ClockType.CLOCK_SPARSE, ⟨[⟨0, 2⟩], 3⟩, 0⟩
      ⟨3, 1, ClockType.CLOCK_SPARSE, ⟨[⟨1, 1⟩], 3⟩, 0⟩ rfl rfl,
    (C31_ts_compare_dispatch 64).2.2.2.1
      ⟨3, 0, ClockType.CLOCK_DIFFERENTIAL, ⟨[2, 0, 0], [0, 0, 0], [2, 0, 0]⟩, 0⟩
      ⟨3, 1, ClockType.CLOCK_DIFFERENTIAL, ⟨[0, 1, 0], [0, 0, 0], [0, 1, 0]⟩, 0⟩ rfl rfl,
    (C31_ts_compare_dispatch 64).2.2.2.2.1
      ⟨3, 0, ClockType.CLOCK_ENCODED, ⟨4, false, [0, 0, 0]⟩, 8⟩
      ⟨3, 1, ClockType.CLOCK_ENCODED, ⟨3, false, [0, 0, 0]⟩, 8⟩ rfl rfl,
    (C31_ts_compare_dispatch 64).2.2.2.2.2
      ⟨3, 0, ClockType.CLOCK_COMPRESSED,
        ⟨[2, 0, 0], [[0, 0, 0], [0, 0, 0], [0, 0, 0]], 3⟩, 0⟩
      ⟨3, 1, ClockType.CLOCK_COMPRESSED,
        ⟨[0, 1, 0], [[0, 0, 0], [0, 0, 0], [0, 0, 0]], 3⟩, 0⟩ rfl rfl⟩

/-! ## Creation -/

/-- C32, counterexample. `ts_create` with `n = 0` returns a timestamp object
for every encoding: no create function tests the process count against zero. -/
theorem C32_create_accepts_zero :
    ts_create 0 0 ClockType.CLOCK_STANDARD
      = some (of_standard ⟨0, 0, ClockType.CLOCK_STANDARD, ⟨[]⟩, 0⟩) ∧
    ts_create 0 0 ClockType.CLOCK_SPARSE
      = some (of_sparse ⟨0, 0, ClockType.CLOCK_SPARSE, ⟨[], 0⟩, 0⟩) ∧
    ts_create 0 0 ClockType.CLOCK_DIFFERENTIAL
      = some (of_differential ⟨0, 0, ClockType.CLOCK_DIFFERENTIAL, ⟨[], [], []⟩, 0⟩) ∧
    ts_create 0 0 ClockType.CLOCK_ENCODED
      = some (of_encoded ⟨0, 0, ClockType.CLOCK_ENCODED, ⟨1, false, []⟩, 8⟩) ∧
    ts_create 0 0 ClockType.CLOCK_COMPRESSED
      = some (of_compressed ⟨0, 0, ClockType.CLOCK_COMPRESSED, ⟨[], [], 0⟩, 0⟩) :=
  ⟨by decide, by decide, by decide, by decide, by decide⟩

/-- C32, amended: a process count of zero is accepted at creation time by every
encoding: `ts_create` returns a timestamp object with `n = 0`, the given `pid`
and the given type. -/
theorem C32_create_with_zero_processes (pid : Nat) (type : ClockType) :
    ∃ ts, ts_create 0 pid type = some ts ∧ ts.n = 0 ∧ ts.pid = pid ∧ ts.type = type := by
  cases type
  · exact ⟨_, rfl, rfl, rfl, rfl⟩
  · exact ⟨_, rfl, rfl, rfl, rfl⟩
  · exact ⟨_, rfl, rfl, rfl, rfl⟩
  · exact ⟨_, rfl, rfl, rfl, rfl⟩
  · exact ⟨_, rfl, rfl, rfl, rfl⟩

/-- C33: `encoded_create` fails iff `n` exceeds the size of the prime table;
for every `n <= 25` it returns a timestamp in product mode with value 1, the
overflow flag clear and an all-zero fallback vector of `n` cells. -/
theorem C33_encoded_create (n pid : Nat) (type : ClockType) :
    (encoded_create n pid type = none ↔ n > 25) ∧
    (n ≤ 25 →
      ∃ ts, encoded_create n pid type = some ts ∧ ts.n = n ∧ ts.pid = pid ∧ ts.type = type ∧
        ts.data.value = 1 ∧ ts.data.overflow = false ∧ ts.data.fallback_v.length = n ∧
        ∀ k, rd ts.data.fallback_v k = 0) := by
  refine ⟨?_, ?_⟩
  · unfold encoded_create
    by_cases h : n > MAX_PRIMES
    · rw [if_pos h]
      exact ⟨fun _ => h, fun _ => rfl⟩
    · rw [if_neg h]
      exact ⟨fun hc => Option.noConfusion hc, fun hc => absurd hc h⟩
  · intro hn
    refine ⟨⟨n, pid, type, ⟨1, false, List.replicate n 0⟩, sizeof_ull⟩, ?_, rfl, rfl, rfl, rfl,
      rfl, by simp, fun k => rd_replicate_zero n k⟩
    unfold encoded_create
    rw [if_neg (by simp only [MAX_PRIMES]; omega)]

/-- Witness of C33: `n = 25`, the largest process count of the table. -/
theorem C33_encoded_create_witness :
    ∃ ts, encoded_create 25 3 ClockType.CLOCK_ENCODED = some ts ∧ ts.n = 25 ∧ ts.pid = 3 ∧
      ts.type = ClockType.CLOCK_ENCODED ∧ ts.data.value = 1 ∧ ts.data.overflow = false ∧
      ts.data.fallback_v.length = 25 ∧ ∀ k, rd ts.data.fallback_v k = 0 :=
  (C33_encoded_create 25 3 ClockType.CLOCK_ENCODED).2 (by decide)

/-! ## A Standard scenario -/

/-- C34: the Standard scenario with `n = 3`. Process 0 after two increments
holds `[2, 0, 0]`, process 1 after one increment holds `[0, 1, 0]`, the two
compare as concurrent; `serialize` of process 0 writes `[2, 0, 0]` (12 bytes);
process 1 holds `[2, 1, 0]` after merging them, and process 0 then compares as
before process 1. -/
theorem C34_standard_scenario :
    (standard_run (standard_create 3 0 ClockType.CLOCK_STANDARD)
        [Event.increment, Event.increment]).data.v = [2, 0, 0] ∧
    (standard_run (standard_create 3 1 ClockType.CLOCK_STANDARD)
        [Event.increment]).data.v = [0, 1, 0] ∧
    standard_compare
        (standard_run (standard_create 3 0 ClockType.CLOCK_STANDARD)
          [Event.increment, Event.increment])
        (standard_run (standard_create 3 1 ClockType.CLOCK_STANDARD) [Event.increment])
      = some TSOrder.TS_CONCURRENT ∧
    standard_serialize
        (standard_run (standard_create 3 0 ClockType.CLOCK_STANDARD)
          [Event.increment, Event.increment]) [0, 0, 0] 12 = ([2, 0, 0], 12) ∧
    (standard_merge
        (standard_run (standard_create 3 1 ClockType.CLOCK_STANDARD) [Event.increment])
        [2, 0, 0] 12).data.v = [2, 1, 0] ∧
    standard_compare
        (standard_run (standard_create 3 0 ClockType.CLOCK_STANDARD)
          [Event.increment, Event.increment])
        (standard_merge
          (standard_run (standard_create 3 1 ClockType.CLOCK_STANDARD) [Event.increment])
          [2, 0, 0] 12)
      = some TSOrder.TS_BEFORE :=
  ⟨by decide, by decide, by decide, by decide, by decide, by decide⟩

/-! ## The `LU` array across a Differential merge -/

theorem max_with_max (a b : Int) (xs : List Int) :
    max_with (max a b) xs = max a (max_with b xs) := by
  induction xs generalizing b with
  | nil => rfl
  | cons x xs ih =>
    have h1 : max_with (max a b) (x :: xs) = max_with (max (max a b) x) xs := rfl
    have h2 : max_with b (x :: xs) = max_with (max b x) xs := rfl
    rw [h1, h2, max_assoc, ih]

theorem max_with_nonneg (x : Int) (xs : List Int) (hx : 0 ≤ x) :
    max_with x xs = max x (max_with 0 xs) := by
  rw [← max_with_max, max_eq_left hx]

/-- The value `sparse_merge` leaves for `k`, for non-negative counters. -/
theorem sparse_merge_value_max (ps : List (Int × Int)) (d : SparseClockData) (k : Int)
    (hd : 0 ≤ sparse_value k d.entries) (hps : ∀ q, q ∈ ps → 0 ≤ q.2) :
    sparse_value k (ps.foldl (fun d p => sparse_merge_entry d p.1 p.2) d).entries
      = max (sparse_value k d.entries) (max_with 0 (carried ps k)) := by
  rw [(sparse_merge_fold_spec ps d k).2]
  by_cases hh : sparse_has k d.entries = true
  · rw [if_pos hh, max_with_nonneg _ _ hd]
  · rw [if_neg hh, sparse_has_false_value k _ (by simpa using hh)]
    cases hc : carried ps k with
    | nil => rfl
    | cons c cs =>
      have hc0 : 0 ≤ c := by
        have hmem : c ∈ carried ps k := by rw [hc]; exact List.mem_cons_self _ _
        unfold carried at hmem
        rw [List.mem_map] at hmem
        obtain ⟨q, hq, rfl⟩ := hmem
        exact hps q (List.mem_filter.mp hq).1
      have h2 : max_with 0 (c :: cs) = max_with (max 0 c) cs := rfl
      simp only
      rw [h2, max_eq_right hc0, max_eq_right (le_trans hc0 (max_with_ge c cs).1)]

/-- C37, counterexample. A Sparse timestamp of `n = 2` holds the single entry
`(1, -3)`, as `sparse_deserialize` installs it from the pair `(1, -3)`, and is
merged with the empty payload. The value looked up for pid 1 stays `-3`, while
the maximum of `-3` and `0` (the payload carries nothing for pid 1) is `0`, which
is also entry 1 of `standard_merge` on the dense vectors `[0, -3]` and `[0, 0]`. -/
theorem C37_negative_counter_is_kept :
    (sparse_deserialize (sparse_create 2 0 ClockType.CLOCK_SPARSE) [1, -3] 8)
      = ⟨2, 0, ClockType.CLOCK_SPARSE, ⟨[⟨1, -3⟩], 2⟩, 0⟩ ∧
    SparseInv [⟨1, -3⟩] ∧
    payload_pairs [] 0 (0 / (2 * sizeof_int)) = [] ∧
    rd (sparse_logical 2
      (sparse_merge ⟨2, 0, ClockType.CLOCK_SPARSE, ⟨[⟨1, -3⟩], 2⟩, 0⟩ [] 0).data.entries) 1
      = -3 ∧
    max (rd (sparse_logical 2 [⟨1, -3⟩]) 1)
      (max_with 0 (carried (payload_pairs [] 0 (0 / (2 * sizeof_int))) ((1 : Nat) : Int))) = 0 ∧
    rd (standard_merge (standard_of 2 0 (sparse_logical 2 [⟨1, -3⟩]))
      (dense_of_pairs 2 (payload_pairs [] 0 (0 / (2 * sizeof_int)))) (2 * sizeof_int)).data.v 1
      = 0 := by
  refine ⟨by decide, by unfold SparseInv; decide, by decide, by decide, by decide, by decide⟩

/-- C37, amended: Sparse merge refines the dense pointwise maximum. For a Sparse
timestamp with at most one entry per pid whose logical vector is non-negative,
a payload of `(pid, counter)` pairs with non-negative counters, and every
process id `k` in `[0, n)`: the value looked up for `k` after `sparse_merge` is
the maximum of the value looked up before and the largest counter the payload
carries for `k` (0 if it carries none), which is entry `k` of `standard_merge`
applied to the corresponding dense vectors; and the merged entry list still has
at most one entry per pid. -/
theorem C37_sparse_merge_refines_max (s : Timestamp SparseClockData) (p : List Int)
    (size k : Nat) (hk : k < s.n)
    (hone : SparseInv s.data.entries)
    (hstate : ∀ j, j < s.n → 0 ≤ rd (sparse_logical s.n s.data.entries) j)
    (hpayload : ∀ q, q ∈ payload_pairs p 0 (size / (2 * sizeof_int)) → 0 ≤ q.2) :
    rd (sparse_logical s.n (sparse_merge s p size).data.entries) k
        = max (rd (sparse_logical s.n s.data.entries) k)
            (max_with 0 (carried (payload_pairs p 0 (size / (2 * sizeof_int))) (k : Int))) ∧
    rd (sparse_logical s.n (sparse_merge s p size).data.entries) k
        = rd (standard_merge (standard_of s.n s.pid (sparse_logical s.n s.data.entries))
            (dense_of_pairs s.n (payload_pairs p 0 (size / (2 * sizeof_int))))
            (s.n * sizeof_int)).data.v k ∧
    SparseInv (sparse_merge s p size).data.entries := by
  have hval : 0 ≤ sparse_value (k : Int) s.data.entries := by
    have h := hstate k hk
    rwa [rd_sparse_logical _ _ _ hk] at h
  have h1 : rd (sparse_logical s.n (sparse_merge s p size).data.entries) k
      = max (rd (sparse_logical s.n s.data.entries) k)
          (max_with 0 (carried (payload_pairs p 0 (size / (2 * sizeof_int))) (k : Int))) := by
    rw [rd_sparse_logical _ _ _ hk, rd_sparse_logical _ _ _ hk, sparse_merge_eq_fold]
    exact sparse_merge_value_max _ s.data (k : Int) hval hpayload
  refine ⟨h1, ?_, ?_⟩
  · rw [h1, standard_merge_cells s.n _ _ _ rfl (by simp [standard_of, sparse_logical]) k hk]
    congr 1
    unfold dense_of_pairs
    rw [rd_map_range _ _ _ hk]
  · simp only [sparse_merge]
    exact foldl_preserves (fun d : SparseClockData => SparseInv d.entries) _
      (fun d i hd => sparse_merge_entry_inv d _ _ hd) _ _ hone

/-- Witness of C37 (amended): `n = 3`, entries `(0, 2), (1, 1)`, payload pairs
`(1, 4), (2, 1), (1, 3)`, looked up at `k = 1`. -/
theorem C37_sparse_merge_refines_max_witness :
    rd (sparse_logical 3 (sparse_merge
          ⟨3, 0, ClockType.CLOCK_SPARSE, ⟨[⟨0, 2⟩, ⟨1, 1⟩], 3⟩, 0⟩
          [1, 4, 2, 1, 1, 3] 24).data.entries) 1
        = max (rd (sparse_logical 3 [⟨0, 2⟩, ⟨1, 1⟩]) 1)
            (max_with 0 (carried (payload_pairs [1, 4, 2, 1, 1, 3] 0 (24 / (2 * sizeof_int)))
              ((1 : Nat) : Int))) ∧
    rd (sparse_logical 3 (sparse_merge
          ⟨3, 0, ClockType.CLOCK_SPARSE, ⟨[⟨0, 2⟩, ⟨1, 1⟩], 3⟩, 0⟩
          [1, 4, 2, 1, 1, 3] 24).data.entries) 1
        = rd (standard_merge (standard_of 3 0 (sparse_logical 3 [⟨0, 2⟩, ⟨1, 1⟩]))
            (dense_of_pairs 3 (payload_pairs [1, 4, 2, 1, 1, 3] 0 (24 / (2 * sizeof_int))))
            (3 * sizeof_int)).data.v 1 ∧
    SparseInv (sparse_merge
      ⟨3, 0, ClockType.CLOCK_SPARSE, ⟨[⟨0, 2⟩, ⟨1, 1⟩], 3⟩, 0⟩
      [1, 4, 2, 1, 1, 3] 24).data.entries :=
  C37_sparse_merge_refines_max ⟨3, 0, ClockType.CLOCK_SPARSE, ⟨[⟨0, 2⟩, ⟨1, 1⟩], 3⟩, 0⟩
    [1, 4, 2, 1, 1, 3] 24 1 (by decide) (by unfold SparseInv; decide) (by decide) (by decide)

/-! ## The entry list of reachable Sparse timestamps -/

/-- Reading the memory image of an entry array pair by pair gives the entries. -/
theorem sparse_words_read (es : List SparseEntry) (rest : List Int) :
    (List.range es.length).map
        (fun (i : Nat) =>
          (⟨rd (sparse_words es ++ rest) (i * 2), rd (sparse_words es ++ rest) (i * 2 + 1)⟩ :
            SparseEntry))
      = es := by
  induction es with
  | nil => rfl
  | cons e es ih =>
    rw [List.length_cons, List.range_succ_eq_map, List.map_cons, List.map_map]
    have h0 : (⟨rd (sparse_words (e :: es) ++ rest) (0 * 2),
        rd (sparse_words (e :: es) ++ rest) (0 * 2 + 1)⟩ : SparseEntry) = e := rfl
    rw [h0]
    congr 1
    refine Eq.trans ?_ ih
    apply List.map_congr_left
    intro i _
    have h1 : (i + 1) * 2 = i * 2 + 1 + 1 := by ring
    have h2 : (i + 1) * 2 + 1 = i * 2 + 1 + 1 + 1 := by ring
    simp only [Function.comp, Nat.succ_eq_add_one, h1, h2, sparse_words, List.cons_append, rd,
      List.getD_cons_succ]

/-- What `sparse_deserialize` installs from a serialization. -/
theorem sparse_deserialize_serialized (ts src : Timestamp SparseClockData) (buffer : List Int)
    (bufsize : Nat) (hbuf : (sparse_serialize src buffer bufsize).2 ≤ bufsize) :
    (sparse_deserialize ts (sparse_serialize src buffer bufsize).1
        (sparse_serialize src buffer bufsize).2).data
      = ⟨src.data.entries,
          if src.data.count > ts.data.capacity then src.data.count else ts.data.capacity⟩ := by
  have h2 : (sparse_serialize src buffer bufsize).2 = src.data.count * (2 * sizeof_int) := rfl
  rw [h2] at hbuf
  unfold sparse_deserialize sparse_serialize
  simp only [ge_iff_le, hbuf, if_true]
  have hc : src.data.count = src.data.entries.length := rfl
  rw [Nat.mul_div_cancel _ (by decide : 0 < 2 * sizeof_int), hc,
    memcpy_ints_all _ _ _ (sparse_words_length _), sparse_words_read]

/-- One incoming pair keeps the count within the capacity. -/
theorem sparse_merge_entry_capacity (d : SparseClockData) (p c : Int)
    (h : 1 ≤ d.capacity ∧ d.count ≤ d.capacity) :
    1 ≤ (sparse_merge_entry d p c).capacity ∧
      (sparse_merge_entry d p c).count ≤ (sparse_merge_entry d p c).capacity := by
  unfold sparse_merge_entry
  cases hs : sparse_merge_scan p c d.entries with
  | some es2 =>
    obtain ⟨_, _, h3, _⟩ := sparse_merge_scan_some p c d.entries es2 hs 0
    have hl : es2.length = d.entries.length := by
      have := congrArg List.length h3
      simpa using this
    simp only [SparseClockData.count] at h ⊢
    rw [hl]
    exact h
  | none =>
    simp only [SparseClockData.count, List.length_append, List.length_cons, List.length_nil] at h ⊢
    split <;> omega

/-- Reachable Sparse timestamps: no pid twice, capacity at least 1, count within capacity. -/
theorem sparse_reach_inv (n pid : Nat) (type : ClockType) (ts : Timestamp SparseClockData)
    (hn : 1 ≤ n) (h : SparseReach n pid type ts) :
    SparseInv ts.data.entries ∧ 1 ≤ ts.data.capacity ∧ ts.data.count ≤ ts.data.capacity := by
  induction h with
  | create =>
    refine ⟨by simp [sparse_create, SparseInv], hn, ?_⟩
    simp [sparse_create, SparseClockData.count]
  | increment ts _ ih =>
    obtain ⟨h1, h2, h3⟩ := ih
    simp only [sparse_increment]
    cases hs : sparse_increment_scan (ts.pid : Int) ts.data.entries with
    | some es2 =>
      have hp := sparse_increment_scan_pids _ _ _ hs
      have hl : es2.length = ts.data.entries.length := by
        have := congrArg List.length hp
        simpa using this
      refine ⟨?_, h2, ?_⟩
      · simp only [SparseInv]
        rw [hp]
        exact h1
      · simp only [SparseClockData.count] at h3 ⊢
        rw [hl]
        exact h3
    | none =>
      have hf := sparse_increment_scan_none _ _ hs
      refine ⟨?_, ?_, ?_⟩
      · simp only [SparseInv, List.map_append, List.map_cons, List.map_nil]
        rw [List.nodup_append]
        refine ⟨h1, by simp, ?_⟩
        intro a ha hb
        simp at hb
        subst hb
        rw [List.find?_eq_none] at hf
        simp only [List.mem_map] at ha
        obtain ⟨e, he, hep⟩ := ha
        have := hf e he
        simp [hep] at this
      · simp only
        split <;> omega
      · simp only [SparseClockData.count, List.length_append, List.length_cons,
          List.length_nil] at h3 ⊢
        split <;> omega
  | merge ts other_data other_size _ ih =>
    obtain ⟨h1, h2, h3⟩ := ih
    simp only [sparse_merge]
    exact foldl_preserves
      (fun d : SparseClockData => SparseInv d.entries ∧ 1 ≤ d.capacity ∧ d.count ≤ d.capacity) _
      (fun d i hd => ⟨sparse_merge_entry_inv d _ _ hd.1, sparse_merge_entry_capacity d _ _ hd.2⟩)
      _ _ ⟨h1, h2, h3⟩
  | deserialize ts src buffer bufsize _ hsrc hbuf ih =>
    obtain ⟨h1, h2, h3⟩ := ih
    rw [sparse_deserialize_serialized ts src buffer bufsize hbuf]
    refine ⟨hsrc, ?_, ?_⟩
    · simp only
      split <;> omega
    · simp only [SparseClockData.count]
      split
      · exact le_refl _
      · rename_i hgt
        omega

/-- C38: the entry-list invariant of the Sparse encoding. Starting from
`sparse_create` with `n ≥ 1`, after any sequence of `sparse_increment`,
`sparse_merge` with any payload (payloads repeating a pid included) and
`sparse_deserialize` of the bytes `sparse_serialize` produced for a timestamp
with at most one entry per pid, the entry list holds at most one entry per pid
and `count ≤ capacity`. -/
theorem C38_sparse_entry_list_invariant (n pid : Nat) (type : ClockType)
    (ts : Timestamp SparseClockData) (hn : 1 ≤ n) (h : SparseReach n pid type ts) :
    SparseInv ts.data.entries ∧ ts.data.count ≤ ts.data.capacity :=
  ⟨(sparse_reach_inv n pid type ts hn h).1, (sparse_reach_inv n pid type ts hn h).2.2⟩

/-- Witness of C38: with `n = 1`, an increment, a merge of a payload that
carries pid 5 twice, and a deserialize of the serialization of a two-entry
timestamp. -/
theorem C38_sparse_entry_list_invariant_witness :
    1 ≤ 1 ∧
    SparseInv (sparse_deserialize
        (sparse_merge (sparse_increment (sparse_create 1 0 ClockType.CLOCK_SPARSE))
          [5, 2, 5, 7, 6, 1] 24)
        (sparse_serialize ⟨2, 1, ClockType.CLOCK_SPARSE, ⟨[⟨1, 4⟩, ⟨0, 2⟩], 2⟩, 0⟩
          [0, 0, 0, 0] 16).1
        (sparse_serialize ⟨2, 1, ClockType.CLOCK_SPARSE, ⟨[⟨1, 4⟩, ⟨0, 2⟩], 2⟩, 0⟩
          [0, 0, 0, 0] 16).2).data.entries ∧
    (sparse_merge (sparse_increment (sparse_create 1 0 ClockType.CLOCK_SPARSE))
        [5, 2, 5, 7, 6, 1] 24).data.entries = [⟨0, 1⟩, ⟨5, 7⟩, ⟨6, 1⟩] ∧
    (sparse_merge (sparse_increment (sparse_create 1 0 ClockType.CLOCK_SPARSE))
        [5, 2, 5, 7, 6, 1] 24).data.capacity = 4 :=
  ⟨by decide,
    (C38_sparse_entry_list_invariant 1 0 ClockType.CLOCK_SPARSE
      (sparse_deserialize
        (sparse_merge (sparse_increment (sparse_create 1 0 ClockType.CLOCK_SPARSE))
          [5, 2, 5, 7, 6, 1] 24)
        (sparse_serialize ⟨2, 1, ClockType.CLOCK_SPARSE, ⟨[⟨1, 4⟩, ⟨0, 2⟩], 2⟩, 0⟩
          [0, 0, 0, 0] 16).1
        (sparse_serialize ⟨2, 1, ClockType.CLOCK_SPARSE, ⟨[⟨1, 4⟩, ⟨0, 2⟩], 2⟩, 0⟩
          [0, 0, 0, 0] 16).2)
      (by decide)
      (SparseReach.deserialize _ ⟨2, 1, ClockType.CLOCK_SPARSE, ⟨[⟨1, 4⟩, ⟨0, 2⟩], 2⟩, 0⟩
        [0, 0, 0, 0] 16
        (SparseReach.merge _ [5, 2, 5, 7, 6, 1] 24
          (SparseReach.increment _ SparseReach.create))
        (by unfold SparseInv; decide) (by decide))).1,
    by decide, by decide⟩

/-! ## The value zero in the Encoded operations -/

/-- C39, the code at a failing input: with `n = 3`, the merge of an 8-byte
payload holding the value 0 returns for no amount of fuel, in product mode and
in fallback mode; and a timestamp whose product is 0, as `encoded_deserialize`
installs it from 8 zero bytes, is compared for no amount of fuel. -/
theorem C39_zero_never_decodes (fuel : Nat) :
    encoded_merge fuel ⟨3, 0, ClockType.CLOCK_ENCODED, ⟨2, false, [0, 0, 0]⟩, 8⟩ [0, 0] 8
      = none ∧
    encoded_merge fuel ⟨3, 0, ClockType.CLOCK_ENCODED, ⟨2, true, [1, 0, 0]⟩, 8⟩ [0, 0] 8
      = none ∧
    encoded_deserialize ⟨3, 0, ClockType.CLOCK_ENCODED, ⟨2, false, [0, 0, 0]⟩, 8⟩ [0, 0] 8
      = ⟨3, 0, ClockType.CLOCK_ENCODED, ⟨0, false, [0, 0, 0]⟩, 8⟩ ∧
    encoded_compare fuel ⟨3, 0, ClockType.CLOCK_ENCODED, ⟨0, false, [0, 0, 0]⟩, 8⟩
      ⟨3, 1, ClockType.CLOCK_ENCODED, ⟨3, false, [0, 0, 0]⟩, 8⟩ = none := by
  have hz : read_u64 [0, 0] = 0 := by decide
  refine ⟨?_, ?_, by decide, ?_⟩
  · unfold encoded_merge
    simp only [sizeof_ull, if_true, Bool.false_eq_true, if_false, hz,
      decode_value_zero fuel 3 (by decide), Option.map_none', Option.bind_eq_none]
    intro a _
    trivial
  · unfold encoded_merge
    simp only [sizeof_ull, if_true, hz, decode_value_zero fuel 3 (by decide),
      Option.map_none']
  · unfold encoded_compare encoded_decode
    simp only [Bool.false_eq_true, if_false, decode_value_zero fuel 3 (by decide),
      Option.none_bind]

/-! ## The receive step of the harness -/

/-- C40, the code at a failing input: a Compressed receiver (process 0 of
`n = 2`, all zero) is delivered the full vector `[0, 1]`. `compressed_merge`
performs the receive increment and `do_try_recv` then calls the increment once
more, as its test names `CLOCK_DIFFERENTIAL` only: the own entry ends at 2, not
at `max(0, 0) + 1`. A Differential receiver in the same situation ends at 1.
The receiver is the state `compressed_create` returns and the payload is what
process 1 sends to process 0 after the increment of its first send. -/
theorem C40_compressed_receive_counts_twice :
    do_try_recv 64
        ⟨0, 2, ClockType.CLOCK_COMPRESSED,
          of_compressed ⟨2, 0, ClockType.CLOCK_COMPRESSED, ⟨[0, 0], [[0, 0], [0, 0]], 2⟩, 0⟩⟩
        (some ⟨1, ClockType.CLOCK_COMPRESSED, [0, 1], 8⟩)
      = some (⟨0, 2, ClockType.CLOCK_COMPRESSED,
          of_compressed ⟨2, 0, ClockType.CLOCK_COMPRESSED, ⟨[2, 1], [[0, 0], [0, 0]], 2⟩, 0⟩⟩,
          1) ∧
    (compressed_merge ⟨2, 0, ClockType.CLOCK_COMPRESSED, ⟨[0, 0], [[0, 0], [0, 0]], 2⟩, 0⟩
      [0, 1] 8).data.vt = [1, 1] ∧
    do_try_recv 64
        ⟨0, 2, ClockType.CLOCK_DIFFERENTIAL,
          of_differential
            ⟨2, 0, ClockType.CLOCK_DIFFERENTIAL, ⟨[0, 0], [0, 0], [0, 0]⟩, 0⟩⟩
        (some ⟨1, ClockType.CLOCK_DIFFERENTIAL, [0, 1], 8⟩)
      = some (⟨0, 2, ClockType.CLOCK_DIFFERENTIAL,
          of_differential
            ⟨2, 0, ClockType.CLOCK_DIFFERENTIAL, ⟨[1, 1], [0, 0], [1, 1]⟩, 0⟩⟩, 1) ∧
    compressed_create 2 0 ClockType.CLOCK_COMPRESSED
      = ⟨2, 0, ClockType.CLOCK_COMPRESSED, ⟨[0, 0], [[0, 0], [0, 0]], 2⟩, 0⟩ ∧
    (compressed_serialize_for_dest
        (compressed_increment (compressed_create 2 1 ClockType.CLOCK_COMPRESSED)) 0 [0, 0] 8).2
      = ([0, 1], 8) :=
  ⟨by decide, by decide, by decide, by decide, by decide⟩

end LogicTime
